import Mathlib

/-!
# N-best path extraction of the Moses decoder (`TrellisPath`)

A shallow embedding of `moses/src/src/TrellisPath.cpp`.

* A `Hypothesis *` is a heap address, here a natural number; the heap is a
  function from addresses to `Hypothesis` records and `NULL` is `none`.
* Scores are C++ `float`s.  The value of a score is an integer here: the
  finitely many finite binary floats a run meets become integers after scaling
  by one power of two, and rounding to a binary format commutes with that
  scaling.  A machine operation is the exact operation followed by the rounding
  `FloatModel.round` to a representable value, so `a - b + c` on scores is
  `fadd (fsub a b) c`, rounded twice.  The theorems hold for every rounding
  function; `binary32` is IEEE 754 single precision, round to nearest, ties to
  even, and is what the concrete computations use.  Infinities and NaNs are not
  modelled.
* The two `while (hypo != NULL)` loops need not terminate on a heap whose
  `prevHypo` links form a cycle, so they take a fuel argument and return
  `none` when it runs out.  The counting `for` loops recurse on the number of
  iterations left.
* A `TrellisPathCollection` is the sequence of paths handed to `Add`.
-/

namespace Moses

/-! ## Data model -/

/-- The arithmetic of the C++ type `float`: `round` sends the exact result of an
addition or subtraction of two scores to the representable value the machine
stores.  Nothing is assumed of it. -/
class FloatModel where
  /-- The representable value an exact result is rounded to. -/
  round : Int → Int

/-- The machine subtraction `a - b` of two `float`s. -/
def fsub [FloatModel] (a b : Int) : Int := FloatModel.round (a - b)

/-- The machine addition `a + b` of two `float`s. -/
def fadd [FloatModel] (a b : Int) : Int := FloatModel.round (a + b)

/-- The exponent `e` of the last kept bit of a binary32 number of magnitude `m`:
the format keeps 24 significant bits, so `e` is the least exponent with
`m < 2 ^ (24 + e)`, and `0` for `m < 2 ^ 24`.  Magnitudes of `2 ^ 128` and more
overflow the format and are outside the model. -/
def binary32Exponent (m : Nat) : Nat :=
  ((List.range 105).find? (fun e => decide (m < 2 ^ (24 + e)))).getD 104

/-- Rounds a magnitude to the nearest multiple of `2 ^ binary32Exponent m`; of
two nearest multiples the one with an even quotient is taken. -/
def roundNearestEven (m : Nat) : Nat :=
  let unit := 2 ^ binary32Exponent m
  let q := m / unit
  let r := m % unit
  if 2 * r < unit then q * unit
  else if unit < 2 * r then (q + 1) * unit
  else if q % 2 = 0 then q * unit
  else (q + 1) * unit

/-- IEEE 754 binary32 rounding of an integer: round to nearest, ties to even,
symmetric in the sign.  An integer of magnitude below `2 ^ 24` is representable
and is returned as it is; the general rule gives the same value there
(`roundBinary32_nearest`). -/
def roundBinary32 (x : Int) : Int :=
  if x.natAbs < 2 ^ 24 then x
  else if x < 0 then -(roundNearestEven x.natAbs : Int)
  else (roundNearestEven x.natAbs : Int)

/-- The `float` of the usual platforms: IEEE 754 binary32. -/
instance binary32 : FloatModel := ⟨roundBinary32⟩

/-- Modelled from the spec: class `ScoreComponentCollection` is declared outside
`src/`; the spec gives it as a named-component numeric vector that is summed and
subtracted component by component.  The number of components `n` is fixed by the
decoder's configuration; each component is a `float`. -/
abbrev ScoreComponentCollection (n : Nat) : Type := Fin n → Int

/-- `ScoreComponentCollection::PlusEquals`: component-wise `+=` on `float`s. -/
def ScoreComponentCollection.PlusEquals [FloatModel] {n : Nat}
    (self rhs : ScoreComponentCollection n) : ScoreComponentCollection n :=
  fun i => fadd (self i) (rhs i)

/-- `ScoreComponentCollection::MinusEquals`: component-wise `-=` on `float`s. -/
def ScoreComponentCollection.MinusEquals [FloatModel] {n : Nat}
    (self rhs : ScoreComponentCollection n) : ScoreComponentCollection n :=
  fun i => fsub (self i) (rhs i)

/-- Modelled from the spec: class `Hypothesis` is declared outside `src/`; these
are the members `TrellisPath.cpp` reads through `GetPrevHypo`, `GetWinningHypo`,
`GetArcList`, `GetTotalScore` and `GetScoreBreakdown` (the spec's
`get_predecessor`, `get_recombination_winner`, `get_alternative_edges` and the
cumulative scores).  Pointers are heap addresses; `none` is `NULL`. -/
structure Hypothesis (n : Nat) where
  /-- `GetPrevHypo()`, `NULL` for the start hypothesis. -/
  m_prevHypo : Option Nat
  /-- `GetWinningHypo()`; the code dereferences it unconditionally. -/
  m_winningHypo : Nat
  /-- `GetArcList()`, `NULL` when the hypothesis has no arc list. -/
  m_arcList : Option (List Nat)
  /-- `GetTotalScore()`, a `float`. -/
  m_totalScore : Int
  /-- `GetScoreBreakdown()`. -/
  m_scoreBreakdown : ScoreComponentCollection n

/-- The heap of hypotheses built by the search: address to object. -/
abbrev Graph (n : Nat) : Type := Nat → Hypothesis n

/-- Modelled from the spec: the constant `NOT_FOUND` and the type of
`m_prevEdgeChanged` are declared outside `src/`; the spec gives `deviatedAt` as
an index into the path or "none", so `NOT_FOUND` is `none` and an index `k` is
`some k`. -/
def NOT_FOUND : Option Nat := none

/-- The data members of class `TrellisPath`. -/
structure TrellisPath (n : Nat) where
  /-- `m_path`: the hypotheses of the path, last hypothesis first. -/
  m_path : List Nat
  /-- `m_prevEdgeChanged`: the index of the edge changed last, or `NOT_FOUND`. -/
  m_prevEdgeChanged : Option Nat
  m_scoreBreakdown : ScoreComponentCollection n
  m_totalScore : Int

variable {n : Nat}

/-! ## The constructors -/

/-- The loop `while (hypo != NULL) { m_path.push_back(hypo); hypo = hypo->GetPrevHypo(); }`
shared by both constructors (lines 35-39 and 55-59), started with `m_path = path`.
One unit of fuel is one iteration; `none` means the fuel ran out. -/
def enumeratePath (g : Graph n) : Nat → Option Nat → List Nat → Option (List Nat)
  | _, none, path => some path
  | 0, some _, _ => none
  | fuel + 1, some hypo, path =>
      enumeratePath g fuel (g hypo).m_prevHypo (path ++ [hypo])

/-- `TrellisPath::TrellisPath(const Hypothesis *hypo)`, lines 28-40. -/
def TrellisPath.ofHypo (g : Graph n) (fuel : Nat) (hypo : Nat) : Option (TrellisPath n) :=
  match enumeratePath g fuel (some hypo) [] with
  | none => none
  | some path =>
      some { m_path := path
             m_prevEdgeChanged := NOT_FOUND
             m_scoreBreakdown := (g hypo).m_scoreBreakdown
             m_totalScore := (g hypo).m_totalScore }

/-- The loop of lines 45-48, `for (currEdge = 0; currEdge < edgeIndex; currEdge++)
m_path.push_back(copy.m_path[currEdge])`: the first argument counts the
iterations left (`edgeIndex - currEdge`).  A read past the end of the parent's
path is undefined in C++ and gives `none` here. -/
def copyFromParent (copyPath : List Nat) : Nat → Nat → List Nat → Option (List Nat)
  | 0, _, path => some path
  | left + 1, currEdge, path =>
      match copyPath[currEdge]? with
      | none => none
      | some hypo => copyFromParent copyPath left (currEdge + 1) (path ++ [hypo])

/-- The loop of lines 66-76 over `pos = 0 .. sizePath - 1`, here over the
hypotheses `m_path[pos]` in order; the state is `(m_totalScore, m_scoreBreakdown)`.
Line 72, `m_totalScore - winningHypo->GetTotalScore() + hypo->GetTotalScore()`,
is a machine subtraction followed by a machine addition. -/
def calcScore [FloatModel] (g : Graph n) :
    List Nat → Int × ScoreComponentCollection n → Int × ScoreComponentCollection n
  | [], acc => acc
  | hypo :: rest, (total, breakdown) =>
      let winningHypo := (g hypo).m_winningHypo
      if hypo ≠ winningHypo then
        calcScore g rest
          (fadd (fsub total (g winningHypo).m_totalScore) (g hypo).m_totalScore,
           (breakdown.MinusEquals (g winningHypo).m_scoreBreakdown).PlusEquals
             (g hypo).m_scoreBreakdown)
      else
        calcScore g rest (total, breakdown)

/-- `TrellisPath::TrellisPath(const TrellisPath &copy, size_t edgeIndex, const Hypothesis *arc)`,
lines 42-77. -/
def TrellisPath.ofDeviation [FloatModel] (g : Graph n) (fuel : Nat) (copy : TrellisPath n)
    (edgeIndex : Nat) (arc : Nat) : Option (TrellisPath n) :=
  match copyFromParent copy.m_path edgeIndex 0 [] with
  | none => none
  | some fromParent =>
      match enumeratePath g fuel (g arc).m_prevHypo (fromParent ++ [arc]) with
      | none => none
      | some path =>
          match path with
          | [] => none
          | first :: _ =>
              let winner := (g first).m_winningHypo
              let score := calcScore g path
                ((g winner).m_totalScore, (g winner).m_scoreBreakdown)
              some { m_path := path
                     m_prevEdgeChanged := some edgeIndex
                     m_scoreBreakdown := score.2
                     m_totalScore := score.1 }

/-! ## The deviation generator -/

/-- The inner loop of `CreateDeviantPaths` (lines 94-99 and 111-117): one
`new TrellisPath(*this, currEdge, arc)` and one `pathColl.Add` per element of
the arc list.  The collection is the sequence of paths added so far. -/
def addDeviantArcs [FloatModel] (g : Graph n) (fuel : Nat) (self : TrellisPath n) (currEdge : Nat) :
    List Nat → List (TrellisPath n) → Option (List (TrellisPath n))
  | [], pathColl => some pathColl
  | arc :: rest, pathColl =>
      match TrellisPath.ofDeviation g fuel self currEdge arc with
      | none => none
      | some deviantPath => addDeviantArcs g fuel self currEdge rest (pathColl ++ [deviantPath])

/-- The outer loop of `CreateDeviantPaths` (lines 85-100 and 104-118),
`for (currEdge = ...; currEdge < sizePath; currEdge++)`: the first argument
counts the iterations left (`sizePath - currEdge`). -/
def addDeviantEdges [FloatModel] (g : Graph n) (fuel : Nat) (self : TrellisPath n) :
    Nat → Nat → List (TrellisPath n) → Option (List (TrellisPath n))
  | 0, _, pathColl => some pathColl
  | left + 1, currEdge, pathColl =>
      match self.m_path[currEdge]? with
      | none => none
      | some hypo =>
          match (g hypo).m_arcList with
          | none => addDeviantEdges g fuel self left (currEdge + 1) pathColl
          | some arcList =>
              match addDeviantArcs g fuel self currEdge arcList pathColl with
              | none => none
              | some pathColl2 => addDeviantEdges g fuel self left (currEdge + 1) pathColl2

/-- `TrellisPath::CreateDeviantPaths`, lines 79-120.  `pathColl` is the sequence
of paths handed to `TrellisPathCollection::Add`, oldest first. -/
def TrellisPath.CreateDeviantPaths [FloatModel] (g : Graph n) (fuel : Nat) (self : TrellisPath n)
    (pathColl : List (TrellisPath n)) : Option (List (TrellisPath n)) :=
  let sizePath := self.m_path.length
  match self.m_prevEdgeChanged with
  | none => addDeviantEdges g fuel self sizePath 0 pathColl
  | some prevEdgeChanged =>
      addDeviantEdges g fuel self (sizePath - (prevEdgeChanged + 1)) (prevEdgeChanged + 1) pathColl

/-! ## Specification-side notions -/

/-- The specification's walk: `chainFrom g o l` says that `l` lists, in order,
the hypotheses met by following `prevHypo` links starting at `o`, down to and
including the hypothesis without predecessor. -/
def chainFrom (g : Graph n) : Option Nat → List Nat → Prop
  | none, l => l = []
  | some _, [] => False
  | some h, x :: rest => x = h ∧ chainFrom g (g h).m_prevHypo rest

instance chainFrom.instDecidable (g : Graph n) : ∀ o l, Decidable (chainFrom g o l)
  | none, l => by unfold chainFrom; infer_instance
  | some _, [] => by unfold chainFrom; infer_instance
  | some h, x :: rest =>
      have := chainFrom.instDecidable g (g h).m_prevHypo rest
      by unfold chainFrom; infer_instance

/-- The score the deviation constructor computes for a finished path (lines
61-76): start from the winner of `m_path[0]` and run `calcScore`. -/
def deviationScore [FloatModel] (g : Graph n) (path : List Nat) : Int × ScoreComponentCollection n :=
  match path with
  | [] => (0, fun _ => 0)
  | first :: _ =>
      calcScore g path
        ((g (g first).m_winningHypo).m_totalScore, (g (g first).m_winningHypo).m_scoreBreakdown)

/-- The object the deviation constructor builds once its path is known. -/
def deviantOf [FloatModel] (g : Graph n) (path : List Nat) (edgeIndex : Nat) : TrellisPath n :=
  { m_path := path
    m_prevEdgeChanged := some edgeIndex
    m_scoreBreakdown := (deviationScore g path).2
    m_totalScore := (deviationScore g path).1 }

/-- The positions of a path that are not their own recombination winner. -/
def notWinners (g : Graph n) (path : List Nat) : List Nat :=
  path.filter (fun h => decide (h ≠ (g h).m_winningHypo))

/-- What line 72 does to one score at a position holding `h`: the running value
`t` becomes `t - score(winner of h) + score(h)`, a machine subtraction followed
by a machine addition.  `score` reads the total score or one component of the
score breakdown. -/
def adjust [FloatModel] (score : Nat → Int) (g : Graph n) (t : Int) (h : Nat) : Int :=
  fadd (fsub t (score (g h).m_winningHypo)) (score h)

/-- Neither operation of `adjust` rounds, at any of the hypotheses of the list,
when the running value starts at `t`: both exact results are representable. -/
def ExactSteps [FloatModel] (score : Nat → Int) (g : Graph n) : List Nat → Int → Prop
  | [], _ => True
  | h :: rest, t =>
      FloatModel.round (t - score (g h).m_winningHypo) = t - score (g h).m_winningHypo ∧
      FloatModel.round (t - score (g h).m_winningHypo + score h)
        = t - score (g h).m_winningHypo + score h ∧
      ExactSteps score g rest (t - score (g h).m_winningHypo + score h)

instance ExactSteps.instDecidable [FloatModel] (score : Nat → Int) (g : Graph n) :
    ∀ l t, Decidable (ExactSteps score g l t)
  | [], _ => by unfold ExactSteps; infer_instance
  | h :: rest, t =>
      have := ExactSteps.instDecidable score g rest
        (t - score (g h).m_winningHypo + score h)
      by unfold ExactSteps; infer_instance

/-- No operation of the score loop of the deviation constructor (lines 66-76)
rounds when it runs over `path` on the score `score`: the loop starts from the
score of the winner of `path[0]` and adjusts at the positions that are not
their own winner. -/
def loopExact [FloatModel] (score : Nat → Int) (g : Graph n) (path : List Nat) : Prop :=
  match path with
  | [] => True
  | first :: _ => ExactSteps score g (notWinners g path) (score (g first).m_winningHypo)

instance loopExact.instDecidable [FloatModel] (score : Nat → Int) (g : Graph n)
    (path : List Nat) : Decidable (loopExact score g path) :=
  match path with
  | [] => isTrue trivial
  | first :: rest =>
      ExactSteps.instDecidable score g (notWinners g (first :: rest))
        (score (g first).m_winningHypo)

/-- The arc list of the hypothesis at position `i` of a path; empty when the
position does not exist or the hypothesis has no arc list. -/
def arcsAt (g : Graph n) (D : TrellisPath n) (i : Nat) : List Nat :=
  match D.m_path[i]? with
  | none => []
  | some hypo =>
      match (g hypo).m_arcList with
      | none => []
      | some arcList => arcList

/-- The first position the deviation generator considers: `0` for a path with
`m_prevEdgeChanged = NOT_FOUND`, otherwise `m_prevEdgeChanged + 1`. -/
def firstEdge (D : TrellisPath n) : Nat :=
  match D.m_prevEdgeChanged with
  | none => 0
  | some j => j + 1

/-- Every call of the deviation constructor on `(D, i, a)` for the positions
`start ≤ i < len(D)` and the members `a` of the arc list at `i`: in position
order, then in arc-list order. -/
def deviationsFrom [FloatModel] (g : Graph n) (fuel : Nat) (D : TrellisPath n) (start : Nat) :
    List (Option (TrellisPath n)) :=
  (List.range' start (D.m_path.length - start)).flatMap
    (fun i => (arcsAt g D i).map (fun a => TrellisPath.ofDeviation g fuel D i a))

/-- Collects a list of results: `some` of all the values when every element is
`some`, `none` as soon as one is `none`. -/
def allSome {α : Type} : List (Option α) → Option (List α)
  | [] => some []
  | none :: _ => none
  | some x :: rest => (allSome rest).map (fun xs => x :: xs)

/-- The paths obtained from the path of `root` by zero or more rounds of
`CreateDeviantPaths`. -/
inductive Reachable [FloatModel] (g : Graph n) (fuel root : Nat) : TrellisPath n → Prop
  | root (D : TrellisPath n) :
      TrellisPath.ofHypo g fuel root = some D → Reachable g fuel root D
  | deviant (P : TrellisPath n) (L : List (TrellisPath n)) (D : TrellisPath n) :
      Reachable g fuel root P → P.CreateDeviantPaths g fuel [] = some L → D ∈ L →
      Reachable g fuel root D

/-- Consecutive hypotheses of a path are linked through recombination: the
predecessor of each hypothesis is the winner of the next one, and the last
hypothesis has no predecessor. -/
def WinnerLinked (g : Graph n) : List Nat → Prop
  | [] => True
  | [a] => (g a).m_prevHypo = none
  | a :: b :: rest =>
      (g a).m_prevHypo = some (g b).m_winningHypo ∧ WinnerLinked g (b :: rest)

/-- What holds of the hypotheses of every path met during the enumeration on a
graph shaped as the data model describes: the path is `WinnerLinked`, and from
the changed edge on each hypothesis is followed by its predecessor. -/
def PathInvariant (g : Graph n) (D : TrellisPath n) : Prop :=
  WinnerLinked g D.m_path ∧
  ∀ i a, firstEdge D ≤ i + 1 → D.m_path[i]? = some a → D.m_path[i + 1]? = (g a).m_prevHypo

/-- The members `a` of the arc list at position `i` with `a != D.nodes[i]`, as
the specification's initial rule words it. -/
def alternativesAt (g : Graph n) (D : TrellisPath n) (i : Nat) : List Nat :=
  (arcsAt g D i).filter (fun a => decide (D.m_path[i]? ≠ some a))

/-- The deviations the specification's rules ask for: as `deviationsFrom`, but
only for the arc-list members that differ from the hypothesis on the path. -/
def deviationsAsSpecified [FloatModel] (g : Graph n) (fuel : Nat) (D : TrellisPath n) (start : Nat) :
    List (Option (TrellisPath n)) :=
  (List.range' start (D.m_path.length - start)).flatMap
    (fun i => (alternativesAt g D i).map (fun a => TrellisPath.ofDeviation g fuel D i a))

/-- What holds of the first hypothesis of every path of the enumeration from
`root`, whatever the graph: the first hypothesis is `root` or a member of
`root`'s arc list, and a path with `m_prevEdgeChanged = NOT_FOUND` starts with
`root`. -/
def HeadInvariant (g : Graph n) (root : Nat) (D : TrellisPath n) : Prop :=
  ∃ first tail, D.m_path = first :: tail ∧
    (first = root ∨ ∃ al, (g root).m_arcList = some al ∧ first ∈ al) ∧
    (D.m_prevEdgeChanged = none → first = root)

/-- What holds of the scores of every path of the enumeration from `root`,
whatever the graph: a path with `m_prevEdgeChanged = NOT_FOUND` carries the
scores of `root`, and any other path carries what the score loop makes of the
scores of the winner of its first hypothesis, adjusting at the positions that
are not their own winner. -/
def ScoreInvariant [FloatModel] (g : Graph n) (root : Nat) (D : TrellisPath n) : Prop :=
  (D.m_prevEdgeChanged = none →
    D.m_totalScore = (g root).m_totalScore ∧
    ∀ c, D.m_scoreBreakdown c = (g root).m_scoreBreakdown c) ∧
  (∀ j, D.m_prevEdgeChanged = some j → ∃ first tail, D.m_path = first :: tail ∧
    D.m_totalScore = (notWinners g D.m_path).foldl
      (adjust (fun h => (g h).m_totalScore) g) (g (g first).m_winningHypo).m_totalScore ∧
    ∀ c, D.m_scoreBreakdown c = (notWinners g D.m_path).foldl
      (adjust (fun h => (g h).m_scoreBreakdown c) g)
      ((g (g first).m_winningHypo).m_scoreBreakdown c))

/-- The enumeration tree: the node at the empty address is the path of `root`,
and the node at address `c :: addr` is the `c`-th path that `CreateDeviantPaths`
adds for the node at address `addr`.  `none` when there is no such node. -/
def treeNode [FloatModel] (g : Graph n) (fuel root : Nat) : List Nat → Option (TrellisPath n)
  | [] => TrellisPath.ofHypo g fuel root
  | c :: addr =>
      match treeNode g fuel root addr with
      | none => none
      | some P =>
          match P.CreateDeviantPaths g fuel [] with
          | none => none
          | some L => L[c]?

/-- The edges of a path that do not follow a predecessor link: reading the path
from position `i` on, where `expected` is the hypothesis a predecessor link would
put at position `i`, the pairs (position, hypothesis) where another hypothesis
stands. -/
def changedEdges (g : Graph n) : Option Nat → Nat → List Nat → List (Nat × Nat)
  | _, _, [] => []
  | expected, i, x :: rest =>
      (if expected = some x then [] else [(i, x)])
        ++ changedEdges g (g x).m_prevHypo (i + 1) rest

/-- The hypothesis a predecessor link would put right after the hypotheses of
`path`, when `expected` is what it would put at their start. -/
def nextExpected (g : Graph n) : Option Nat → List Nat → Option Nat
  | expected, [] => expected
  | _, x :: rest => nextExpected g (g x).m_prevHypo rest

/-- The pairs (position, arc-list member) the deviation generator goes through
from position `start` on, in its order. -/
def deviationPairs (g : Graph n) (D : TrellisPath n) (start : Nat) : List (Nat × Nat) :=
  (List.range' start (D.m_path.length - start)).flatMap
    (fun i => (arcsAt g D i).map (fun a => (i, a)))

/-- What holds of every path of the enumeration from `root` on any graph: from
the changed edge on each hypothesis is followed by its predecessor, and a path
with `m_prevEdgeChanged = NOT_FOUND` starts with `root`. -/
def SuffixInvariant (g : Graph n) (root : Nat) (D : TrellisPath n) : Prop :=
  (∀ i a, firstEdge D ≤ i + 1 → D.m_path[i]? = some a →
    D.m_path[i + 1]? = (g a).m_prevHypo) ∧
  (D.m_prevEdgeChanged = none → D.m_path[0]? = some root)

/-- The scenario of the specification: start `S = 0`, `A = 1` (winner, 10) and
`A' = 2` (alternative, 7) recombined into one class, terminal `T = 3` after `A`
with total 15.  One score component, equal to the total. -/
def scenarioGraph : Graph 1
  | 0 => ⟨none, 0, none, 0, fun _ => 0⟩
  | 1 => ⟨some 0, 1, some [2], 10, fun _ => 10⟩
  | 2 => ⟨some 0, 1, none, 7, fun _ => 7⟩
  | 3 => ⟨some 1, 3, none, 15, fun _ => 15⟩
  | _ => ⟨none, 0, none, 0, fun _ => 0⟩

/-- The edge contributions in the scenario: `A` 10, `A'` 7, `T` 5. -/
def scenarioEdgeScore : Nat → Int
  | 1 => 10
  | 2 => 7
  | 3 => 5
  | _ => 0

/-- The edge contributions in the scenario, as one-component score vectors. -/
def scenarioEdgeBreakdown : Nat → ScoreComponentCollection 1 :=
  fun h _ => scenarioEdgeScore h

/-- The path `[T, A, S]` of the scenario, with total 15. -/
def scenarioBest : TrellisPath 1 := ⟨[3, 1, 0], NOT_FOUND, fun _ => 15, 15⟩

/-- The deviation `[T, A', S]` of the scenario, with total 12. -/
def scenarioDeviant : TrellisPath 1 := ⟨[3, 2, 0], some 1, fun _ => 12, 12⟩

/-- A graph whose only hypothesis `0` is listed in its own arc list. -/
def selfArcGraph : Graph 1 :=
  fun _ => ⟨none, 0, some [0], 0, fun _ => 0⟩

/-- The path of hypothesis `0` in `selfArcGraph`. -/
def selfArcPath : TrellisPath 1 := ⟨[0], NOT_FOUND, fun _ => 0, 0⟩

/-- A graph made of start hypotheses without arc lists. -/
def startOnlyGraph : Graph 1 :=
  fun h => ⟨none, h, none, 0, fun _ => 0⟩

/-- A graph whose terminal hypothesis `0` (score 5) lost recombination to
hypothesis `1` (score 10) and lists it in its arc list; every hypothesis has `1`
as winner. -/
def loserRootGraph : Graph 1
  | 0 => ⟨none, 1, some [1], 5, fun _ => 5⟩
  | _ => ⟨none, 1, none, 10, fun _ => 10⟩

/-- The path of hypothesis `0` in `loserRootGraph`. -/
def loserRootPath : TrellisPath 1 := ⟨[0], NOT_FOUND, fun _ => 5, 5⟩

/-- The deviation of `loserRootPath` at position 0 with hypothesis `1`. -/
def loserRootDeviant : TrellisPath 1 := ⟨[1], some 0, fun _ => 10, 10⟩

/-- The scenario of the specification with one change: the start hypothesis
`S = 0` has lost recombination to a hypothesis `4` of score 3, although it is
the predecessor of `A` and `A'`. -/
def lostStartGraph : Graph 1
  | 0 => ⟨none, 4, none, 0, fun _ => 0⟩
  | 1 => ⟨some 0, 1, some [2], 10, fun _ => 10⟩
  | 2 => ⟨some 0, 1, none, 7, fun _ => 7⟩
  | 3 => ⟨some 1, 3, none, 15, fun _ => 15⟩
  | 4 => ⟨none, 4, none, 3, fun _ => 3⟩
  | _ => ⟨none, 0, none, 0, fun _ => 0⟩

/-- The deviation `[T, A', S]` as `lostStartGraph` scores it. -/
def lostStartDeviant : TrellisPath 1 := ⟨[3, 2, 0], some 1, fun _ => 9, 9⟩

/-- A graph with two recombination classes: start `0`; `1` (10) with the
alternatives `2` (7) and `3` (6); terminal `4` (15) after `1` with the
alternative `5` (14). -/
def twoClassGraph : Graph 1
  | 1 => ⟨some 0, 1, some [2, 3], 10, fun _ => 10⟩
  | 2 => ⟨some 0, 1, none, 7, fun _ => 7⟩
  | 3 => ⟨some 0, 1, none, 6, fun _ => 6⟩
  | 4 => ⟨some 1, 4, some [5], 15, fun _ => 15⟩
  | 5 => ⟨some 1, 4, none, 14, fun _ => 14⟩
  | _ => ⟨none, 0, none, 0, fun _ => 0⟩

/-- The node of the enumeration tree of `twoClassGraph` from `4` reached by the
first deviation of the root and then its second deviation: `[5, 3, 0]`. -/
def twoClassDeep : TrellisPath 1 := ⟨[5, 3, 0], some 1, fun _ => 10, 10⟩

/-- The third deviation of the root of that tree: `[4, 3, 0]`. -/
def twoClassShallow : TrellisPath 1 := ⟨[4, 3, 0], some 1, fun _ => 11, 11⟩

/-- A graph whose predecessor links never end: every hypothesis has `0` as
predecessor, and `0` is its own predecessor. -/
def cycleGraph : Graph 1 :=
  fun _ => ⟨some 0, 0, none, 0, fun _ => 0⟩

/-- A graph where the alternative `T' = 4` of the terminal `T = 3` was reached
through another hypothesis than `T`: `T` follows `A = 1`, `T'` follows `A' = 2`,
and both `A` and `A'` follow the start `0`. -/
def crossGraph : Graph 1
  | 1 => ⟨some 0, 1, none, 10, fun _ => 10⟩
  | 2 => ⟨some 0, 2, none, 7, fun _ => 7⟩
  | 3 => ⟨some 1, 3, some [4], 15, fun _ => 15⟩
  | 4 => ⟨some 2, 3, none, 12, fun _ => 12⟩
  | _ => ⟨none, 0, none, 0, fun _ => 0⟩

/-- The deviation of `[T, A, S]` at position 0 with `T'` in `crossGraph`. -/
def crossDeviant : TrellisPath 1 := ⟨[4, 2, 0], some 0, fun _ => 12, 12⟩

/-- A graph on which binary32 rounds: start `S = 0`; `A = 1` (winner, 1) and
`A' = 2` (alternative, 0) after `S`; `B = 3` (winner, 0) and `B' = 4`
(alternative, -1) after `A`; terminal `T = 5` after `B` with total 16777218,
above `2 ^ 24`, where only even integers are representable.  Every score is
representable, and so is every difference between a hypothesis and its
predecessor. -/
def roundingGraph : Graph 1
  | 0 => ⟨none, 0, none, 0, fun _ => 0⟩
  | 1 => ⟨some 0, 1, some [2], 1, fun _ => 1⟩
  | 2 => ⟨some 0, 1, none, 0, fun _ => 0⟩
  | 3 => ⟨some 1, 3, some [4], 0, fun _ => 0⟩
  | 4 => ⟨some 1, 3, none, -1, fun _ => -1⟩
  | 5 => ⟨some 3, 5, none, 16777218, fun _ => 16777218⟩
  | _ => ⟨none, 0, none, 0, fun _ => 0⟩

/-- The edge contributions in `roundingGraph`: the score of a hypothesis minus
the score of its predecessor. -/
def roundingEdgeScore : Nat → Int
  | 1 => 1
  | 3 => -1
  | 4 => -2
  | 5 => 16777218
  | _ => 0

/-- The path `[T, B, A, S]` of the terminal hypothesis of `roundingGraph`. -/
def roundingRoot : TrellisPath 1 := ⟨[5, 3, 1, 0], NOT_FOUND, fun _ => 16777218, 16777218⟩

/-- The deviation `[T, B', A, S]` of `roundingRoot` at position 1, as binary32
scores it: `16777218 - 0 + -1 = 16777217` is rounded to 16777216. -/
def roundingFirst : TrellisPath 1 := ⟨[5, 4, 1, 0], some 1, fun _ => 16777216, 16777216⟩

/-- The deviation `[T, B, A', S]` of `roundingRoot` at position 2, as binary32
scores it: `16777218 - 1 = 16777217` is rounded to 16777216. -/
def roundingOther : TrellisPath 1 := ⟨[5, 3, 2, 0], some 2, fun _ => 16777216, 16777216⟩

/-- The deviation `[T, B', A', S]` of `roundingFirst` at position 2, as binary32
scores it: 16777216 from position 1, then `16777216 - 1 + 0 = 16777215`. -/
def roundingSecond : TrellisPath 1 := ⟨[5, 4, 2, 0], some 2, fun _ => 16777215, 16777215⟩

/-- A graph on which binary32 rounds upwards: the scenario of the specification
with the scores `A` -8, `A'` -9 and `T` 33554430, just below `2 ^ 25`. -/
def roundUpGraph : Graph 1
  | 0 => ⟨none, 0, none, 0, fun _ => 0⟩
  | 1 => ⟨some 0, 1, some [2], -8, fun _ => -8⟩
  | 2 => ⟨some 0, 1, none, -9, fun _ => -9⟩
  | 3 => ⟨some 1, 3, none, 33554430, fun _ => 33554430⟩
  | _ => ⟨none, 0, none, 0, fun _ => 0⟩

/-- The path `[T, A, S]` of the terminal hypothesis of `roundUpGraph`. -/
def roundUpBest : TrellisPath 1 := ⟨[3, 1, 0], NOT_FOUND, fun _ => 33554430, 33554430⟩

/-- The deviation `[T, A', S]` of `roundUpBest`, as binary32 scores it:
`33554430 - -8 = 33554438` is rounded to 33554440, and `33554440 + -9 = 33554431`
is rounded to 33554432. -/
def roundUpDeviant : TrellisPath 1 := ⟨[3, 2, 0], some 1, fun _ => 33554432, 33554432⟩

/-- The first deviation of the root of the enumeration tree of `twoClassGraph`
from `4`: `[5, 1, 0]`, changed at position 0. -/
def twoClassFirst : TrellisPath 1 := ⟨[5, 1, 0], some 0, fun _ => 14, 14⟩

/-- The first deviation of `twoClassFirst`: `[5, 2, 0]`, changed at position 1. -/
def twoClassMid : TrellisPath 1 := ⟨[5, 2, 0], some 1, fun _ => 11, 11⟩

/-- The root of the enumeration tree of `twoClassGraph` from `4`: `[4, 1, 0]`. -/
def twoClassRoot : TrellisPath 1 := ⟨[4, 1, 0], NOT_FOUND, fun _ => 15, 15⟩

/-- The second deviation of that root: `[4, 2, 0]`, changed at position 1. -/
def twoClassSecond : TrellisPath 1 := ⟨[4, 2, 0], some 1, fun _ => 12, 12⟩

/-! ## Rendering a path -/

/-- Class `Word` is declared outside `src/`; a word is taken as what
`GetSurfacePhrase` uses of it, an array of `Factor` pointers indexed by factor
type, `none` being `NULL`. -/
abbrev Word : Type := Nat → Option Nat

/-- Class `Phrase` is declared outside `src/`; a phrase is taken as the sequence
of its words, `Phrase(Output)` as the empty phrase, `Append` as adding the words
of its argument at the end, `AddWord` as adding one word at the end and
`GetFactor(pos, factorType)` as reading the factor of the word at `pos`. -/
abbrev Phrase : Type := List Word

/-- The ways `GetSurfacePhrase` can stop without returning a phrase. -/
inductive Abort where
  /-- `assert(factor)` failed. -/
  | assertFailed
  /-- A read past the end of a vector. -/
  | badIndex
  deriving DecidableEq

/-- The loop of `GetTargetPhrase`, lines 127-133,
`for (int node = numHypo - 2; node >= 0; --node)`: the first numeric argument is
`node + 1`, the number of iterations left.  `(int) m_path.size()` is taken
without wrap-around. -/
def appendTargetPhrases (currTargetPhrase : Nat → Phrase) (path : List Nat) :
    Nat → Phrase → Option Phrase
  | 0, targetPhrase => some targetPhrase
  | node + 1, targetPhrase =>
      match path[node]? with
      | none => none
      | some hypo =>
          appendTargetPhrases currTargetPhrase path node (targetPhrase ++ currTargetPhrase hypo)

/-- `TrellisPath::GetTargetPhrase`, lines 122-136.  `currTargetPhrase` gives
`GetCurrTargetPhrase()` of the hypothesis at an address. -/
def TrellisPath.GetTargetPhrase (currTargetPhrase : Nat → Phrase) (self : TrellisPath n) :
    Option Phrase :=
  let numHypo := self.m_path.length
  appendTargetPhrases currTargetPhrase self.m_path (numHypo - 1) []

/-- The inner loop of `GetSurfacePhrase`, lines 147-153, over the output factor
types still to do.  `newWord` is the index in `ret` of the word `AddWord`
returned; `ndebug` tells whether `assert` is compiled out. -/
def copyOutputFactors (ndebug : Bool) (pos newWord : Nat) :
    List Nat → Phrase → Except Abort Phrase
  | [], ret => Except.ok ret
  | factorType :: rest, ret =>
      match ret[pos]?, ret[newWord]? with
      | some word, some target =>
          let factor := word factorType
          if factor.isNone && !ndebug then
            Except.error Abort.assertFailed
          else
            copyOutputFactors ndebug pos newWord rest
              (ret.set newWord (Function.update target factorType factor))
      | _, _ => Except.error Abort.badIndex

/-- The outer loop of `GetSurfacePhrase`, lines 144-154,
`for (pos = 0; pos < targetPhrase.GetSize(); ++pos)`: the first numeric argument
counts the iterations left.  `blank` is the word `Phrase::AddWord` appends. -/
def addSurfaceWords (ndebug : Bool) (blank : Word) (outputFactor : List Nat) :
    Nat → Nat → Phrase → Except Abort Phrase
  | 0, _, ret => Except.ok ret
  | left + 1, pos, ret =>
      match copyOutputFactors ndebug pos ret.length outputFactor (ret ++ [blank]) with
      | Except.error e => Except.error e
      | Except.ok ret2 => addSurfaceWords ndebug blank outputFactor left (pos + 1) ret2

/-- `TrellisPath::GetSurfacePhrase`, lines 138-157.  `outputFactor` is
`StaticData::Instance().GetOutputFactorOrder()`. -/
def TrellisPath.GetSurfacePhrase (ndebug : Bool) (blank : Word) (outputFactor : List Nat)
    (currTargetPhrase : Nat → Phrase) (self : TrellisPath n) : Except Abort Phrase :=
  match self.GetTargetPhrase currTargetPhrase with
  | none => Except.error Abort.badIndex
  | some targetPhrase =>
      addSurfaceWords ndebug blank outputFactor targetPhrase.length 0 []

/-- The word `Word()` constructs: every factor is `NULL`. -/
def emptyWord : Word := fun _ => none

/-- The phrase the surface phrase is meant to be: each word of the target phrase
restricted to the output factor types. -/
def projectFactors (outputFactor : List Nat) (targetPhrase : Phrase) : Phrase :=
  targetPhrase.map (fun word => fun factorType =>
    if factorType ∈ outputFactor then word factorType else none)

/-- A target phrase of one word whose factor of type 0 is the factor `7`. -/
def oneWordPhrase : Nat → Phrase
  | 1 => [fun factorType => if factorType = 0 then some 7 else none]
  | _ => []

/-- A two-hypothesis path: the hypothesis `1` that produced `oneWordPhrase 1`,
then the start hypothesis `0`. -/
def oneWordPath : TrellisPath 1 := ⟨[1, 0], NOT_FOUND, fun _ => 0, 0⟩

/-! ## Rule extraction: `Rule::CreateSource`

A shallow embedding of `contrib/other-builds/extract-mixed-syntax/Rule.cpp`.
Source positions are C++ `int`s, here integers. -/

/-- Class `ConsistentPhrase` is declared outside `src/`; these are the two
members `CreateSource` reads, `corners[0]` and `corners[1]`, the first and the
last source position of the phrase. -/
structure ConsistentPhrase where
  /-- `corners[0]`. -/
  corners0 : Int
  /-- `corners[1]`. -/
  corners1 : Int
  deriving DecidableEq

/-- What a `const RuleSymbol *` of `m_source` points to: a non-terminal (a
`ConsistentPhrase`) or a word of the source sentence, given by its address. -/
inductive RuleSymbol where
  | nonTerm (cp : ConsistentPhrase)
  | word (w : Nat)
  deriving DecidableEq

/-- The data members of class `Rule` that `CreateSource` uses.
`m_alignedSentence` stands for `m_alignedSentence.GetPhrase(Moses::Input)`, the
vector of the source words. -/
structure Rule where
  m_consistentPhrase : ConsistentPhrase
  m_alignedSentence : List Nat
  m_isValid : Bool
  m_canRecurse : Bool
  m_nonterms : List ConsistentPhrase
  m_source : List RuleSymbol
  deriving DecidableEq

/-- `m_alignedSentence.GetPhrase(Moses::Input)[sourcePos]`: a read outside the
vector is undefined in C++ and gives `none` here. -/
def sourceWordAt (phrase : List Nat) (sourcePos : Int) : Option Nat :=
  if 0 ≤ sourcePos then phrase[sourcePos.toNat]? else none

/-- The loop of `Rule::CreateSource`, lines 44-71.  The state is `sourcePos`,
`nonTermInd`, `cp` and `m_source`; `last` is `m_consistentPhrase.corners[1]`.
The first argument bounds the number of iterations; `none` is returned when it
is used up or when a vector is read out of range. -/
def createSourceLoop (phrase : List Nat) (m_nonterms : List ConsistentPhrase) (last : Int) :
    Nat → Int → Nat → Option ConsistentPhrase → List RuleSymbol → Option (List RuleSymbol)
  | 0, sourcePos, _, _, m_source => if sourcePos ≤ last then none else some m_source
  | fuel + 1, sourcePos, nonTermInd, cp, m_source =>
      if sourcePos ≤ last then
        let inNonTerm : Option ConsistentPhrase :=
          match cp with
          | some c => if c.corners0 ≤ sourcePos ∧ sourcePos ≤ c.corners1 then some c else none
          | none => none
        match inNonTerm with
        | some c =>
            -- lines 53-55: `if (m_nonterms.size()) cp = m_nonterms[nonTermInd];`
            match (if m_nonterms.length ≠ 0 then m_nonterms[nonTermInd]? else some c) with
            | none => none
            | some _ =>
                let cp2 :=
                  if nonTermInd + 1 < m_nonterms.length then m_nonterms[nonTermInd + 1]? else none
                createSourceLoop phrase m_nonterms last fuel (c.corners1 + 1) (nonTermInd + 1) cp2
                  (m_source ++ [RuleSymbol.nonTerm c])
        | none =>
            match sourceWordAt phrase sourcePos with
            | none => none
            | some w =>
                createSourceLoop phrase m_nonterms last fuel (sourcePos + 1) nonTermInd cp
                  (m_source ++ [RuleSymbol.word w])
      else some m_source

/-- `Rule::CreateSource`, lines 36-72.  Every iteration moves `sourcePos`
forward, so `corners[1] - corners[0] + 1` iterations are allowed. -/
def Rule.CreateSource (self : Rule) : Option Rule :=
  let cp : Option ConsistentPhrase :=
    if 0 < self.m_nonterms.length then self.m_nonterms[0]? else none
  match createSourceLoop self.m_alignedSentence self.m_nonterms self.m_consistentPhrase.corners1
      (self.m_consistentPhrase.corners1 - self.m_consistentPhrase.corners0 + 1).toNat
      self.m_consistentPhrase.corners0 0 cp self.m_source with
  | none => none
  | some source => some { self with m_source := source }

/-- `Rule::Rule(const ConsistentPhrase &, const AlignedSentence &)`, lines 12-19. -/
def Rule.ofPhrase (consistentPhrase : ConsistentPhrase) (alignedSentence : List Nat) :
    Option Rule :=
  Rule.CreateSource
    { m_consistentPhrase := consistentPhrase
      m_alignedSentence := alignedSentence
      m_isValid := true
      m_canRecurse := true
      m_nonterms := []
      m_source := [] }

/-- `Rule::Rule(const Rule &copy, const ConsistentPhrase &cp)`, lines 21-30:
`m_source` is not copied, it starts empty. -/
def Rule.ofCopy (copy : Rule) (cp : ConsistentPhrase) : Option Rule :=
  Rule.CreateSource
    { m_consistentPhrase := copy.m_consistentPhrase
      m_alignedSentence := copy.m_alignedSentence
      m_isValid := true
      m_canRecurse := true
      m_nonterms := copy.m_nonterms ++ [cp]
      m_source := [] }

/-- The source words at the `count` positions from `pos` on, in order. -/
def sourceWordsFrom (phrase : List Nat) : Nat → Int → List RuleSymbol
  | 0, _ => []
  | count + 1, pos =>
      RuleSymbol.word (phrase.getD pos.toNat 0) :: sourceWordsFrom phrase count (pos + 1)

/-- The source words at the positions `lo .. hi`, in order. -/
def sourceWords (phrase : List Nat) (lo hi : Int) : List RuleSymbol :=
  sourceWordsFrom phrase (hi + 1 - lo).toNat lo

/-- The source side the specification describes for the span `lo .. hi`: the
words before the first non-terminal, the non-terminal in place of the words it
covers, and so on after it with the remaining non-terminals. -/
def expectedSource (phrase : List Nat) : Int → Int → List ConsistentPhrase → List RuleSymbol
  | lo, hi, [] => sourceWords phrase lo hi
  | lo, hi, c :: rest =>
      sourceWords phrase lo (c.corners0 - 1) ++ RuleSymbol.nonTerm c
        :: expectedSource phrase (c.corners1 + 1) hi rest

/-- Non-terminals listed left to right from position `lo` on, pairwise disjoint
and inside `lo .. hi`. -/
def OrderedSpans : Int → Int → List ConsistentPhrase → Prop
  | _, _, [] => True
  | lo, hi, c :: rest =>
      lo ≤ c.corners0 ∧ c.corners0 ≤ c.corners1 ∧ c.corners1 ≤ hi ∧
        OrderedSpans (c.corners1 + 1) hi rest

/-- The non-terminal a rule symbol is, if it is one. -/
def RuleSymbol.asNonTerm : RuleSymbol → Option ConsistentPhrase
  | RuleSymbol.nonTerm cp => some cp
  | RuleSymbol.word _ => none

/-- A sentence of six words, at the addresses 100 to 105. -/
def sixWords : List Nat := [100, 101, 102, 103, 104, 105]

/-- A rule over the positions 1 to 5 of `sixWords` with the non-terminals
`[2, 3]` and `[5, 5]`, before `CreateSource` runs. -/
def sixWordsRule : Rule :=
  { m_consistentPhrase := ⟨1, 5⟩
    m_alignedSentence := sixWords
    m_isValid := true
    m_canRecurse := true
    m_nonterms := [⟨2, 3⟩, ⟨5, 5⟩]
    m_source := [] }

/-- Whether a rule symbol is a word of the sentence. -/
def RuleSymbol.isWord : RuleSymbol → Bool
  | RuleSymbol.nonTerm _ => false
  | RuleSymbol.word _ => true

/-- Whether the source position `pos` lies in the span of one of the
non-terminals. -/
def coveredBy (nonterms : List ConsistentPhrase) (pos : Int) : Bool :=
  nonterms.any (fun c => decide (c.corners0 ≤ pos ∧ pos ≤ c.corners1))

/-- The source words at those of the `count` positions from `pos` on that no
non-terminal covers, in order. -/
def uncoveredWordsFrom (phrase : List Nat) (nonterms : List ConsistentPhrase) :
    Nat → Int → List RuleSymbol
  | 0, _ => []
  | count + 1, pos =>
      if coveredBy nonterms pos then uncoveredWordsFrom phrase nonterms count (pos + 1)
      else RuleSymbol.word (phrase.getD pos.toNat 0)
        :: uncoveredWordsFrom phrase nonterms count (pos + 1)

/-! ## Feature-function state: `NeuralScoreState::Compare`

A shallow embedding of lines 42-53 of `moses/FF/NeuralScoreFeature.cpp`.  The
words are `std::string`s; here they are the elements of any linearly ordered
type, which is what `operator==` and `operator<` of `std::string` provide. -/

/-- The data members of class `NeuralScoreState`; the two `void *` are
addresses. -/
structure NeuralScoreState (α : Type) where
  m_context : Nat
  m_lastWord : α
  m_lastContext : List α
  m_state : Nat

/-- `std::equal(first1, last1, first2)`: compares the first range with the
range of the same length starting at `first2`.  `Compare` calls it on ranges of
equal length only; here a second range that is too short compares unequal. -/
def std_equal {α : Type} [DecidableEq α] : List α → List α → Bool
  | [], _ => true
  | _ :: _, [] => false
  | a :: as, b :: bs => if a = b then std_equal as bs else false

/-- `std::lexicographical_compare(first1, last1, first2, last2)`: walks both
ranges, returns at the first position where one element is smaller than the
other, and otherwise tells whether the first range ended before the second. -/
def lexicographical_compare {α : Type} [LT α] [DecidableRel (fun a b : α => a < b)] :
    List α → List α → Bool
  | [], [] => false
  | [], _ :: _ => true
  | _ :: _, [] => false
  | a :: as, b :: bs =>
      if a < b then true
      else if b < a then false
      else lexicographical_compare as bs

/-- `NeuralScoreState::Compare`, lines 42-53. -/
def NeuralScoreState.Compare {α : Type} [LinearOrder α]
    (self otherState : NeuralScoreState α) : Int :=
  if self.m_lastContext.length = otherState.m_lastContext.length ∧
      std_equal self.m_lastContext otherState.m_lastContext = true then
    0
  else if lexicographical_compare self.m_lastContext otherState.m_lastContext = true then
    -1
  else
    1

/-! ## Theorems -/

/-! ### Rounding -/

theorem binary32Exponent_of_lt (m : Nat) (h : m < 2 ^ 24) : binary32Exponent m = 0 := by
  have hr : List.range 105 = 0 :: (List.range 104).map Nat.succ := List.range_succ_eq_map 104
  simp only [binary32Exponent, hr]
  rw [List.find?_cons_of_pos _ (by simpa using h)]
  rfl

theorem roundNearestEven_of_lt (m : Nat) (h : m < 2 ^ 24) : roundNearestEven m = m := by
  simp only [roundNearestEven, binary32Exponent_of_lt m h, Nat.pow_zero, Nat.mod_one,
    Nat.mul_zero, Nat.div_one, Nat.mul_one]
  rw [if_pos (by decide)]

/-- The value `roundBinary32` returns for a small magnitude is the one the general
rule gives: on every integer it is the sign times the magnitude rounded to
nearest, ties to even. -/
theorem roundBinary32_nearest (x : Int) :
    roundBinary32 x = if x < 0 then -(roundNearestEven x.natAbs : Int)
      else (roundNearestEven x.natAbs : Int) := by
  unfold roundBinary32
  by_cases h : x.natAbs < 2 ^ 24
  · rw [if_pos h, roundNearestEven_of_lt _ h]
    by_cases hx : x < 0
    · rw [if_pos hx]; omega
    · rw [if_neg hx]; omega
  · rw [if_neg h]

/-! ### The predecessor walk -/

theorem enumeratePath_of_chain (g : Graph n) :
    ∀ (l : List Nat) (o : Option Nat) (fuel : Nat) (path : List Nat),
      chainFrom g o l → l.length ≤ fuel → enumeratePath g fuel o path = some (path ++ l) := by
  intro l
  induction l with
  | nil =>
      intro o fuel path hc _
      cases o with
      | none => cases fuel <;> simp [enumeratePath]
      | some h => simp [chainFrom] at hc
  | cons x rest ih =>
      intro o fuel path hc hf
      cases o with
      | none => simp [chainFrom] at hc
      | some h =>
          obtain ⟨hx, hrest⟩ := hc
          subst hx
          cases fuel with
          | zero => simp at hf
          | succ fuel =>
              have hf2 : rest.length ≤ fuel := by simpa using hf
              simp [enumeratePath, ih _ fuel (path ++ [x]) hrest hf2]

theorem chain_of_enumeratePath (g : Graph n) :
    ∀ (fuel : Nat) (o : Option Nat) (path r : List Nat),
      enumeratePath g fuel o path = some r →
        ∃ l, r = path ++ l ∧ chainFrom g o l ∧ l.length ≤ fuel := by
  intro fuel
  induction fuel with
  | zero =>
      intro o path r h
      cases o with
      | none =>
          simp [enumeratePath] at h
          exact ⟨[], by simp [h], by simp [chainFrom], by simp⟩
      | some x => simp [enumeratePath] at h
  | succ fuel ih =>
      intro o path r h
      cases o with
      | none =>
          simp [enumeratePath] at h
          exact ⟨[], by simp [h], by simp [chainFrom], by simp⟩
      | some x =>
          simp only [enumeratePath] at h
          obtain ⟨l, hl, hc, hlen⟩ := ih _ _ _ h
          exact ⟨x :: l, by simp [hl], ⟨rfl, hc⟩, by simpa using hlen⟩

theorem chainFrom_unique (g : Graph n) :
    ∀ (l l2 : List Nat) (o : Option Nat), chainFrom g o l → chainFrom g o l2 → l = l2 := by
  intro l
  induction l with
  | nil =>
      intro l2 o h1 h2
      cases o with
      | none =>
          simp only [chainFrom] at h2
          exact h2.symm
      | some h => simp [chainFrom] at h1
  | cons x rest ih =>
      intro l2 o h1 h2
      cases o with
      | none => simp [chainFrom] at h1
      | some h =>
          cases l2 with
          | nil => simp [chainFrom] at h2
          | cons y rest2 =>
              obtain ⟨hx, hr⟩ := h1
              obtain ⟨hy, hr2⟩ := h2
              rw [hx, hy, ih _ _ hr hr2]

theorem chainFrom_getElem (g : Graph n) :
    ∀ (l : List Nat) (o : Option Nat), chainFrom g o l →
      l[0]? = o ∧ ∀ i a, l[i]? = some a → l[i + 1]? = (g a).m_prevHypo := by
  intro l
  induction l with
  | nil =>
      intro o hc
      cases o with
      | none => simp
      | some h => simp [chainFrom] at hc
  | cons x rest ih =>
      intro o hc
      cases o with
      | none => simp [chainFrom] at hc
      | some h =>
          obtain ⟨hx, hr⟩ := hc
          subst hx
          obtain ⟨h0, hstep⟩ := ih _ hr
          refine ⟨by simp, ?_⟩
          intro i a hi
          cases i with
          | zero =>
              simp at hi
              subst hi
              simpa using h0
          | succ i =>
              simp at hi
              simpa using hstep i a hi

/-! ### C1 -/

/-- C1: the constructor from a hypothesis `h` whose predecessor chain `l` is
finite returns (for any fuel at least the chain's length) the path `l`: it starts
with `h`, each hypothesis is followed by its `GetPrevHypo()`, and it stops at the
hypothesis without predecessor; the total score and the score breakdown are
those of `h`, and `m_prevEdgeChanged` is `NOT_FOUND`. -/
theorem C1_root_case (g : Graph n) (fuel h : Nat) (l : List Nat)
    (hchain : chainFrom g (some h) l) (hfuel : l.length ≤ fuel) :
    ∃ D, TrellisPath.ofHypo g fuel h = some D ∧
      D.m_path = l ∧
      D.m_path[0]? = some h ∧
      (∀ i a, D.m_path[i]? = some a → D.m_path[i + 1]? = (g a).m_prevHypo) ∧
      D.m_totalScore = (g h).m_totalScore ∧
      D.m_scoreBreakdown = (g h).m_scoreBreakdown ∧
      D.m_prevEdgeChanged = NOT_FOUND := by
  have he := enumeratePath_of_chain g l (some h) fuel [] hchain hfuel
  obtain ⟨h0, hstep⟩ := chainFrom_getElem g l _ hchain
  rw [List.nil_append] at he
  exact ⟨⟨l, NOT_FOUND, (g h).m_scoreBreakdown, (g h).m_totalScore⟩,
    by simp only [TrellisPath.ofHypo, he], rfl, h0, hstep, rfl, rfl, rfl⟩

/-- C1 on the specification's scenario: the path of `T` is `[T, A, S]`. -/
theorem C1_root_case_witness :
    ∃ D, TrellisPath.ofHypo scenarioGraph 3 3 = some D ∧
      D.m_path = [3, 1, 0] ∧
      D.m_path[0]? = some 3 ∧
      (∀ i a, D.m_path[i]? = some a → D.m_path[i + 1]? = (scenarioGraph a).m_prevHypo) ∧
      D.m_totalScore = (scenarioGraph 3).m_totalScore ∧
      D.m_scoreBreakdown = (scenarioGraph 3).m_scoreBreakdown ∧
      D.m_prevEdgeChanged = NOT_FOUND :=
  C1_root_case scenarioGraph 3 3 [3, 1, 0] (by decide) (by decide)

/-! ### The deviation constructor -/

theorem copyFromParent_eq (copyPath : List Nat) :
    ∀ (left currEdge : Nat) (path : List Nat), currEdge + left ≤ copyPath.length →
      copyFromParent copyPath left currEdge path
        = some (path ++ (copyPath.drop currEdge).take left) := by
  intro left
  induction left with
  | zero => intro currEdge path _; simp [copyFromParent]
  | succ left ih =>
      intro currEdge path h
      have hlt : currEdge < copyPath.length := by omega
      have hget : copyPath[currEdge]? = some copyPath[currEdge] := List.getElem?_eq_getElem hlt
      simp only [copyFromParent, hget]
      rw [ih (currEdge + 1) _ (by omega), List.drop_eq_getElem_cons hlt, List.take_succ_cons,
        List.append_assoc, List.singleton_append]

theorem copyFromParent_some (copyPath : List Nat) :
    ∀ (left currEdge : Nat) (path r : List Nat),
      copyFromParent copyPath left currEdge path = some r →
        left = 0 ∨ currEdge + left ≤ copyPath.length := by
  intro left
  induction left with
  | zero => intro _ _ _ _; exact Or.inl rfl
  | succ left ih =>
      intro currEdge path r h
      right
      simp only [copyFromParent] at h
      cases hget : copyPath[currEdge]? with
      | none => simp [hget] at h
      | some hypo =>
          simp only [hget] at h
          have hlt : currEdge < copyPath.length := by
            by_contra hcon
            rw [List.getElem?_eq_none (by omega)] at hget
            cases hget
          rcases ih _ _ _ h with h0 | h1
          · omega
          · omega

theorem ofDeviation_of_chain [FloatModel] (g : Graph n) (fuel : Nat) (P : TrellisPath n) (k arc : Nat)
    (l : List Nat) (hk : k ≤ P.m_path.length) (hc : chainFrom g (g arc).m_prevHypo l)
    (hf : l.length ≤ fuel) :
    TrellisPath.ofDeviation g fuel P k arc
      = some (deviantOf g (P.m_path.take k ++ arc :: l) k) := by
  have h1 := copyFromParent_eq P.m_path k 0 [] (by simpa using hk)
  have h2 := enumeratePath_of_chain g l _ fuel (P.m_path.take k ++ [arc]) hc hf
  simp only [List.nil_append, List.drop_zero] at h1
  simp only [TrellisPath.ofDeviation, h1, h2]
  have h3 : P.m_path.take k ++ [arc] ++ l = P.m_path.take k ++ arc :: l := by simp
  rw [h3]
  cases hp : P.m_path.take k ++ arc :: l with
  | nil => simp at hp
  | cons first rest => simp [deviantOf, deviationScore]

theorem ofDeviation_some [FloatModel] (g : Graph n) (fuel : Nat) (P : TrellisPath n) (k arc : Nat)
    (D : TrellisPath n) (h : TrellisPath.ofDeviation g fuel P k arc = some D) :
    ∃ l, k ≤ P.m_path.length ∧ chainFrom g (g arc).m_prevHypo l ∧ l.length ≤ fuel ∧
      D = deviantOf g (P.m_path.take k ++ arc :: l) k := by
  cases h1 : copyFromParent P.m_path k 0 [] with
  | none => simp [TrellisPath.ofDeviation, h1] at h
  | some fromParent =>
      have hk : k ≤ P.m_path.length := by
        rcases copyFromParent_some _ _ _ _ _ h1 with h0 | h0 <;> omega
      cases h2 : enumeratePath g fuel (g arc).m_prevHypo (fromParent ++ [arc]) with
      | none => simp [TrellisPath.ofDeviation, h1, h2] at h
      | some path =>
          obtain ⟨l, _, hc, hlen⟩ := chain_of_enumeratePath g _ _ _ _ h2
          refine ⟨l, hk, hc, hlen, ?_⟩
          rw [ofDeviation_of_chain g fuel P k arc l hk hc hlen] at h
          exact (Option.some.inj h).symm

/-! ### C2 -/

/-- C2: the deviation constructor called with a parent `P`, an index
`k < len(P.m_path)` and a hypothesis `arc` whose predecessor chain `l` (starting
with `arc` itself) is finite returns a path made of the first `k` hypotheses of
`P`, then `arc`, then the predecessors of `arc` down to the start hypothesis;
its `m_prevEdgeChanged` is `k`. -/
theorem C2_deviation_path [FloatModel] (g : Graph n) (fuel : Nat) (P : TrellisPath n) (k arc : Nat)
    (l : List Nat) (hk : k < P.m_path.length) (hchain : chainFrom g (some arc) l)
    (hfuel : l.length ≤ fuel) :
    ∃ D, TrellisPath.ofDeviation g fuel P k arc = some D ∧
      D.m_path = P.m_path.take k ++ l ∧
      (∀ i, i < k → D.m_path[i]? = P.m_path[i]?) ∧
      D.m_path[k]? = some arc ∧
      (∀ i a, k ≤ i → D.m_path[i]? = some a → D.m_path[i + 1]? = (g a).m_prevHypo) ∧
      D.m_prevEdgeChanged = some k := by
  cases l with
  | nil => simp [chainFrom] at hchain
  | cons x rest =>
      obtain ⟨hx, hrest⟩ := hchain
      subst hx
      have hlen : (P.m_path.take k).length = k := by
        rw [List.length_take]; omega
      refine ⟨_, ofDeviation_of_chain g fuel P k x rest (Nat.le_of_lt hk) hrest
        (by simp at hfuel; omega), rfl, ?_, ?_, ?_, rfl⟩
      · intro i hi
        show (P.m_path.take k ++ x :: rest)[i]? = _
        rw [List.getElem?_append_left (by omega), List.getElem?_take_of_lt hi]
      · show (P.m_path.take k ++ x :: rest)[k]? = _
        rw [List.getElem?_append_right (by omega)]
        simp [hlen]
      · intro i a hi ha
        have hstep := (chainFrom_getElem g (x :: rest) (some x) ⟨rfl, hrest⟩).2
        change (P.m_path.take k ++ x :: rest)[i]? = some a at ha
        show (P.m_path.take k ++ x :: rest)[i + 1]? = _
        rw [List.getElem?_append_right (by omega)] at ha
        rw [List.getElem?_append_right (by omega)]
        rw [hlen] at ha ⊢
        have := hstep (i - k) a ha
        rw [← this]
        congr 1
        omega

/-- C2 on the specification's scenario: replacing `A` by `A'` in `[T, A, S]`. -/
theorem C2_deviation_path_witness :
    ∃ D, TrellisPath.ofDeviation scenarioGraph 3 ⟨[3, 1, 0], NOT_FOUND, fun _ => 15, 15⟩ 1 2
        = some D ∧
      D.m_path = [3] ++ [2, 0] ∧
      (∀ i, i < 1 → D.m_path[i]? = [3, 1, 0][i]?) ∧
      D.m_path[1]? = some 2 ∧
      (∀ i a, 1 ≤ i → D.m_path[i]? = some a →
        D.m_path[i + 1]? = (scenarioGraph a).m_prevHypo) ∧
      D.m_prevEdgeChanged = some 1 :=
  C2_deviation_path scenarioGraph 3 ⟨[3, 1, 0], NOT_FOUND, fun _ => 15, 15⟩ 1 2 [2, 0]
    (by decide) (by decide) (by decide)

/-! ### The score of a deviation -/

theorem TrellisPath.eq_of_fields (a b : TrellisPath n) (hpath : a.m_path = b.m_path)
    (hedge : a.m_prevEdgeChanged = b.m_prevEdgeChanged)
    (hbreak : ∀ c, a.m_scoreBreakdown c = b.m_scoreBreakdown c)
    (htotal : a.m_totalScore = b.m_totalScore) : a = b := by
  cases a with
  | mk p1 e1 b1 t1 =>
      cases b with
      | mk p2 e2 b2 t2 =>
          simp only at hpath hedge htotal hbreak
          have hb : b1 = b2 := funext hbreak
          subst hpath hedge htotal hb
          rfl

theorem notWinners_cons_of_eq (g : Graph n) (x : Nat) (rest : List Nat)
    (hx : x = (g x).m_winningHypo) : notWinners g (x :: rest) = notWinners g rest := by
  simp only [notWinners, List.filter_cons]
  rw [if_neg (by simpa using hx)]

theorem notWinners_cons_of_ne (g : Graph n) (x : Nat) (rest : List Nat)
    (hx : x ≠ (g x).m_winningHypo) : notWinners g (x :: rest) = x :: notWinners g rest := by
  simp only [notWinners, List.filter_cons]
  rw [if_pos (by simpa using hx)]

theorem notWinners_append (g : Graph n) (a b : List Nat) :
    notWinners g (a ++ b) = notWinners g a ++ notWinners g b := by
  simp only [notWinners, List.filter_append]

theorem notWinners_of_own (g : Graph n) :
    ∀ (l : List Nat), (∀ x ∈ l, (g x).m_winningHypo = x) → notWinners g l = [] := by
  intro l
  induction l with
  | nil => intro _; rfl
  | cons x rest ih =>
      intro h
      rw [notWinners_cons_of_eq g x rest (h x (List.mem_cons_self _ _)).symm]
      exact ih (fun y hy => h y (List.mem_cons_of_mem _ hy))

theorem notWinners_sum (g : Graph n) (score : Nat → Int) :
    ∀ (path : List Nat),
      ((notWinners g path).map (fun h => score h - score (g h).m_winningHypo)).sum
        = (path.map (fun h => score h - score (g h).m_winningHypo)).sum := by
  intro path
  induction path with
  | nil => simp [notWinners]
  | cons x rest ih =>
      by_cases hx : x = (g x).m_winningHypo
      · rw [notWinners_cons_of_eq g x rest hx, ih]
        simp only [List.map_cons, List.sum_cons]
        rw [← hx]
        simp
      · rw [notWinners_cons_of_ne g x rest hx]
        simp only [List.map_cons, List.sum_cons, ih]

theorem calcScore_fold [FloatModel] (g : Graph n) :
    ∀ (path : List Nat) (t : Int) (b : ScoreComponentCollection n),
      calcScore g path (t, b)
        = ((notWinners g path).foldl (adjust (fun h => (g h).m_totalScore) g) t,
           fun c => (notWinners g path).foldl
              (adjust (fun h => (g h).m_scoreBreakdown c) g) (b c)) := by
  intro path
  induction path with
  | nil => intro t b; simp [calcScore, notWinners]
  | cons x rest ih =>
      intro t b
      by_cases hx : x = (g x).m_winningHypo
      · simp only [calcScore]
        rw [if_neg (by simpa using hx), ih, notWinners_cons_of_eq g x rest hx]
      · simp only [calcScore]
        rw [if_pos hx, ih, notWinners_cons_of_ne g x rest hx]
        rfl

theorem foldl_adjust_exact [FloatModel] (score : Nat → Int) (g : Graph n) :
    ∀ (l : List Nat) (t : Int), ExactSteps score g l t →
      l.foldl (adjust score g) t
        = t + (l.map (fun h => score h - score (g h).m_winningHypo)).sum := by
  intro l
  induction l with
  | nil => intro t _; simp
  | cons x rest ih =>
      intro t h
      obtain ⟨h1, h2, h3⟩ := h
      have hstep : adjust score g t x = t - score (g x).m_winningHypo + score x := by
        simp only [adjust, fadd, fsub]
        rw [h1, h2]
      simp only [List.foldl_cons, List.map_cons, List.sum_cons]
      rw [hstep, ih _ h3]
      ring

theorem loopExact_sum [FloatModel] (score : Nat → Int) (g : Graph n) (first : Nat)
    (tail : List Nat) (hex : loopExact score g (first :: tail)) :
    (notWinners g (first :: tail)).foldl (adjust score g) (score (g first).m_winningHypo)
      = score first + (tail.map (fun h => score h - score (g h).m_winningHypo)).sum := by
  rw [foldl_adjust_exact score g _ _ hex, notWinners_sum g score]
  simp only [List.map_cons, List.sum_cons]
  ring

theorem deviationScore_fst [FloatModel] (g : Graph n) (first : Nat) (tail : List Nat) :
    (deviationScore g (first :: tail)).1
      = (notWinners g (first :: tail)).foldl (adjust (fun h => (g h).m_totalScore) g)
          (g (g first).m_winningHypo).m_totalScore := by
  simp only [deviationScore, calcScore_fold]

theorem deviationScore_snd [FloatModel] (g : Graph n) (first : Nat) (tail : List Nat)
    (c : Fin n) :
    (deviationScore g (first :: tail)).2 c
      = (notWinners g (first :: tail)).foldl (adjust (fun h => (g h).m_scoreBreakdown c) g)
          ((g (g first).m_winningHypo).m_scoreBreakdown c) := by
  simp only [deviationScore, calcScore_fold]

/-! ### C3 -/

/-- C3 as the code has it: the deviation constructor starts the total score at
the total score of the recombination winner of the first hypothesis and, going
through the positions whose hypothesis is not its own winner in path order,
replaces the running total `t` by `t - score(winner) + score(hypothesis)` in
`float` arithmetic, both operations rounded; each component of the score
breakdown is computed the same way.  Positions that are their own winner change
nothing.  When none of these operations rounds, the total is the score of that
winner plus the sum over those positions of the score of the hypothesis minus
the score of its winner, and so is each component for which none rounds. -/
theorem C3_deviation_score [FloatModel] (g : Graph n) (fuel : Nat) (P : TrellisPath n)
    (k arc : Nat) (l : List Nat) (hk : k ≤ P.m_path.length)
    (hchain : chainFrom g (some arc) l) (hfuel : l.length ≤ fuel) :
    ∃ D first, TrellisPath.ofDeviation g fuel P k arc = some D ∧
      D.m_path[0]? = some first ∧
      D.m_totalScore
        = (D.m_path.filter (fun h => decide (h ≠ (g h).m_winningHypo))).foldl
            (fun t h => fadd (fsub t (g (g h).m_winningHypo).m_totalScore) (g h).m_totalScore)
            (g (g first).m_winningHypo).m_totalScore ∧
      (∀ c, D.m_scoreBreakdown c
        = (D.m_path.filter (fun h => decide (h ≠ (g h).m_winningHypo))).foldl
            (fun t h => fadd (fsub t ((g (g h).m_winningHypo).m_scoreBreakdown c))
              ((g h).m_scoreBreakdown c))
            ((g (g first).m_winningHypo).m_scoreBreakdown c)) ∧
      (loopExact (fun h => (g h).m_totalScore) g D.m_path →
        D.m_totalScore = (g (g first).m_winningHypo).m_totalScore +
          ((D.m_path.filter (fun h => decide (h ≠ (g h).m_winningHypo))).map
            (fun h => (g h).m_totalScore - (g (g h).m_winningHypo).m_totalScore)).sum) ∧
      ∀ c, loopExact (fun h => (g h).m_scoreBreakdown c) g D.m_path →
        D.m_scoreBreakdown c = (g (g first).m_winningHypo).m_scoreBreakdown c +
          ((D.m_path.filter (fun h => decide (h ≠ (g h).m_winningHypo))).map
            (fun h => (g h).m_scoreBreakdown c
              - (g (g h).m_winningHypo).m_scoreBreakdown c)).sum := by
  cases l with
  | nil => simp [chainFrom] at hchain
  | cons x rest =>
      obtain ⟨hx, hrest⟩ := hchain
      subst hx
      have hD := ofDeviation_of_chain g fuel P k x rest hk hrest (by simp at hfuel; omega)
      cases hp : P.m_path.take k ++ x :: rest with
      | nil => simp at hp
      | cons first tail =>
          rw [hp] at hD
          refine ⟨_, first, hD, by simp [deviantOf], ?_, ?_, ?_, ?_⟩
          · simp only [deviantOf, deviationScore_fst]
            rfl
          · intro c
            simp only [deviantOf, deviationScore_snd]
            rfl
          · intro hex
            simp only [deviantOf, deviationScore_fst]
            exact foldl_adjust_exact _ g _ _ hex
          · intro c hex
            simp only [deviantOf, deviationScore_snd]
            exact foldl_adjust_exact _ g _ _ hex

/-- C3 on the specification's scenario: no operation rounds, and `[T, A', S]`
scores `15 + (7 - 10)`. -/
theorem C3_deviation_score_witness :
    ∃ D first, TrellisPath.ofDeviation scenarioGraph 3 ⟨[3, 1, 0], NOT_FOUND, fun _ => 15, 15⟩ 1 2
        = some D ∧
      D.m_path[0]? = some first ∧
      D.m_totalScore = 12 ∧
      D.m_totalScore = (scenarioGraph (scenarioGraph first).m_winningHypo).m_totalScore +
        ((D.m_path.filter (fun h => decide (h ≠ (scenarioGraph h).m_winningHypo))).map
          (fun h => (scenarioGraph h).m_totalScore
            - (scenarioGraph (scenarioGraph h).m_winningHypo).m_totalScore)).sum ∧
      ∀ c, D.m_scoreBreakdown c
        = (scenarioGraph (scenarioGraph first).m_winningHypo).m_scoreBreakdown c +
        ((D.m_path.filter (fun h => decide (h ≠ (scenarioGraph h).m_winningHypo))).map
          (fun h => (scenarioGraph h).m_scoreBreakdown c
            - (scenarioGraph (scenarioGraph h).m_winningHypo).m_scoreBreakdown c)).sum := by
  obtain ⟨D, first, hD, hfirst, _, _, htotal, hbreak⟩ :=
    C3_deviation_score scenarioGraph 3 ⟨[3, 1, 0], NOT_FOUND, fun _ => 15, 15⟩ 1 2 [2, 0]
      (by decide) (by decide) (by decide)
  have hval : D = scenarioDeviant := by
    have h2 : TrellisPath.ofDeviation scenarioGraph 3 ⟨[3, 1, 0], NOT_FOUND, fun _ => 15, 15⟩ 1 2
        = some scenarioDeviant := rfl
    rw [h2] at hD
    exact (Option.some.inj hD).symm
  subst hval
  refine ⟨_, first, hD, hfirst, rfl, htotal (by decide), fun c => hbreak c ?_⟩
  rw [Fin.eq_zero c]
  decide

/-- C3 as stated fails: in `roundingGraph` the path `[T, B', A', S]`, built from
`[T, B', A, S]` at position 2 with `A'`, gets the total 16777215 from the
constructor in binary32 arithmetic (`16777218 - 0 + -1` rounds to 16777216, then
`16777216 - 1 + 0` is 16777215), while the winner's score plus the sum of the
differences is `16777218 + (-1 - 0) + (0 - 1) = 16777216`, in exact and in
binary32 arithmetic alike. -/
theorem C3_counterexample :
    TrellisPath.ofDeviation roundingGraph 4 roundingFirst 2 2 = some roundingSecond ∧
    roundingFirst.m_path = [5, 4, 1, 0] ∧
    roundingSecond.m_path = [5, 4, 2, 0] ∧
    roundingSecond.m_path.filter (fun h => decide (h ≠ (roundingGraph h).m_winningHypo))
      = [4, 2] ∧
    roundingSecond.m_totalScore = 16777215 ∧
    (roundingGraph (roundingGraph 5).m_winningHypo).m_totalScore +
      ((roundingSecond.m_path.filter
          (fun h => decide (h ≠ (roundingGraph h).m_winningHypo))).map
        (fun h => (roundingGraph h).m_totalScore
          - (roundingGraph (roundingGraph h).m_winningHypo).m_totalScore)).sum = 16777216 ∧
    fadd (roundingGraph (roundingGraph 5).m_winningHypo).m_totalScore
      (fadd (fsub (roundingGraph 4).m_totalScore (roundingGraph 3).m_totalScore)
        (fsub (roundingGraph 2).m_totalScore (roundingGraph 1).m_totalScore)) = 16777216 :=
  ⟨congrArg some (TrellisPath.eq_of_fields _ _ rfl rfl
      (fun c => by rw [Fin.eq_zero c]; rfl) rfl),
    rfl, rfl, rfl, rfl, by decide, by decide⟩

/-! ### The deviation generator -/

theorem allSome_eq_some {α : Type} :
    ∀ (fs : List (Option α)) (ds : List α), allSome fs = some ds ↔ ds.map some = fs := by
  intro fs
  induction fs with
  | nil => intro ds; cases ds <;> simp [allSome]
  | cons f rest ih =>
      intro ds
      cases f with
      | none => cases ds <;> simp [allSome]
      | some x =>
          cases ds with
          | nil => simp [allSome]
          | cons d ds =>
              simp only [allSome, Option.map_eq_some', List.map_cons, List.cons.injEq,
                Option.some.injEq]
              constructor
              · rintro ⟨xs, hxs, hx, hds⟩
                subst hds
                exact ⟨hx.symm, (ih _).1 hxs⟩
              · rintro ⟨hx, hds⟩
                exact ⟨ds, (ih _).2 hds, hx.symm, rfl⟩

theorem allSome_append {α : Type} :
    ∀ (fs hs : List (Option α)),
      allSome (fs ++ hs) = (allSome fs).bind (fun xs => (allSome hs).map (fun ys => xs ++ ys)) := by
  intro fs
  induction fs with
  | nil => intro hs; cases h : allSome hs <;> simp [allSome, h]
  | cons f rest ih =>
      intro hs
      cases f with
      | none => simp [allSome]
      | some x =>
          simp only [List.cons_append, allSome, List.append_eq]
          rw [ih hs]
          cases allSome rest with
          | none => simp
          | some xs => cases allSome hs <;> simp

theorem addDeviantArcs_eq [FloatModel] (g : Graph n) (fuel : Nat) (D : TrellisPath n) (k : Nat) :
    ∀ (arcs : List Nat) (pathColl : List (TrellisPath n)),
      addDeviantArcs g fuel D k arcs pathColl
        = (allSome (arcs.map (fun a => TrellisPath.ofDeviation g fuel D k a))).map
            (fun ds => pathColl ++ ds) := by
  intro arcs
  induction arcs with
  | nil => intro pathColl; simp [addDeviantArcs, allSome]
  | cons a rest ih =>
      intro pathColl
      simp only [addDeviantArcs, List.map_cons]
      cases TrellisPath.ofDeviation g fuel D k a with
      | none => simp [allSome]
      | some d =>
          simp only [allSome, ih]
          cases allSome (rest.map (fun a => TrellisPath.ofDeviation g fuel D k a)) <;> simp

theorem addDeviantEdges_eq [FloatModel] (g : Graph n) (fuel : Nat) (D : TrellisPath n) :
    ∀ (left currEdge : Nat) (pathColl : List (TrellisPath n)),
      currEdge + left ≤ D.m_path.length →
      addDeviantEdges g fuel D left currEdge pathColl
        = (allSome ((List.range' currEdge left).flatMap
            (fun i => (arcsAt g D i).map (fun a => TrellisPath.ofDeviation g fuel D i a)))).map
            (fun ds => pathColl ++ ds) := by
  intro left
  induction left with
  | zero => intro currEdge pathColl _; simp [addDeviantEdges, allSome]
  | succ left ih =>
      intro currEdge pathColl h
      have hlt : currEdge < D.m_path.length := by omega
      have hget : D.m_path[currEdge]? = some D.m_path[currEdge] := List.getElem?_eq_getElem hlt
      simp only [addDeviantEdges, hget, List.range'_succ, List.flatMap_cons, allSome_append]
      cases hal : (g D.m_path[currEdge]).m_arcList with
      | none =>
          have ha : arcsAt g D currEdge = [] := by simp [arcsAt, hget, hal]
          simp only [ha, List.map_nil, allSome, Option.some_bind, List.nil_append]
          rw [ih (currEdge + 1) pathColl (by omega)]
          cases allSome ((List.range' (currEdge + 1) left).flatMap
            (fun i => (arcsAt g D i).map (fun a => TrellisPath.ofDeviation g fuel D i a))) <;>
            simp
      | some arcList =>
          have ha : arcsAt g D currEdge = arcList := by simp [arcsAt, hget, hal]
          simp only [ha, addDeviantArcs_eq]
          cases allSome (arcList.map (fun a => TrellisPath.ofDeviation g fuel D currEdge a)) with
          | none => simp
          | some ds =>
              simp only [Option.map_some', Option.some_bind]
              rw [ih (currEdge + 1) _ (by omega)]
              cases allSome ((List.range' (currEdge + 1) left).flatMap
                (fun i => (arcsAt g D i).map (fun a => TrellisPath.ofDeviation g fuel D i a))) <;>
                simp

theorem CreateDeviantPaths_eq [FloatModel] (g : Graph n) (fuel : Nat) (D : TrellisPath n) :
    D.CreateDeviantPaths g fuel [] = allSome (deviationsFrom g fuel D (firstEdge D)) := by
  unfold TrellisPath.CreateDeviantPaths deviationsFrom firstEdge
  cases D.m_prevEdgeChanged with
  | none =>
      simp only [Nat.sub_zero]
      rw [addDeviantEdges_eq g fuel D _ 0 [] (by omega)]
      cases allSome _ <;> simp
  | some j =>
      simp only
      by_cases hj : j + 1 ≤ D.m_path.length
      · rw [addDeviantEdges_eq g fuel D _ (j + 1) [] (by omega)]
        cases allSome _ <;> simp
      · have h0 : D.m_path.length - (j + 1) = 0 := by omega
        rw [h0]
        simp [addDeviantEdges, allSome]

theorem mem_arcsAt (g : Graph n) (D : TrellisPath n) (i a : Nat) :
    a ∈ arcsAt g D i ↔
      ∃ hypo al, D.m_path[i]? = some hypo ∧ (g hypo).m_arcList = some al ∧ a ∈ al := by
  unfold arcsAt
  cases h1 : D.m_path[i]? with
  | none => simp
  | some hypo =>
      cases h2 : (g hypo).m_arcList with
      | none => simp [h2]
      | some al => simp [h2]

theorem mem_CreateDeviantPaths [FloatModel] (g : Graph n) (fuel : Nat) (D : TrellisPath n)
    (L : List (TrellisPath n)) (C : TrellisPath n)
    (hL : D.CreateDeviantPaths g fuel [] = some L) (hC : C ∈ L) :
    ∃ k hypo al arc, firstEdge D ≤ k ∧ D.m_path[k]? = some hypo ∧
      (g hypo).m_arcList = some al ∧ arc ∈ al ∧
      TrellisPath.ofDeviation g fuel D k arc = some C := by
  rw [CreateDeviantPaths_eq, allSome_eq_some] at hL
  have hmem : some C ∈ deviationsFrom g fuel D (firstEdge D) := by
    rw [← hL]
    exact List.mem_map_of_mem _ hC
  simp only [deviationsFrom, List.mem_flatMap, List.mem_map] at hmem
  obtain ⟨k, hk, arc, harc, hdev⟩ := hmem
  obtain ⟨hypo, al, h1, h2, h3⟩ := (mem_arcsAt g D k arc).1 harc
  have hk2 : firstEdge D ≤ k := by
    simp only [List.mem_range'_1] at hk
    exact hk.1
  exact ⟨k, hypo, al, arc, hk2, h1, h2, h3, hdev⟩

/-! ### Invariants of the enumeration -/

theorem append_chain_getElem (g : Graph n) (pre l : List Nat) (o : Option Nat)
    (hc : chainFrom g o l) (i a : Nat) (hi : pre.length ≤ i)
    (ha : (pre ++ l)[i]? = some a) : (pre ++ l)[i + 1]? = (g a).m_prevHypo := by
  have hstep := (chainFrom_getElem g l o hc).2
  rw [List.getElem?_append_right hi] at ha
  rw [List.getElem?_append_right (by omega)]
  rw [← hstep (i - pre.length) a ha]
  congr 1
  omega

theorem chain_ownWinner (g : Graph n)
    (hprev : ∀ h p, (g h).m_prevHypo = some p → (g p).m_winningHypo = p) :
    ∀ (l : List Nat) (h : Nat), chainFrom g (g h).m_prevHypo l →
      ∀ x ∈ l, (g x).m_winningHypo = x := by
  intro l
  induction l with
  | nil => intro h _ x hx; simp at hx
  | cons y rest ih =>
      intro h hc x hx
      cases hp : (g h).m_prevHypo with
      | none => rw [hp] at hc; simp [chainFrom] at hc
      | some p =>
          rw [hp] at hc
          obtain ⟨hy, hrest⟩ := hc
          subst hy
          rcases List.mem_cons.1 hx with hxy | hxr
          · rw [hxy]; exact hprev h y hp
          · exact ih y hrest x hxr

theorem chain_winnerLinked (g : Graph n)
    (hprev : ∀ h p, (g h).m_prevHypo = some p → (g p).m_winningHypo = p) :
    ∀ (l : List Nat) (o : Option Nat), chainFrom g o l → WinnerLinked g l := by
  intro l
  induction l with
  | nil => intro _ _; trivial
  | cons x rest ih =>
      intro o hc
      cases o with
      | none => simp [chainFrom] at hc
      | some h =>
          obtain ⟨hx, hrest⟩ := hc
          subst hx
          cases rest with
          | nil =>
              cases hp : (g x).m_prevHypo with
              | none => exact hp
              | some p => rw [hp] at hrest; simp [chainFrom] at hrest
          | cons y rest2 =>
              cases hp : (g x).m_prevHypo with
              | none => rw [hp] at hrest; simp [chainFrom] at hrest
              | some p =>
                  have hrest2 := hrest
                  rw [hp] at hrest2
                  obtain ⟨hy, _⟩ := hrest2
                  subst hy
                  exact ⟨by rw [hprev x y hp]; exact hp, ih _ hrest⟩

theorem winnerLinked_replace (g : Graph n) (b b2 : Nat) (rest rest2 : List Nat) :
    ∀ (pre : List Nat), WinnerLinked g (pre ++ b :: rest) →
      (pre = [] ∨ (g b2).m_winningHypo = (g b).m_winningHypo) →
      WinnerLinked g (b2 :: rest2) → WinnerLinked g (pre ++ b2 :: rest2) := by
  intro pre
  induction pre with
  | nil => intro _ _ h; simpa using h
  | cons x pre ih =>
      intro h1 hw h2
      have hw2 : (g b2).m_winningHypo = (g b).m_winningHypo := by
        rcases hw with hw | hw
        · simp at hw
        · exact hw
      cases pre with
      | nil =>
          simp only [List.cons_append, List.nil_append, WinnerLinked] at h1 ⊢
          exact ⟨by rw [hw2]; exact h1.1, h2⟩
      | cons y pre2 =>
          simp only [List.cons_append, WinnerLinked] at h1 ⊢
          exact ⟨h1.1, ih h1.2 (Or.inr hw2) h2⟩

theorem edge_sum (g : Graph n) (score edge : Nat → Int)
    (hcum : ∀ h, score h = edge h +
      (match (g h).m_prevHypo with
       | none => 0
       | some p => score p)) :
    ∀ (tail : List Nat) (first : Nat), WinnerLinked g (first :: tail) →
      ((first :: tail).map edge).sum
        = score first + (tail.map (fun h => score h - score (g h).m_winningHypo)).sum := by
  intro tail
  induction tail with
  | nil =>
      intro first h
      simp only [WinnerLinked] at h
      have := hcum first
      rw [h] at this
      simp only at this
      simp [this]
  | cons b rest ih =>
      intro first h
      obtain ⟨h1, h2⟩ := h
      have hc := hcum first
      rw [h1] at hc
      simp only at hc
      have := ih b h2
      simp only [List.map_cons, List.sum_cons] at this ⊢
      rw [this, hc]
      ring

theorem ofHypo_some (g : Graph n) (fuel h : Nat) (D : TrellisPath n)
    (hD : TrellisPath.ofHypo g fuel h = some D) :
    ∃ l, chainFrom g (some h) l ∧ l.length ≤ fuel ∧
      D = ⟨l, NOT_FOUND, (g h).m_scoreBreakdown, (g h).m_totalScore⟩ := by
  cases he : enumeratePath g fuel (some h) [] with
  | none => simp [TrellisPath.ofHypo, he] at hD
  | some path =>
      obtain ⟨l, hl, hc, hlen⟩ := chain_of_enumeratePath g _ _ _ _ he
      simp only [List.nil_append] at hl
      subst hl
      simp only [TrellisPath.ofHypo, he, Option.some.injEq] at hD
      exact ⟨path, hc, hlen, hD.symm⟩

theorem ofHypo_invariant (g : Graph n)
    (hprev : ∀ h p, (g h).m_prevHypo = some p → (g p).m_winningHypo = p)
    (fuel root : Nat) (D : TrellisPath n)
    (hD : TrellisPath.ofHypo g fuel root = some D) : PathInvariant g D := by
  obtain ⟨l, hc, _, rfl⟩ := ofHypo_some g fuel root D hD
  exact ⟨chain_winnerLinked g hprev _ _ hc,
    fun i a _ ha => (chainFrom_getElem g _ _ hc).2 i a ha⟩

theorem ofDeviation_suffix [FloatModel] (g : Graph n) (fuel : Nat) (P D : TrellisPath n)
    (k arc : Nat) (hD : TrellisPath.ofDeviation g fuel P k arc = some D) :
    ∀ i a, firstEdge D ≤ i + 1 → D.m_path[i]? = some a →
      D.m_path[i + 1]? = (g a).m_prevHypo := by
  obtain ⟨l, hkl, hc, _, rfl⟩ := ofDeviation_some g fuel P k arc D hD
  have hlen : (P.m_path.take k).length = k := by
    rw [List.length_take]; omega
  have hcarc : chainFrom g (some arc) (arc :: l) := ⟨rfl, hc⟩
  intro i a hi ha
  have hi2 : k ≤ i := by
    simp only [firstEdge, deviantOf] at hi
    omega
  exact append_chain_getElem g _ _ _ hcarc i a (by omega) ha

theorem ofDeviation_invariant [FloatModel] (g : Graph n)
    (hprev : ∀ h p, (g h).m_prevHypo = some p → (g p).m_winningHypo = p)
    (harc : ∀ h al a, (g h).m_arcList = some al → a ∈ al → (g a).m_winningHypo = h)
    (fuel : Nat) (P D : TrellisPath n) (k hypo arc : Nat) (al : List Nat)
    (hP : PathInvariant g P) (hk : firstEdge P ≤ k) (hget : P.m_path[k]? = some hypo)
    (hal : (g hypo).m_arcList = some al) (hmem : arc ∈ al)
    (hD : TrellisPath.ofDeviation g fuel P k arc = some D) : PathInvariant g D := by
  refine ⟨?_, ofDeviation_suffix g fuel P D k arc hD⟩
  obtain ⟨l, hkl, hc, _, rfl⟩ := ofDeviation_some g fuel P k arc D hD
  obtain ⟨hlinked, hsuffix⟩ := hP
  have hklt : k < P.m_path.length := by
    by_contra hcon
    rw [List.getElem?_eq_none (by omega)] at hget
    cases hget
  have hcarc : chainFrom g (some arc) (arc :: l) := ⟨rfl, hc⟩
  show WinnerLinked g (P.m_path.take k ++ arc :: l)
  have hsplit : P.m_path = P.m_path.take k ++ hypo :: P.m_path.drop (k + 1) := by
    have h1 : P.m_path.drop k = hypo :: P.m_path.drop (k + 1) := by
      rw [List.drop_eq_getElem_cons hklt]
      congr 1
      rw [List.getElem?_eq_getElem hklt] at hget
      exact Option.some.inj hget
    rw [← h1, List.take_append_drop]
  rw [hsplit] at hlinked
  refine winnerLinked_replace g hypo arc _ l _ hlinked ?_
    (chain_winnerLinked g hprev _ _ hcarc)
  cases k with
  | zero => left; simp
  | succ k2 =>
      right
      rw [harc hypo al arc hal hmem]
      have hk2 : k2 < P.m_path.length := by omega
      have hy : P.m_path[k2]? = some P.m_path[k2] := List.getElem?_eq_getElem hk2
      have := hsuffix k2 _ hk hy
      rw [hget] at this
      exact (hprev _ _ this.symm).symm

theorem reachable_invariant [FloatModel] (g : Graph n)
    (hprev : ∀ h p, (g h).m_prevHypo = some p → (g p).m_winningHypo = p)
    (harc : ∀ h al a, (g h).m_arcList = some al → a ∈ al → (g a).m_winningHypo = h)
    (fuel root : Nat) (D : TrellisPath n) (hD : Reachable g fuel root D) :
    PathInvariant g D := by
  induction hD with
  | root D h => exact ofHypo_invariant g hprev fuel root D h
  | deviant P L D _ hL hmem ih =>
      obtain ⟨k, hypo, al, arc, hk, hget, hal, harcmem, hdev⟩ :=
        mem_CreateDeviantPaths g fuel P L D hL hmem
      exact ofDeviation_invariant g hprev harc fuel P D k hypo arc al ih hk hget hal harcmem hdev

theorem reachable_scoreInvariant [FloatModel] (g : Graph n) (fuel root : Nat)
    (D : TrellisPath n) (hD : Reachable g fuel root D) : ScoreInvariant g root D := by
  cases hD with
  | root _ h =>
      obtain ⟨l, _, _, rfl⟩ := ofHypo_some g fuel root D h
      exact ⟨fun _ => ⟨rfl, fun _ => rfl⟩, fun j hj => by cases hj⟩
  | deviant P L _ _ hL hmem =>
      obtain ⟨k, _, _, arc, _, _, _, _, hdev⟩ := mem_CreateDeviantPaths g fuel P L D hL hmem
      obtain ⟨l, _, _, _, rfl⟩ := ofDeviation_some g fuel P k arc D hdev
      refine ⟨(fun h => by cases h), fun j _ => ?_⟩
      cases hp : P.m_path.take k ++ arc :: l with
      | nil => simp at hp
      | cons first tail =>
          exact ⟨first, tail, by simp [deviantOf, hp],
            by simp only [deviantOf, hp, deviationScore_fst],
            fun c => by simp only [deviantOf, hp, deviationScore_snd]⟩

theorem sum_delta_zero (g : Graph n) (score : Nat → Int) (xs : List Nat)
    (hown : ∀ x ∈ xs, (g x).m_winningHypo = x) :
    (xs.map (fun h => score h - score (g h).m_winningHypo)).sum = 0 := by
  apply List.sum_eq_zero
  intro y hy
  obtain ⟨z, hz, rfl⟩ := List.mem_map.1 hy
  rw [hown z hz]
  simp

theorem deviant_sumScore [FloatModel] (g : Graph n) (fuel root : Nat) (D : TrellisPath n)
    (hD : Reachable g fuel root D) (j : Nat) (hj : D.m_prevEdgeChanged = some j) :
    ∃ first tail, D.m_path = first :: tail ∧
      (loopExact (fun h => (g h).m_totalScore) g D.m_path →
        D.m_totalScore = (g first).m_totalScore +
          (tail.map (fun h => (g h).m_totalScore
            - (g (g h).m_winningHypo).m_totalScore)).sum) ∧
      ∀ c, loopExact (fun h => (g h).m_scoreBreakdown c) g D.m_path →
        D.m_scoreBreakdown c = (g first).m_scoreBreakdown c +
          (tail.map (fun h => (g h).m_scoreBreakdown c
            - (g (g h).m_winningHypo).m_scoreBreakdown c)).sum := by
  obtain ⟨first, tail, hpath, htotal, hbreak⟩ :=
    (reachable_scoreInvariant g fuel root D hD).2 j hj
  refine ⟨first, tail, hpath, ?_, ?_⟩
  · intro hex
    rw [htotal]
    rw [hpath] at hex ⊢
    exact loopExact_sum (fun h => (g h).m_totalScore) g first tail hex
  · intro c hex
    rw [hbreak c]
    rw [hpath] at hex ⊢
    exact loopExact_sum (fun h => (g h).m_scoreBreakdown c) g first tail hex

theorem reachable_sumScore [FloatModel] (g : Graph n)
    (hprev : ∀ h p, (g h).m_prevHypo = some p → (g p).m_winningHypo = p)
    (fuel root : Nat) (D : TrellisPath n) (hD : Reachable g fuel root D) :
    ∃ first tail, D.m_path = first :: tail ∧
      ((D.m_prevEdgeChanged = NOT_FOUND ∨ loopExact (fun h => (g h).m_totalScore) g D.m_path) →
        D.m_totalScore = (g first).m_totalScore +
          (tail.map (fun h => (g h).m_totalScore
            - (g (g h).m_winningHypo).m_totalScore)).sum) ∧
      ∀ c, (D.m_prevEdgeChanged = NOT_FOUND ∨
          loopExact (fun h => (g h).m_scoreBreakdown c) g D.m_path) →
        D.m_scoreBreakdown c = (g first).m_scoreBreakdown c +
          (tail.map (fun h => (g h).m_scoreBreakdown c
            - (g (g h).m_winningHypo).m_scoreBreakdown c)).sum := by
  cases hp : D.m_prevEdgeChanged with
  | some j =>
      obtain ⟨first, tail, hpath, htotal, hbreak⟩ := deviant_sumScore g fuel root D hD j hp
      refine ⟨first, tail, hpath, ?_, ?_⟩
      · intro h
        rcases h with h | h
        · cases h
        · exact htotal h
      · intro c h
        rcases h with h | h
        · cases h
        · exact hbreak c h
  | none =>
      cases hD with
      | root _ h =>
          obtain ⟨l, hc, _, rfl⟩ := ofHypo_some g fuel root D h
          cases l with
          | nil => simp [chainFrom] at hc
          | cons x rest =>
              obtain ⟨hx, hrest⟩ := hc
              subst hx
              have hown := chain_ownWinner g hprev rest x hrest
              refine ⟨x, rest, rfl, fun _ => ?_, fun c _ => ?_⟩
              · rw [sum_delta_zero g (fun h => (g h).m_totalScore) rest hown]; simp
              · rw [sum_delta_zero g (fun h => (g h).m_scoreBreakdown c) rest hown]; simp
      | deviant P L _ _ hL hmem =>
          obtain ⟨k, _, _, arc, _, _, _, _, hdev⟩ :=
            mem_CreateDeviantPaths g fuel P L D hL hmem
          obtain ⟨l, _, _, _, rfl⟩ := ofDeviation_some g fuel P k arc D hdev
          cases hp

/-! ### C4 -/

/-- C4 as the code has it: on a graph where the cumulative score of a hypothesis
is its own edge contribution plus the cumulative score of its predecessor, where
every hypothesis reached through `GetPrevHypo` is its own winner and every
member of an arc list has the owner of the list as winner, take a path reachable
from the path of a terminal hypothesis by rounds of `CreateDeviantPaths`.  If
the path has `m_prevEdgeChanged = NOT_FOUND`, or if no operation of the score
loop that built it rounded, the edge contributions of its hypotheses sum to its
total score; the same holds of each component of its score breakdown. -/
theorem C4_score_additivity [FloatModel] (g : Graph n) (fuel root : Nat)
    (edgeTotalScore : Nat → Int) (edgeScoreBreakdown : Nat → ScoreComponentCollection n)
    (hcum : ∀ h, (g h).m_totalScore = edgeTotalScore h +
      (match (g h).m_prevHypo with
       | none => 0
       | some p => (g p).m_totalScore))
    (hcumB : ∀ c h, (g h).m_scoreBreakdown c = edgeScoreBreakdown h c +
      (match (g h).m_prevHypo with
       | none => 0
       | some p => (g p).m_scoreBreakdown c))
    (hprev : ∀ h p, (g h).m_prevHypo = some p → (g p).m_winningHypo = p)
    (harc : ∀ h al a, (g h).m_arcList = some al → a ∈ al → (g a).m_winningHypo = h)
    (D : TrellisPath n) (hD : Reachable g fuel root D)
    (hexact : D.m_prevEdgeChanged = NOT_FOUND ∨
      loopExact (fun h => (g h).m_totalScore) g D.m_path)
    (hexactB : ∀ c, D.m_prevEdgeChanged = NOT_FOUND ∨
      loopExact (fun h => (g h).m_scoreBreakdown c) g D.m_path) :
    (D.m_path.map edgeTotalScore).sum = D.m_totalScore ∧
    ∀ c, (D.m_path.map (fun h => edgeScoreBreakdown h c)).sum = D.m_scoreBreakdown c := by
  obtain ⟨hlinked, _⟩ := reachable_invariant g hprev harc fuel root D hD
  obtain ⟨first, tail, hpath, htotal, hbreak⟩ := reachable_sumScore g hprev fuel root D hD
  rw [hpath] at hlinked
  constructor
  · rw [hpath, htotal hexact]
    exact edge_sum g (fun h => (g h).m_totalScore) edgeTotalScore hcum tail first hlinked
  · intro c
    rw [hpath, hbreak c (hexactB c)]
    exact edge_sum g (fun h => (g h).m_scoreBreakdown c) (fun h => edgeScoreBreakdown h c)
      (hcumB c) tail first hlinked

theorem scenario_prev (h p : Nat) (hp : (scenarioGraph h).m_prevHypo = some p) :
    (scenarioGraph p).m_winningHypo = p := by
  match h with
  | 0 => cases hp
  | 1 => cases hp; rfl
  | 2 => cases hp; rfl
  | 3 => cases hp; rfl
  | k + 4 => cases hp

theorem scenario_arc (h : Nat) (al : List Nat) (a : Nat)
    (hal : (scenarioGraph h).m_arcList = some al) (ha : a ∈ al) :
    (scenarioGraph a).m_winningHypo = h := by
  match h with
  | 0 => cases hal
  | 1 =>
      cases hal
      simp at ha
      subst ha
      rfl
  | 2 => cases hal
  | 3 => cases hal
  | k + 4 => cases hal

theorem scenario_cum (h : Nat) :
    (scenarioGraph h).m_totalScore = scenarioEdgeScore h +
      (match (scenarioGraph h).m_prevHypo with
       | none => 0
       | some p => (scenarioGraph p).m_totalScore) := by
  match h with
  | 0 => rfl
  | 1 => rfl
  | 2 => rfl
  | 3 => rfl
  | k + 4 => rfl

theorem scenario_cumB (c : Fin 1) (h : Nat) :
    (scenarioGraph h).m_scoreBreakdown c = scenarioEdgeBreakdown h c +
      (match (scenarioGraph h).m_prevHypo with
       | none => 0
       | some p => (scenarioGraph p).m_scoreBreakdown c) := by
  match h with
  | 0 => rfl
  | 1 => rfl
  | 2 => rfl
  | 3 => rfl
  | k + 4 => rfl

theorem scenario_reachable_best : Reachable scenarioGraph 3 3 scenarioBest :=
  Reachable.root _ rfl

theorem scenario_reachable_deviant : Reachable scenarioGraph 3 3 scenarioDeviant :=
  Reachable.deviant scenarioBest [scenarioDeviant] _ scenario_reachable_best rfl
    (List.mem_singleton.2 rfl)

/-- C4 on the specification's scenario: the score loop that built `[T, A', S]`
did not round, and the edge contributions `5 + 7 + 0` give the total 12. -/
theorem C4_score_additivity_witness :
    (scenarioDeviant.m_path.map scenarioEdgeScore).sum = scenarioDeviant.m_totalScore ∧
    ∀ c, (scenarioDeviant.m_path.map (fun h => scenarioEdgeBreakdown h c)).sum
      = scenarioDeviant.m_scoreBreakdown c :=
  C4_score_additivity scenarioGraph 3 3 scenarioEdgeScore scenarioEdgeBreakdown
    scenario_cum scenario_cumB scenario_prev scenario_arc scenarioDeviant
    scenario_reachable_deviant (Or.inr (by decide))
    (fun c => Or.inr (by rw [Fin.eq_zero c]; decide))

/-- C4 as stated fails: `roundingGraph` is shaped as the data model describes
(cumulative scores, predecessors that are their own winners, arc-list members
with the owner as winner), and the path `[T, B', A', S]` is reached from the path
of `T` by two rounds of `CreateDeviantPaths`.  Its edge contributions sum to
`16777218 + -2 + 0 + 0 = 16777216`, in exact arithmetic and in binary32
arithmetic from either end, but its total score is 16777215: the constructor
rounds `16777218 - 0 + -1 = 16777217` to 16777216 at position 1 and then
subtracts 1 at position 2. -/
theorem C4_counterexample :
    (∀ h, (roundingGraph h).m_totalScore = roundingEdgeScore h +
      (match (roundingGraph h).m_prevHypo with
       | none => 0
       | some p => (roundingGraph p).m_totalScore)) ∧
    (∀ h p, (roundingGraph h).m_prevHypo = some p → (roundingGraph p).m_winningHypo = p) ∧
    (∀ h al a, (roundingGraph h).m_arcList = some al → a ∈ al →
      (roundingGraph a).m_winningHypo = h) ∧
    TrellisPath.ofHypo roundingGraph 4 5 = some roundingRoot ∧
    roundingRoot.CreateDeviantPaths roundingGraph 4 [] = some [roundingFirst, roundingOther] ∧
    roundingFirst.CreateDeviantPaths roundingGraph 4 [] = some [roundingSecond] ∧
    roundingSecond.m_path = [5, 4, 2, 0] ∧
    (roundingSecond.m_path.map roundingEdgeScore).sum = 16777216 ∧
    (roundingSecond.m_path.map roundingEdgeScore).foldl fadd 0 = 16777216 ∧
    (roundingSecond.m_path.map roundingEdgeScore).foldr fadd 0 = 16777216 ∧
    roundingSecond.m_totalScore = 16777215 := by
  refine ⟨?_, ?_, ?_, rfl, ?_, ?_, rfl, by decide, by decide, by decide, rfl⟩
  · intro h
    match h with
    | 0 => rfl
    | 1 => rfl
    | 2 => rfl
    | 3 => rfl
    | 4 => rfl
    | 5 => rfl
    | k + 6 => rfl
  · intro h p hp
    match h with
    | 0 => cases hp
    | 1 => cases hp; rfl
    | 2 => cases hp; rfl
    | 3 => cases hp; rfl
    | 4 => cases hp; rfl
    | 5 => cases hp; rfl
    | k + 6 => cases hp
  · intro h al a hal ha
    match h with
    | 0 => cases hal
    | 1 =>
        cases hal
        simp at ha
        subst ha
        rfl
    | 2 => cases hal
    | 3 =>
        cases hal
        simp at ha
        subst ha
        rfl
    | 4 => cases hal
    | 5 => cases hal
    | k + 6 => cases hal
  · exact congrArg some (congrArg₂ List.cons
      (TrellisPath.eq_of_fields _ _ rfl rfl (fun c => by rw [Fin.eq_zero c]; rfl) rfl)
      (congrArg₂ List.cons
        (TrellisPath.eq_of_fields _ _ rfl rfl (fun c => by rw [Fin.eq_zero c]; rfl) rfl) rfl))
  · exact congrArg some (congrArg₂ List.cons
      (TrellisPath.eq_of_fields _ _ rfl rfl (fun c => by rw [Fin.eq_zero c]; rfl) rfl) rfl)

/-! ### C6, C7, C10: what the generator adds -/

theorem allSome_of_forall {α : Type} :
    ∀ (fs : List (Option α)), (∀ f ∈ fs, ∃ x, f = some x) → ∃ ds, allSome fs = some ds := by
  intro fs
  induction fs with
  | nil => intro _; exact ⟨[], rfl⟩
  | cons f rest ih =>
      intro h
      obtain ⟨x, hx⟩ := h f (List.mem_cons_self _ _)
      obtain ⟨ds, hds⟩ := ih (fun f2 hf2 => h f2 (List.mem_cons_of_mem _ hf2))
      subst hx
      exact ⟨x :: ds, by simp [allSome, hds]⟩

theorem CreateDeviantPaths_some [FloatModel] (g : Graph n) (fuel : Nat) (D : TrellisPath n)
    (hfin : ∀ i a, firstEdge D ≤ i → a ∈ arcsAt g D i →
      ∃ l, chainFrom g (some a) l ∧ l.length ≤ fuel) :
    ∃ L, D.CreateDeviantPaths g fuel [] = some L ∧
      L.map some = deviationsFrom g fuel D (firstEdge D) := by
  have : ∃ L, allSome (deviationsFrom g fuel D (firstEdge D)) = some L := by
    apply allSome_of_forall
    intro f hf
    simp only [deviationsFrom, List.mem_flatMap, List.mem_map] at hf
    obtain ⟨i, hi, a, ha, rfl⟩ := hf
    simp only [List.mem_range'_1] at hi
    obtain ⟨l, hc, hlen⟩ := hfin i a hi.1 ha
    cases l with
    | nil => simp [chainFrom] at hc
    | cons x rest =>
        obtain ⟨hx, hrest⟩ := hc
        subst hx
        exact ⟨_, ofDeviation_of_chain g fuel D i x rest (by omega) hrest
          (by simp at hlen; omega)⟩
  obtain ⟨L, hL⟩ := this
  exact ⟨L, by rw [CreateDeviantPaths_eq, hL], (allSome_eq_some _ _).1 hL⟩

theorem deviationsAsSpecified_eq [FloatModel] (g : Graph n) (fuel : Nat) (D : TrellisPath n)
    (start : Nat) (hno : ∀ i a, a ∈ arcsAt g D i → D.m_path[i]? ≠ some a) :
    deviationsAsSpecified g fuel D start = deviationsFrom g fuel D start := by
  unfold deviationsAsSpecified deviationsFrom alternativesAt
  congr 1
  funext i
  congr 1
  rw [List.filter_eq_self]
  intro a ha
  simpa using hno i a ha

theorem flatMap_length_le {α β : Type} (f1 f2 : α → List β) :
    ∀ (l : List α), (∀ x ∈ l, (f1 x).length ≤ (f2 x).length) →
      (l.flatMap f1).length ≤ (l.flatMap f2).length := by
  intro l
  induction l with
  | nil => intro _; simp
  | cons x rest ih =>
      intro h
      simp only [List.flatMap_cons, List.length_append]
      have h1 := h x (List.mem_cons_self _ _)
      have h2 := ih (fun y hy => h y (List.mem_cons_of_mem _ hy))
      omega

theorem flatMap_length_lt {α β : Type} (f1 f2 : α → List β) :
    ∀ (l : List α), (∀ x ∈ l, (f1 x).length ≤ (f2 x).length) →
      (∃ x ∈ l, (f1 x).length < (f2 x).length) →
      (l.flatMap f1).length < (l.flatMap f2).length := by
  intro l
  induction l with
  | nil => intro _ h; obtain ⟨x, hx, _⟩ := h; simp at hx
  | cons x rest ih =>
      intro h hlt
      simp only [List.flatMap_cons, List.length_append]
      have h1 := h x (List.mem_cons_self _ _)
      have hrest : ∀ y ∈ rest, (f1 y).length ≤ (f2 y).length :=
        fun y hy => h y (List.mem_cons_of_mem _ hy)
      have h2 := flatMap_length_le f1 f2 rest hrest
      obtain ⟨y, hy, hylt⟩ := hlt
      rcases List.mem_cons.1 hy with hyx | hyr
      · subst hyx
        omega
      · have h3 := ih hrest ⟨y, hyr, hylt⟩
        omega

theorem filter_length_lt {α : Type} (p : α → Bool) :
    ∀ (l : List α) (a : α), a ∈ l → p a = false → (l.filter p).length < l.length := by
  intro l
  induction l with
  | nil => intro a ha; simp at ha
  | cons x rest ih =>
      intro a ha hp
      have hle : (rest.filter p).length ≤ rest.length := List.length_filter_le p rest
      rcases List.mem_cons.1 ha with hax | har
      · subst hax
        simp only [List.filter_cons, hp, List.length_cons]
        simp only [Bool.false_eq_true, if_false]
        omega
      · have h1 := ih a har hp
        by_cases hx : p x = true
        · simp only [List.filter_cons, hx, if_true, List.length_cons]
          omega
        · simp only [List.filter_cons, hx, List.length_cons]
          simp only [Bool.false_eq_true, if_false]
          omega

theorem deviationsAsSpecified_ne [FloatModel] (g : Graph n) (fuel : Nat) (D : TrellisPath n)
    (i a : Nat) (ha : a ∈ arcsAt g D i) (hself : D.m_path[i]? = some a) :
    deviationsAsSpecified g fuel D 0 ≠ deviationsFrom g fuel D 0 := by
  intro heq
  have hilt : i < D.m_path.length := by
    by_contra hcon
    rw [List.getElem?_eq_none (by omega)] at hself
    cases hself
  have hlt : (deviationsAsSpecified g fuel D 0).length < (deviationsFrom g fuel D 0).length := by
    unfold deviationsAsSpecified deviationsFrom
    apply flatMap_length_lt
    · intro x _
      simp only [List.length_map, alternativesAt]
      exact List.length_filter_le _ _
    · refine ⟨i, by simp only [List.mem_range'_1]; omega, ?_⟩
      simp only [List.length_map, alternativesAt]
      exact filter_length_lt _ _ a ha (by simp [hself])
  rw [heq] at hlt
  omega

/-- C6 as the code has it: for a path with `m_prevEdgeChanged = NOT_FOUND` whose
arc-list members all have a finite predecessor chain, `CreateDeviantPaths` adds
exactly one path per position `0 ≤ i < len` and per member `a` of the arc list
of `m_path[i]`, namely the one the deviation constructor builds from `(D, i, a)`,
in position order and then in arc-list order, whether or not `a` is `m_path[i]`
itself; these are the paths the specification lists if and only if no arc list
on the path holds its own hypothesis. -/
theorem C6_initial_rule [FloatModel] (g : Graph n) (fuel : Nat) (D : TrellisPath n)
    (hinit : D.m_prevEdgeChanged = NOT_FOUND)
    (hfin : ∀ i a, a ∈ arcsAt g D i → ∃ l, chainFrom g (some a) l ∧ l.length ≤ fuel) :
    ∃ L, D.CreateDeviantPaths g fuel [] = some L ∧
      L.map some = (List.range' 0 D.m_path.length).flatMap
        (fun i => (arcsAt g D i).map (fun a => TrellisPath.ofDeviation g fuel D i a)) ∧
      (L.map some = deviationsAsSpecified g fuel D 0 ↔
        ∀ i a, a ∈ arcsAt g D i → D.m_path[i]? ≠ some a) := by
  have h0 : firstEdge D = 0 := by simp [firstEdge, hinit, NOT_FOUND]
  obtain ⟨L, hL, hmap⟩ := CreateDeviantPaths_some g fuel D (fun i a _ ha => hfin i a ha)
  rw [h0] at hmap
  refine ⟨L, hL, ?_, ?_, ?_⟩
  · simpa [deviationsFrom] using hmap
  · intro heq i a ha hself
    rw [hmap] at heq
    exact deviationsAsSpecified_ne g fuel D i a ha hself heq.symm
  · intro hno
    rw [deviationsAsSpecified_eq g fuel D 0 hno]
    exact hmap

/-- C6 on the specification's scenario: `[T, A, S]` has the one deviation built
from position 1 and `A'`, which is also what the specification lists, no arc
list holding its own hypothesis. -/
theorem C6_initial_rule_witness :
    (∀ i a, a ∈ arcsAt scenarioGraph scenarioBest i → scenarioBest.m_path[i]? ≠ some a) ∧
    ∃ L, scenarioBest.CreateDeviantPaths scenarioGraph 3 [] = some L ∧
      L.map some = (List.range' 0 scenarioBest.m_path.length).flatMap
        (fun i => (arcsAt scenarioGraph scenarioBest i).map
          (fun a => TrellisPath.ofDeviation scenarioGraph 3 scenarioBest i a)) ∧
      (L.map some = deviationsAsSpecified scenarioGraph 3 scenarioBest 0 ↔
        ∀ i a, a ∈ arcsAt scenarioGraph scenarioBest i → scenarioBest.m_path[i]? ≠ some a) :=
  ⟨by
      intro i a ha
      match i with
      | 0 => simp [arcsAt, scenarioBest, scenarioGraph] at ha
      | 1 =>
          simp [arcsAt, scenarioBest, scenarioGraph] at ha
          subst ha
          decide
      | 2 => simp [arcsAt, scenarioBest, scenarioGraph] at ha
      | k + 3 => simp [arcsAt, scenarioBest] at ha,
    C6_initial_rule scenarioGraph 3 scenarioBest rfl (by
      intro i a ha
      match i with
      | 0 => simp [arcsAt, scenarioBest, scenarioGraph] at ha
      | 1 =>
          simp [arcsAt, scenarioBest, scenarioGraph] at ha
          subst ha
          exact ⟨[2, 0], by decide, by decide⟩
      | 2 => simp [arcsAt, scenarioBest, scenarioGraph] at ha
      | k + 3 => simp [arcsAt, scenarioBest] at ha)⟩

/-- C6 as stated fails: in `selfArcGraph` the path `[0]` has
`m_prevEdgeChanged = NOT_FOUND` and no arc-list member differs from the
hypothesis on the path, yet `CreateDeviantPaths` adds one path, built from
`(D, 0, 0)`. -/
theorem C6_counterexample :
    TrellisPath.ofHypo selfArcGraph 1 0 = some selfArcPath ∧
    selfArcPath.m_prevEdgeChanged = NOT_FOUND ∧
    deviationsAsSpecified selfArcGraph 1 selfArcPath 0 = [] ∧
    ∃ C, selfArcPath.CreateDeviantPaths selfArcGraph 1 [] = some [C] ∧
      TrellisPath.ofDeviation selfArcGraph 1 selfArcPath 0 0 = some C :=
  ⟨rfl, rfl, rfl, _, rfl, rfl⟩

theorem ofDeviation_prevEdgeChanged [FloatModel] (g : Graph n) (fuel : Nat) (P D : TrellisPath n)
    (k arc : Nat) (h : TrellisPath.ofDeviation g fuel P k arc = some D) :
    D.m_prevEdgeChanged = some k := by
  obtain ⟨l, _, _, _, rfl⟩ := ofDeviation_some g fuel P k arc D h
  rfl

/-- C7: for a path `D` whose `m_prevEdgeChanged` is an index `j` (in particular a
path the deviation constructor built from some `(P, j, arc)`) and whose arc-list
members after position `j` have finite predecessor chains, `CreateDeviantPaths`
adds exactly one path per position `j < i < len(D)` and per member of the arc
list of `m_path[i]`, in that order; every added path has `m_prevEdgeChanged = i`
for such an `i`, so none has it at or before `j`. -/
theorem C7_no_redeviation [FloatModel] (g : Graph n) (fuel : Nat) (D : TrellisPath n) (j : Nat)
    (hj : D.m_prevEdgeChanged = some j ∨
      ∃ P arc, TrellisPath.ofDeviation g fuel P j arc = some D)
    (hfin : ∀ i a, j < i → a ∈ arcsAt g D i → ∃ l, chainFrom g (some a) l ∧ l.length ≤ fuel) :
    ∃ L, D.CreateDeviantPaths g fuel [] = some L ∧
      L.map some = (List.range' (j + 1) (D.m_path.length - (j + 1))).flatMap
        (fun i => (arcsAt g D i).map (fun a => TrellisPath.ofDeviation g fuel D i a)) ∧
      (∀ C ∈ L, ∃ i, C.m_prevEdgeChanged = some i ∧ j < i ∧ i < D.m_path.length) ∧
      (∀ i a, j < i → i < D.m_path.length → a ∈ arcsAt g D i →
        ∃ C ∈ L, TrellisPath.ofDeviation g fuel D i a = some C) := by
  have hj2 : D.m_prevEdgeChanged = some j := by
    rcases hj with h | ⟨P, arc, h⟩
    · exact h
    · exact ofDeviation_prevEdgeChanged g fuel P D j arc h
  have h0 : firstEdge D = j + 1 := by simp [firstEdge, hj2]
  obtain ⟨L, hL, hmap⟩ := CreateDeviantPaths_some g fuel D
    (fun i a hi ha => hfin i a (by omega) ha)
  rw [h0] at hmap
  refine ⟨L, hL, by simpa [deviationsFrom] using hmap, ?_, ?_⟩
  · intro C hC
    have hmem : some C ∈ deviationsFrom g fuel D (j + 1) := by
      rw [← hmap]
      exact List.mem_map_of_mem _ hC
    simp only [deviationsFrom, List.mem_flatMap, List.mem_map, List.mem_range'_1] at hmem
    obtain ⟨i, hi, a, _, hdev⟩ := hmem
    exact ⟨i, ofDeviation_prevEdgeChanged g fuel D C i a hdev, by omega, by omega⟩
  · intro i a hi hlen ha
    have hmem : TrellisPath.ofDeviation g fuel D i a ∈ deviationsFrom g fuel D (j + 1) := by
      simp only [deviationsFrom, List.mem_flatMap, List.mem_map, List.mem_range'_1]
      exact ⟨i, ⟨by omega, by omega⟩, a, ha, rfl⟩
    rw [← hmap] at hmem
    obtain ⟨C, hC, hCeq⟩ := List.mem_map.1 hmem
    exact ⟨C, hC, hCeq.symm⟩

/-- C7 on `twoClassGraph`: `[5, 1, 0]` is built from `([4, 1, 0], 0, 5)`; the
generator examines it after position 0 only, where the arc list `[2, 3]` of
hypothesis `1` at position 1 gives the two paths `[5, 2, 0]` and `[5, 3, 0]`,
both with `m_prevEdgeChanged = 1`. -/
theorem C7_no_redeviation_witness :
    TrellisPath.ofDeviation twoClassGraph 3 twoClassRoot 0 5 = some twoClassFirst ∧
    arcsAt twoClassGraph twoClassFirst 1 = [2, 3] ∧
    twoClassFirst.CreateDeviantPaths twoClassGraph 3 [] = some [twoClassMid, twoClassDeep] ∧
    ∃ L, twoClassFirst.CreateDeviantPaths twoClassGraph 3 [] = some L ∧
      L.map some = (List.range' (0 + 1) (twoClassFirst.m_path.length - (0 + 1))).flatMap
        (fun i => (arcsAt twoClassGraph twoClassFirst i).map
          (fun a => TrellisPath.ofDeviation twoClassGraph 3 twoClassFirst i a)) ∧
      (∀ C ∈ L, ∃ i, C.m_prevEdgeChanged = some i ∧ 0 < i ∧ i < twoClassFirst.m_path.length) ∧
      (∀ i a, 0 < i → i < twoClassFirst.m_path.length →
        a ∈ arcsAt twoClassGraph twoClassFirst i →
        ∃ C ∈ L, TrellisPath.ofDeviation twoClassGraph 3 twoClassFirst i a = some C) :=
  ⟨rfl, rfl, rfl,
    C7_no_redeviation twoClassGraph 3 twoClassFirst 0 (Or.inr ⟨twoClassRoot, 5, rfl⟩) (by
      intro i a hi ha
      match i with
      | 0 => omega
      | 1 =>
          simp [arcsAt, twoClassFirst, twoClassGraph] at ha
          rcases ha with ha | ha
          · subst ha
            exact ⟨[2, 0], by decide, by decide⟩
          · subst ha
            exact ⟨[3, 0], by decide, by decide⟩
      | 2 => simp [arcsAt, twoClassFirst, twoClassGraph] at ha
      | k + 3 => simp [arcsAt, twoClassFirst] at ha)⟩

/-- C10: for a start hypothesis `S` without predecessor and without alternative
edges (no arc list, or an empty one) the constructor returns the one-hypothesis
path `[S]`, `CreateDeviantPaths` adds nothing to the collection, and that path is
the only one the enumeration from `S` reaches. -/
theorem C10_start_only [FloatModel] (g : Graph n) (fuel S : Nat) (hfuel : 1 ≤ fuel)
    (hprev : (g S).m_prevHypo = none)
    (harcs : (g S).m_arcList = none ∨ (g S).m_arcList = some []) :
    ∃ D, TrellisPath.ofHypo g fuel S = some D ∧ D.m_path = [S] ∧
      D.CreateDeviantPaths g fuel [] = some [] ∧
      ∀ D2, Reachable g fuel S D2 → D2 = D := by
  have hc : chainFrom g (some S) [S] := ⟨rfl, by rw [hprev]; rfl⟩
  have he := enumeratePath_of_chain g [S] (some S) fuel [] hc (by simpa using hfuel)
  rw [List.nil_append] at he
  have hD : TrellisPath.ofHypo g fuel S
      = some ⟨[S], NOT_FOUND, (g S).m_scoreBreakdown, (g S).m_totalScore⟩ := by
    simp only [TrellisPath.ofHypo, he]
  have hnone : arcsAt g ⟨[S], none, (g S).m_scoreBreakdown, (g S).m_totalScore⟩ 0 = [] := by
    rcases harcs with h | h <;> simp [arcsAt, h]
  have hgen : TrellisPath.CreateDeviantPaths g fuel
      ⟨[S], NOT_FOUND, (g S).m_scoreBreakdown, (g S).m_totalScore⟩ [] = some [] := by
    rw [CreateDeviantPaths_eq]
    simp [deviationsFrom, firstEdge, NOT_FOUND, hnone, allSome]
  refine ⟨_, hD, rfl, hgen, ?_⟩
  intro D2 hD2
  induction hD2 with
  | root D3 h =>
      rw [hD] at h
      exact (Option.some.inj h).symm
  | deviant P L D3 _ hL hmem ih =>
      subst ih
      rw [hgen] at hL
      cases hL
      simp at hmem

/-- C10 on a graph of start hypotheses: the enumeration from `0` has the single
path `[0]`. -/
theorem C10_start_only_witness :
    ∃ D, TrellisPath.ofHypo startOnlyGraph 1 0 = some D ∧ D.m_path = [0] ∧
      D.CreateDeviantPaths startOnlyGraph 1 [] = some [] ∧
      ∀ D2, Reachable startOnlyGraph 1 0 D2 → D2 = D :=
  C10_start_only startOnlyGraph 1 0 (by decide) rfl (Or.inl rfl)

/-! ### C8: the bound by the best path -/

theorem list_sum_nonpos : ∀ (xs : List Int), (∀ x ∈ xs, x ≤ 0) → xs.sum ≤ 0 := by
  intro xs
  induction xs with
  | nil => intro _; simp
  | cons x rest ih =>
      intro h
      have h1 := h x (List.mem_cons_self _ _)
      have h2 := ih (fun y hy => h y (List.mem_cons_of_mem _ hy))
      simp only [List.sum_cons]
      omega

theorem reachable_head [FloatModel] (g : Graph n) (fuel root : Nat) (D : TrellisPath n)
    (hD : Reachable g fuel root D) : HeadInvariant g root D := by
  induction hD with
  | root D h =>
      obtain ⟨l, hc, _, rfl⟩ := ofHypo_some g fuel root D h
      cases l with
      | nil => simp [chainFrom] at hc
      | cons x rest =>
          obtain ⟨hx, _⟩ := hc
          subst hx
          exact ⟨x, rest, rfl, Or.inl rfl, fun _ => rfl⟩
  | deviant P L D _ hL hmem ih =>
      obtain ⟨k, hypo, al, arc, hk, hget, hal, harcmem, hdev⟩ :=
        mem_CreateDeviantPaths g fuel P L D hL hmem
      obtain ⟨l, _, _, _, rfl⟩ := ofDeviation_some g fuel P k arc D hdev
      obtain ⟨pf, pt, hpath, hhead, hnone⟩ := ih
      cases k with
      | zero =>
          have hP : P.m_prevEdgeChanged = none := by
            cases hp : P.m_prevEdgeChanged with
            | none => rfl
            | some j => simp [firstEdge, hp] at hk
          have hroot := hnone hP
          rw [hpath] at hget
          simp only [List.getElem?_cons_zero, Option.some.injEq] at hget
          refine ⟨arc, l, by simp [deviantOf], Or.inr ⟨al, ?_, harcmem⟩,
            (fun h => by cases h)⟩
          rw [← hroot, hget]
          exact hal
      | succ k2 =>
          have hp2 : P.m_path.take (k2 + 1) ++ arc :: l = pf :: (pt.take k2 ++ arc :: l) := by
            rw [hpath]; simp
          exact ⟨pf, pt.take k2 ++ arc :: l, by simp [deviantOf, hp2], hhead,
            (fun h => by cases h)⟩

/-- C8 as the code has it: if every hypothesis scores at most its recombination
winner and every member of the arc list of the terminal hypothesis `root` has
`root` as winner, then every path reached from the path of `root` by rounds of
`CreateDeviantPaths` that is the path of `root` itself, or whose score loop
rounded in none of its operations, has a total score of at most the total score
of `root`. -/
theorem C8_upper_bound [FloatModel] (g : Graph n) (fuel root : Nat)
    (hwin : ∀ h, (g h).m_totalScore ≤ (g (g h).m_winningHypo).m_totalScore)
    (harcRoot : ∀ al a, (g root).m_arcList = some al → a ∈ al → (g a).m_winningHypo = root)
    (D : TrellisPath n) (hD : Reachable g fuel root D)
    (hexact : D.m_prevEdgeChanged = NOT_FOUND ∨
      loopExact (fun h => (g h).m_totalScore) g D.m_path) :
    D.m_totalScore ≤ (g root).m_totalScore := by
  cases hp : D.m_prevEdgeChanged with
  | none => rw [((reachable_scoreInvariant g fuel root D hD).1 hp).1]
  | some j =>
      obtain ⟨first, tail, hpath, hhead, _⟩ := reachable_head g fuel root D hD
      obtain ⟨first2, tail2, hpath2, htotal, _⟩ := deviant_sumScore g fuel root D hD j hp
      have hex : loopExact (fun h => (g h).m_totalScore) g D.m_path := by
        rcases hexact with h | h
        · rw [hp] at h; cases h
        · exact h
      rw [hpath] at hpath2
      obtain ⟨hf, ht⟩ := List.cons.inj hpath2
      subst hf ht
      rw [htotal hex]
      have h1 : (tail.map (fun h => (g h).m_totalScore
          - (g (g h).m_winningHypo).m_totalScore)).sum ≤ 0 := by
        apply list_sum_nonpos
        intro x hx
        obtain ⟨y, _, rfl⟩ := List.mem_map.1 hx
        have := hwin y
        omega
      have h2 : (g first).m_totalScore ≤ (g root).m_totalScore := by
        rcases hhead with h | ⟨al, hal, hmem⟩
        · rw [h]
        · have := hwin first
          rw [harcRoot al first hal hmem] at this
          exact this
      omega

theorem twoClass_win (h : Nat) :
    (twoClassGraph h).m_totalScore
      ≤ (twoClassGraph (twoClassGraph h).m_winningHypo).m_totalScore := by
  match h with
  | 0 => decide
  | 1 => decide
  | 2 => decide
  | 3 => decide
  | 4 => decide
  | 5 => decide
  | k + 6 => exact Int.le_refl _

theorem twoClass_reachable_root : Reachable twoClassGraph 3 4 twoClassRoot :=
  Reachable.root _ rfl

theorem twoClass_reachable_first : Reachable twoClassGraph 3 4 twoClassFirst :=
  Reachable.deviant twoClassRoot [twoClassFirst, twoClassSecond, twoClassShallow] _
    twoClass_reachable_root rfl (List.mem_cons_self _ _)

theorem twoClass_reachable_deep : Reachable twoClassGraph 3 4 twoClassDeep :=
  Reachable.deviant twoClassFirst [twoClassMid, twoClassDeep] _
    twoClass_reachable_first rfl (List.mem_cons_of_mem _ (List.mem_cons_self _ _))

/-- C8 on `twoClassGraph`: the terminal hypothesis `4` (15) has the arc list
`[5]`, whose member has `4` as winner; the path `[5, 3, 0]`, reached in two
rounds and starting with that member, was scored without rounding and has the
total 10, at most 15. -/
theorem C8_upper_bound_witness :
    (twoClassGraph 4).m_arcList = some [5] ∧ (twoClassGraph 5).m_winningHypo = 4 ∧
    twoClassDeep.m_path = [5, 3, 0] ∧ twoClassDeep.m_totalScore = 10 ∧
    twoClassDeep.m_totalScore ≤ (twoClassGraph 4).m_totalScore :=
  ⟨rfl, rfl, rfl, rfl,
    C8_upper_bound twoClassGraph 3 4 twoClass_win
      (by
        intro al a hal ha
        cases hal
        simp at ha
        subst ha
        rfl)
      twoClassDeep twoClass_reachable_deep (Or.inr (by decide))⟩

/-- C8 as stated fails, in two ways.  In `loserRootGraph` every hypothesis scores
at most its winner, yet the deviation of the path of the terminal hypothesis `0`
at position 0, which `CreateDeviantPaths` adds, scores 10, more than the 5 of
the terminal hypothesis.  In `roundUpGraph` every hypothesis scores at most its
winner and the terminal hypothesis `T` has no arc list, yet the deviation
`[T, A', S]` gets `33554430 - -8 + -9` in binary32 arithmetic, which is
33554432 (33554438 is rounded to 33554440, and 33554431 to 33554432), more than
the 33554430 of `T`. -/
theorem C8_counterexample :
    ((∀ h, (loserRootGraph h).m_totalScore
        ≤ (loserRootGraph (loserRootGraph h).m_winningHypo).m_totalScore) ∧
      TrellisPath.ofHypo loserRootGraph 1 0 = some loserRootPath ∧
      loserRootPath.CreateDeviantPaths loserRootGraph 1 [] = some [loserRootDeviant] ∧
      TrellisPath.ofDeviation loserRootGraph 1 loserRootPath 0 1 = some loserRootDeviant ∧
      ¬ loserRootDeviant.m_totalScore ≤ (loserRootGraph 0).m_totalScore) ∧
    ((∀ h, (roundUpGraph h).m_totalScore
        ≤ (roundUpGraph (roundUpGraph h).m_winningHypo).m_totalScore) ∧
      (roundUpGraph 3).m_arcList = none ∧
      TrellisPath.ofHypo roundUpGraph 3 3 = some roundUpBest ∧
      roundUpBest.CreateDeviantPaths roundUpGraph 3 [] = some [roundUpDeviant] ∧
      TrellisPath.ofDeviation roundUpGraph 3 roundUpBest 1 2 = some roundUpDeviant ∧
      roundUpDeviant.m_totalScore = 33554432 ∧
      (roundUpGraph 3).m_totalScore = 33554430 ∧
      ¬ roundUpDeviant.m_totalScore ≤ (roundUpGraph 3).m_totalScore) := by
  refine ⟨⟨?_, rfl, rfl, rfl, by decide⟩, ?_, rfl, rfl, ?_, ?_, rfl, rfl, by decide⟩
  · intro h
    match h with
    | 0 => decide
    | k + 1 => exact Int.le_refl _
  · intro h
    match h with
    | 0 => decide
    | 1 => decide
    | 2 => decide
    | 3 => decide
    | k + 4 => exact Int.le_refl _
  · exact congrArg some (congrArg₂ List.cons
      (TrellisPath.eq_of_fields _ _ rfl rfl (fun c => by rw [Fin.eq_zero c]; rfl) rfl) rfl)
  · exact congrArg some
      (TrellisPath.eq_of_fields _ _ rfl rfl (fun c => by rw [Fin.eq_zero c]; rfl) rfl)

/-! ### C9: the score relative to the parent -/

theorem reachable_suffix [FloatModel] (g : Graph n) (fuel root : Nat) (D : TrellisPath n)
    (hD : Reachable g fuel root D) : SuffixInvariant g root D := by
  cases hD with
  | root _ h =>
      obtain ⟨l, hc, _, rfl⟩ := ofHypo_some g fuel root D h
      obtain ⟨h0, hstep⟩ := chainFrom_getElem g l _ hc
      exact ⟨fun i a _ ha => hstep i a ha, fun _ => h0⟩
  | deviant P L _ _ hL hmem =>
      obtain ⟨k, _, _, arc, _, _, _, _, hdev⟩ := mem_CreateDeviantPaths g fuel P L D hL hmem
      exact ⟨ofDeviation_suffix g fuel P D k arc hdev,
        fun h => by rw [ofDeviation_prevEdgeChanged g fuel P D k arc hdev] at h; cases h⟩

theorem suffix_ownWinner (g : Graph n)
    (hprev : ∀ h p, (g h).m_prevHypo = some p → (g p).m_winningHypo = p)
    (path : List Nat) (s : Nat)
    (hsuf : ∀ i a, s ≤ i + 1 → path[i]? = some a → path[i + 1]? = (g a).m_prevHypo)
    (i x : Nat) (hs : s ≤ i) (h1 : 1 ≤ i) (hx : path[i]? = some x) :
    (g x).m_winningHypo = x := by
  obtain ⟨i2, rfl⟩ : ∃ i2, i = i2 + 1 := ⟨i - 1, by omega⟩
  have hlt : i2 < path.length := by
    by_contra hcon
    rw [List.getElem?_eq_none (by omega)] at hx
    cases hx
  have hy : path[i2]? = some path[i2] := List.getElem?_eq_getElem hlt
  have := hsuf i2 _ hs hy
  rw [hx] at this
  exact hprev _ _ this.symm

theorem ofDeviation_path_at [FloatModel] (g : Graph n) (fuel : Nat) (P D : TrellisPath n)
    (k arc : Nat) (h : TrellisPath.ofDeviation g fuel P k arc = some D) :
    D.m_path[k]? = some arc := by
  obtain ⟨l, hk, _, _, rfl⟩ := ofDeviation_some g fuel P k arc D h
  have hlen : (P.m_path.take k).length = k := by
    rw [List.length_take]; omega
  show (P.m_path.take k ++ arc :: l)[k]? = some arc
  rw [List.getElem?_append_right (by omega)]
  simp [hlen]

theorem root_adjust [FloatModel] (g : Graph n) (score : Nat → Int) (first : Nat)
    (hzero : FloatModel.round 0 = 0)
    (hrep : FloatModel.round (score first) = score first) :
    (notWinners g [first]).foldl (adjust score g) (score (g first).m_winningHypo)
      = score first := by
  by_cases hx : first = (g first).m_winningHypo
  · rw [notWinners_cons_of_eq g first [] hx, ← hx]
    rfl
  · rw [notWinners_cons_of_ne g first [] hx]
    simp only [notWinners, List.filter_nil, List.foldl_cons, List.foldl_nil, adjust, fadd,
      fsub, sub_self, hzero, zero_add, hrep]

theorem prefix_fold [FloatModel] (g : Graph n) (score : Nat → Int) (path : List Nat)
    (k : Nat) (w vP : Int)
    (hown : ∀ i x, k ≤ i → path[i]? = some x → (g x).m_winningHypo = x)
    (hv : vP = (notWinners g path).foldl (adjust score g) w) :
    vP = (notWinners g (path.take k)).foldl (adjust score g) w := by
  have hdrop : ∀ x ∈ path.drop k, (g x).m_winningHypo = x := by
    intro x hx
    obtain ⟨i, hi⟩ := List.mem_iff_getElem?.1 hx
    rw [List.getElem?_drop] at hi
    exact hown (k + i) x (by omega) hi
  have h1 : notWinners g path = notWinners g (path.take k ++ path.drop k) := by
    rw [List.take_append_drop]
  rw [hv, h1, notWinners_append, notWinners_of_own g (path.drop k) hdrop, List.append_nil]

theorem fold_delta [FloatModel] (g : Graph n) (score : Nat → Int) (path l : List Nat)
    (k hypo arc first : Nat) (tail : List Nat) (vP : Int)
    (hpath : path = first :: tail) (hget : path[k]? = some hypo)
    (hl : ∀ x ∈ l, (g x).m_winningHypo = x) (hw : (g arc).m_winningHypo = hypo)
    (hzero : k = 0 → vP = score first)
    (hsucc : 1 ≤ k → vP = (notWinners g (path.take k)).foldl (adjust score g)
      (score (g first).m_winningHypo)) :
    ∃ first2 tail2, path.take k ++ arc :: l = first2 :: tail2 ∧
      (notWinners g (first2 :: tail2)).foldl (adjust score g) (score (g first2).m_winningHypo)
        = (notWinners g [arc]).foldl (adjust score g) vP := by
  have hnl := notWinners_of_own g l hl
  cases k with
  | zero =>
      refine ⟨arc, l, by simp, ?_⟩
      rw [hpath] at hget
      simp only [List.getElem?_cons_zero, Option.some.injEq] at hget
      have h1 : notWinners g (arc :: l) = notWinners g [arc] := by
        have : arc :: l = [arc] ++ l := rfl
        rw [this, notWinners_append, hnl, List.append_nil]
      rw [h1, hw, ← hget, hzero rfl]
  | succ k2 =>
      subst hpath
      refine ⟨first, tail.take k2 ++ arc :: l, by simp, ?_⟩
      have h1 : first :: (tail.take k2 ++ arc :: l)
          = (first :: tail).take (k2 + 1) ++ ([arc] ++ l) := by simp
      rw [h1, notWinners_append, notWinners_append, hnl, List.append_nil, List.foldl_append,
        ← hsucc (by omega)]

theorem reachable_fold [FloatModel] (g : Graph n)
    (hprev : ∀ h p, (g h).m_prevHypo = some p → (g p).m_winningHypo = p)
    (fuel root : Nat) (hzero : FloatModel.round 0 = 0)
    (P : TrellisPath n) (hP : Reachable g fuel root P) :
    ∃ first tail, P.m_path = first :: tail ∧
      (FloatModel.round (g root).m_totalScore = (g root).m_totalScore →
        P.m_totalScore = (notWinners g P.m_path).foldl
          (adjust (fun h => (g h).m_totalScore) g) (g (g first).m_winningHypo).m_totalScore) ∧
      ∀ c, FloatModel.round ((g root).m_scoreBreakdown c) = (g root).m_scoreBreakdown c →
        P.m_scoreBreakdown c = (notWinners g P.m_path).foldl
          (adjust (fun h => (g h).m_scoreBreakdown c) g)
          ((g (g first).m_winningHypo).m_scoreBreakdown c) := by
  cases hp : P.m_prevEdgeChanged with
  | some j =>
      obtain ⟨first, tail, hpath, htotal, hbreak⟩ :=
        (reachable_scoreInvariant g fuel root P hP).2 j hp
      exact ⟨first, tail, hpath, fun _ => htotal, fun c _ => hbreak c⟩
  | none =>
      cases hP with
      | root _ h =>
          obtain ⟨l, hc, _, rfl⟩ := ofHypo_some g fuel root P h
          cases l with
          | nil => simp [chainFrom] at hc
          | cons x rest =>
              obtain ⟨hx, hrest⟩ := hc
              subst hx
              have hown := chain_ownWinner g hprev rest x hrest
              have h1 : notWinners g (x :: rest) = notWinners g [x] := by
                have : x :: rest = [x] ++ rest := rfl
                rw [this, notWinners_append, notWinners_of_own g rest hown, List.append_nil]
              refine ⟨x, rest, rfl, ?_, ?_⟩
              · intro hrep
                show (g x).m_totalScore = _
                rw [h1]
                exact (root_adjust g (fun h => (g h).m_totalScore) x hzero hrep).symm
              · intro c hrepB
                show (g x).m_scoreBreakdown c = _
                rw [h1]
                exact (root_adjust g (fun h => (g h).m_scoreBreakdown c) x hzero hrepB).symm
      | deviant Q L _ _ hL hmem =>
          obtain ⟨k, _, _, arc, _, _, _, _, hdev⟩ :=
            mem_CreateDeviantPaths g fuel Q L P hL hmem
          rw [ofDeviation_prevEdgeChanged g fuel Q P k arc hdev] at hp
          cases hp

theorem deviation_delta [FloatModel] (g : Graph n) (fuel root : Nat)
    (hprev : ∀ h p, (g h).m_prevHypo = some p → (g p).m_winningHypo = p)
    (hzero : FloatModel.round 0 = 0)
    (P : TrellisPath n) (hP : Reachable g fuel root P) (D : TrellisPath n)
    (k hypo arc : Nat) (hk : firstEdge P ≤ k) (hget : P.m_path[k]? = some hypo)
    (hdev : TrellisPath.ofDeviation g fuel P k arc = some D)
    (hw : (g arc).m_winningHypo = hypo) :
    (FloatModel.round (g root).m_totalScore = (g root).m_totalScore →
      D.m_totalScore = (notWinners g [arc]).foldl
        (adjust (fun h => (g h).m_totalScore) g) P.m_totalScore) ∧
    ∀ c, FloatModel.round ((g root).m_scoreBreakdown c) = (g root).m_scoreBreakdown c →
      D.m_scoreBreakdown c = (notWinners g [arc]).foldl
        (adjust (fun h => (g h).m_scoreBreakdown c) g) (P.m_scoreBreakdown c) := by
  have hsc := reachable_scoreInvariant g fuel root P hP
  obtain ⟨hsuf, hroot⟩ := reachable_suffix g fuel root P hP
  obtain ⟨first, tail, hpath, hfoldT, hfoldB⟩ :=
    reachable_fold g hprev fuel root hzero P hP
  obtain ⟨l, _, hc, _, hDeq⟩ := ofDeviation_some g fuel P k arc D hdev
  have hlown := chain_ownWinner g hprev l arc hc
  have hown : ∀ i x, 1 ≤ k → k ≤ i → P.m_path[i]? = some x → (g x).m_winningHypo = x :=
    fun i x h1 hi hx =>
      suffix_ownWinner g hprev P.m_path (firstEdge P) hsuf i x (by omega) (by omega) hx
  have hz : k = 0 → P.m_totalScore = (g first).m_totalScore ∧
      ∀ c, P.m_scoreBreakdown c = (g first).m_scoreBreakdown c := by
    intro hk0
    subst hk0
    have hnone : P.m_prevEdgeChanged = none := by
      cases hp : P.m_prevEdgeChanged with
      | none => rfl
      | some j => simp [firstEdge, hp] at hk
    have h0 := hroot hnone
    rw [hpath] at h0
    simp only [List.getElem?_cons_zero, Option.some.injEq] at h0
    rw [h0]
    exact hsc.1 hnone
  constructor
  · intro hrep
    obtain ⟨first2, tail2, hp2, heq⟩ := fold_delta g (fun h => (g h).m_totalScore)
      P.m_path l k hypo arc first tail P.m_totalScore hpath hget hlown hw
      (fun hk0 => (hz hk0).1)
      (fun hk1 => prefix_fold g _ P.m_path k _ _ (fun i x hi hx => hown i x hk1 hi hx)
        (hfoldT hrep))
    rw [hDeq]
    simp only [deviantOf, hp2, deviationScore_fst]
    exact heq
  · intro c hrepB
    obtain ⟨first2, tail2, hp2, heq⟩ := fold_delta g (fun h => (g h).m_scoreBreakdown c)
      P.m_path l k hypo arc first tail (P.m_scoreBreakdown c) hpath hget hlown hw
      (fun hk0 => (hz hk0).2 c)
      (fun hk1 => prefix_fold g _ P.m_path k _ _ (fun i x hi hx => hown i x hk1 hi hx)
        (hfoldB c hrepB))
    rw [hDeq]
    simp only [deviantOf, hp2, deviationScore_snd]
    exact heq

theorem adjust_arc [FloatModel] (g : Graph n) (score : Nat → Int) (v : Int) (hypo arc : Nat)
    (hw : (g arc).m_winningHypo = hypo) :
    (arc ≠ hypo → (notWinners g [arc]).foldl (adjust score g) v
      = fadd (fsub v (score hypo)) (score arc)) ∧
    (FloatModel.round (v - score hypo) = v - score hypo →
      FloatModel.round (v - score hypo + score arc) = v - score hypo + score arc →
      (notWinners g [arc]).foldl (adjust score g) v = v - score hypo + score arc) := by
  by_cases hx : arc = hypo
  · have hx2 : arc = (g arc).m_winningHypo := by rw [hw]; exact hx
    rw [notWinners_cons_of_eq g arc [] hx2]
    refine ⟨fun h => absurd hx h, fun _ _ => ?_⟩
    show v = _
    rw [hx]
    ring
  · have hx2 : arc ≠ (g arc).m_winningHypo := by rw [hw]; exact hx
    rw [notWinners_cons_of_ne g arc [] hx2]
    have h0 : notWinners g [] = [] := rfl
    refine ⟨fun _ => ?_, fun h1 h2 => ?_⟩
    · simp only [h0, List.foldl_cons, List.foldl_nil, adjust, hw]
    · simp only [h0, List.foldl_cons, List.foldl_nil, adjust, hw, fadd, fsub]
      rw [h1, h2]

/-- C9 as the code has it: on a graph where every hypothesis reached through
`GetPrevHypo` is its own winner, and with zero and the scores of the terminal
hypothesis representable, take a path `P` of the enumeration from the terminal
hypothesis and a path `D` that `CreateDeviantPaths(P)` adds, built from position
`k` and the hypothesis `arc` whose winner is `P.m_path[k]`.  If `arc` is not
`P.m_path[k]` itself, the total score of `D` is the total score of `P` minus the
score of `P.m_path[k]` plus the score of `arc` as `float` arithmetic computes
it, the subtraction and the addition each rounded; it is that value exactly
whenever neither operation rounds.  The same holds of each component of the
score breakdown. -/
theorem C9_score_delta [FloatModel] (g : Graph n) (fuel root : Nat)
    (hprev : ∀ h p, (g h).m_prevHypo = some p → (g p).m_winningHypo = p)
    (hzero : FloatModel.round 0 = 0)
    (hrep : FloatModel.round (g root).m_totalScore = (g root).m_totalScore)
    (hrepB : ∀ c, FloatModel.round ((g root).m_scoreBreakdown c) = (g root).m_scoreBreakdown c)
    (P : TrellisPath n) (hP : Reachable g fuel root P)
    (L : List (TrellisPath n)) (hL : P.CreateDeviantPaths g fuel [] = some L)
    (D : TrellisPath n) (hD : D ∈ L) (k hypo arc : Nat)
    (hdev : TrellisPath.ofDeviation g fuel P k arc = some D)
    (hget : P.m_path[k]? = some hypo)
    (hwin : (g arc).m_winningHypo = hypo) :
    arc ∈ arcsAt g P k ∧
    (arc ≠ hypo →
      D.m_totalScore = fadd (fsub P.m_totalScore (g hypo).m_totalScore) (g arc).m_totalScore ∧
      ∀ c, D.m_scoreBreakdown c
        = fadd (fsub (P.m_scoreBreakdown c) ((g hypo).m_scoreBreakdown c))
            ((g arc).m_scoreBreakdown c)) ∧
    (FloatModel.round (P.m_totalScore - (g hypo).m_totalScore)
        = P.m_totalScore - (g hypo).m_totalScore →
      FloatModel.round (P.m_totalScore - (g hypo).m_totalScore + (g arc).m_totalScore)
        = P.m_totalScore - (g hypo).m_totalScore + (g arc).m_totalScore →
      D.m_totalScore = P.m_totalScore - (g hypo).m_totalScore + (g arc).m_totalScore) ∧
    ∀ c, FloatModel.round (P.m_scoreBreakdown c - (g hypo).m_scoreBreakdown c)
        = P.m_scoreBreakdown c - (g hypo).m_scoreBreakdown c →
      FloatModel.round (P.m_scoreBreakdown c - (g hypo).m_scoreBreakdown c
          + (g arc).m_scoreBreakdown c)
        = P.m_scoreBreakdown c - (g hypo).m_scoreBreakdown c + (g arc).m_scoreBreakdown c →
      D.m_scoreBreakdown c
        = P.m_scoreBreakdown c - (g hypo).m_scoreBreakdown c + (g arc).m_scoreBreakdown c := by
  obtain ⟨k2, hypo2, al, arc2, hk2, hget2, hal, harcmem, hdev2⟩ :=
    mem_CreateDeviantPaths g fuel P L D hL hD
  have hkeq : k2 = k := by
    have h1 := ofDeviation_prevEdgeChanged g fuel P D k arc hdev
    have h2 := ofDeviation_prevEdgeChanged g fuel P D k2 arc2 hdev2
    rw [h1] at h2
    exact (Option.some.inj h2).symm
  subst hkeq
  have haeq : arc2 = arc := by
    have h1 := ofDeviation_path_at g fuel P D k2 arc hdev
    have h2 := ofDeviation_path_at g fuel P D k2 arc2 hdev2
    rw [h1] at h2
    exact (Option.some.inj h2).symm
  subst haeq
  obtain ⟨htotal0, hbreak0⟩ := deviation_delta g fuel root hprev hzero P hP D k2
    hypo arc2 hk2 hget hdev hwin
  have htotal := htotal0 hrep
  have hbreak := fun c => hbreak0 c (hrepB c)
  refine ⟨(mem_arcsAt g P k2 arc2).2 ⟨hypo2, al, hget2, hal, harcmem⟩, ?_, ?_, ?_⟩
  · intro hne
    refine ⟨?_, fun c => ?_⟩
    · rw [htotal]
      exact (adjust_arc g (fun h => (g h).m_totalScore) _ hypo arc2 hwin).1 hne
    · rw [hbreak c]
      exact (adjust_arc g (fun h => (g h).m_scoreBreakdown c) _ hypo arc2 hwin).1 hne
  · intro h1 h2
    rw [htotal]
    exact (adjust_arc g (fun h => (g h).m_totalScore) _ hypo arc2 hwin).2 h1 h2
  · intro c h1 h2
    rw [hbreak c]
    exact (adjust_arc g (fun h => (g h).m_scoreBreakdown c) _ hypo arc2 hwin).2 h1 h2

/-- C9 on the specification's scenario: `[T, A, S]` has total 15 and its
deviation at position 1 with `A'` is `[T, A', S]` with total `15 - 10 + 7 = 12`,
neither operation rounding. -/
theorem C9_score_delta_witness :
    (scenarioBest.m_path = [3, 1, 0] ∧ scenarioBest.m_totalScore = 15 ∧
      scenarioDeviant.m_path = [3, 2, 0] ∧ scenarioDeviant.m_totalScore = 12) ∧
    2 ∈ arcsAt scenarioGraph scenarioBest 1 ∧
    scenarioDeviant.m_totalScore = fadd (fsub scenarioBest.m_totalScore
      (scenarioGraph 1).m_totalScore) (scenarioGraph 2).m_totalScore ∧
    scenarioDeviant.m_totalScore = scenarioBest.m_totalScore
      - (scenarioGraph 1).m_totalScore + (scenarioGraph 2).m_totalScore ∧
    ∀ c, scenarioDeviant.m_scoreBreakdown c = scenarioBest.m_scoreBreakdown c
      - (scenarioGraph 1).m_scoreBreakdown c + (scenarioGraph 2).m_scoreBreakdown c := by
  obtain ⟨hmem, hmachine, htotal, hbreak⟩ :=
    C9_score_delta scenarioGraph 3 3 scenario_prev (by decide) (by decide) (fun _ => rfl)
      scenarioBest scenario_reachable_best [scenarioDeviant] rfl scenarioDeviant
      (List.mem_singleton.2 rfl) 1 1 2 rfl rfl rfl
  exact ⟨⟨rfl, rfl, rfl, rfl⟩, hmem, (hmachine (by decide)).1,
    htotal (by decide) (by decide), fun c => hbreak c rfl rfl⟩

/-- C9 as stated fails, in two ways.  In `lostStartGraph` the path `[T, A, S]` of
the terminal hypothesis has total 15, `A'` is in the arc list of
`A = P.m_path[1]` and has `A` as winner, yet the deviation `CreateDeviantPaths`
adds for it scores 9, not `15 - 10 + 7 = 12`, because the constructor also
charges `S` for having lost to another hypothesis.  In `roundingGraph`, where
every hypothesis reached through `GetPrevHypo` is its own winner, the path
`[T, B, A, S]` has total 16777218, `B'` is in the arc list of `B = P.m_path[1]`
and has `B` as winner, and the deviation `[T, B', A, S]` scores 16777216 in
binary32 arithmetic, not `16777218 - 0 + -1 = 16777217`. -/
theorem C9_counterexample :
    (TrellisPath.ofHypo lostStartGraph 3 3 = some scenarioBest ∧
      scenarioBest.CreateDeviantPaths lostStartGraph 3 [] = some [lostStartDeviant] ∧
      TrellisPath.ofDeviation lostStartGraph 3 scenarioBest 1 2 = some lostStartDeviant ∧
      scenarioBest.m_path[1]? = some 1 ∧
      (lostStartGraph 1).m_arcList = some [2] ∧
      (lostStartGraph 2).m_winningHypo = 1 ∧
      lostStartDeviant.m_totalScore ≠ scenarioBest.m_totalScore
        - (lostStartGraph 1).m_totalScore + (lostStartGraph 2).m_totalScore ∧
      lostStartDeviant.m_totalScore ≠ fadd (fsub scenarioBest.m_totalScore
        (lostStartGraph 1).m_totalScore) (lostStartGraph 2).m_totalScore) ∧
    (TrellisPath.ofHypo roundingGraph 4 5 = some roundingRoot ∧
      roundingRoot.CreateDeviantPaths roundingGraph 4 []
        = some [roundingFirst, roundingOther] ∧
      TrellisPath.ofDeviation roundingGraph 4 roundingRoot 1 4 = some roundingFirst ∧
      roundingRoot.m_path[1]? = some 3 ∧
      (roundingGraph 3).m_arcList = some [4] ∧
      (roundingGraph 4).m_winningHypo = 3 ∧
      (∀ h p, (roundingGraph h).m_prevHypo = some p → (roundingGraph p).m_winningHypo = p) ∧
      roundingFirst.m_totalScore = 16777216 ∧
      roundingRoot.m_totalScore - (roundingGraph 3).m_totalScore
        + (roundingGraph 4).m_totalScore = 16777217) := by
  refine ⟨⟨rfl, rfl, rfl, rfl, rfl, rfl, by decide, by decide⟩,
    rfl, ?_, ?_, rfl, rfl, rfl, ?_, rfl, by decide⟩
  · exact congrArg some (congrArg₂ List.cons
      (TrellisPath.eq_of_fields _ _ rfl rfl (fun c => by rw [Fin.eq_zero c]; rfl) rfl)
      (congrArg₂ List.cons
        (TrellisPath.eq_of_fields _ _ rfl rfl (fun c => by rw [Fin.eq_zero c]; rfl) rfl) rfl))
  · exact congrArg some
      (TrellisPath.eq_of_fields _ _ rfl rfl (fun c => by rw [Fin.eq_zero c]; rfl) rfl)
  · intro h p hp
    match h with
    | 0 => cases hp
    | 1 => cases hp; rfl
    | 2 => cases hp; rfl
    | 3 => cases hp; rfl
    | 4 => cases hp; rfl
    | 5 => cases hp; rfl
    | k + 6 => cases hp

/-! ### C5: no two nodes of the enumeration tree share a path -/

theorem changedEdges_chain (g : Graph n) :
    ∀ (l : List Nat) (o : Option Nat) (i : Nat), chainFrom g o l → changedEdges g o i l = [] := by
  intro l
  induction l with
  | nil => intro _ _ _; rfl
  | cons x rest ih =>
      intro o i hc
      cases o with
      | none => simp [chainFrom] at hc
      | some h =>
          obtain ⟨hx, hrest⟩ := hc
          subst hx
          simp [changedEdges, ih _ (i + 1) hrest]

theorem changedEdges_append (g : Graph n) :
    ∀ (a b : List Nat) (e : Option Nat) (i : Nat),
      changedEdges g e i (a ++ b)
        = changedEdges g e i a ++ changedEdges g (nextExpected g e a) (i + a.length) b := by
  intro a
  induction a with
  | nil => intro b e i; simp [changedEdges, nextExpected]
  | cons x rest ih =>
      intro b e i
      have hlen : i + 1 + rest.length = i + (rest.length + 1) := by omega
      simp only [List.cons_append, changedEdges, nextExpected, List.length_cons,
        List.append_assoc, List.append_eq]
      rw [ih b _ (i + 1), hlen]

theorem nextExpected_take (g : Graph n) :
    ∀ (path : List Nat) (k : Nat) (e : Option Nat) (y : Nat), path[k]? = some y →
      nextExpected g e (path.take (k + 1)) = (g y).m_prevHypo := by
  intro path
  induction path with
  | nil => intro k e y h; simp at h
  | cons x rest ih =>
      intro k e y h
      cases k with
      | zero =>
          simp only [List.getElem?_cons_zero, Option.some.injEq] at h
          subst h
          simp [nextExpected]
      | succ k2 =>
          simp only [List.getElem?_cons_succ] at h
          simp only [List.take_succ_cons, nextExpected]
          exact ih k2 _ y h

theorem chainFrom_of_getElem (g : Graph n) :
    ∀ (l : List Nat) (o : Option Nat), l[0]? = o →
      (∀ i a, l[i]? = some a → l[i + 1]? = (g a).m_prevHypo) → chainFrom g o l := by
  intro l
  induction l with
  | nil =>
      intro o h0 _
      simp at h0
      subst h0
      rfl
  | cons x rest ih =>
      intro o h0 hstep
      simp at h0
      subst h0
      refine ⟨rfl, ih _ ?_ ?_⟩
      · have := hstep 0 x (by simp)
        simpa using this
      · intro i a ha
        have := hstep (i + 1) a (by simpa using ha)
        simpa using this

theorem changedEdges_deviant [FloatModel] (g : Graph n) (fuel root : Nat) (P D : TrellisPath n)
    (k hypo arc : Nat) (hP : SuffixInvariant g root P) (hk : firstEdge P ≤ k)
    (hget : P.m_path[k]? = some hypo) (hne : arc ≠ hypo)
    (hD : TrellisPath.ofDeviation g fuel P k arc = some D) :
    changedEdges g (some root) 0 D.m_path
      = changedEdges g (some root) 0 P.m_path ++ [(k, arc)] := by
  obtain ⟨l, _, hc, _, rfl⟩ := ofDeviation_some g fuel P k arc D hD
  obtain ⟨hsuf, hroot⟩ := hP
  have hklt : k < P.m_path.length := by
    by_contra hcon
    rw [List.getElem?_eq_none (by omega)] at hget
    cases hget
  have hlen : (P.m_path.take k).length = k := by
    rw [List.length_take]; omega
  have hexp : nextExpected g (some root) (P.m_path.take k) = some hypo := by
    cases k with
    | zero =>
        have hnone : P.m_prevEdgeChanged = none := by
          cases hp : P.m_prevEdgeChanged with
          | none => rfl
          | some j => simp [firstEdge, hp] at hk
        rw [hroot hnone] at hget
        simpa [nextExpected] using hget
    | succ k2 =>
        have hk2 : k2 < P.m_path.length := by omega
        have hy : P.m_path[k2]? = some P.m_path[k2] := List.getElem?_eq_getElem hk2
        rw [nextExpected_take g P.m_path k2 _ _ hy, ← hsuf k2 _ hk hy, hget]
  have hchain : chainFrom g (some hypo) (P.m_path.drop k) := by
    apply chainFrom_of_getElem
    · rw [List.getElem?_drop]; simpa using hget
    · intro i a ha
      rw [List.getElem?_drop] at ha ⊢
      exact hsuf (k + i) a (by omega) ha
  have hPsplit : changedEdges g (some root) 0 P.m_path
      = changedEdges g (some root) 0 (P.m_path.take k) := by
    conv_lhs => rw [← List.take_append_drop k P.m_path]
    rw [changedEdges_append, hexp, changedEdges_chain g _ _ _ hchain, List.append_nil]
  show changedEdges g (some root) 0 (P.m_path.take k ++ arc :: l) = _
  rw [changedEdges_append, hexp, hPsplit, hlen]
  congr 1
  have hne2 : ¬ (some hypo = some arc) := by
    intro h
    exact hne (Option.some.inj h).symm
  simp only [changedEdges, if_neg hne2, changedEdges_chain g l _ _ hc, Nat.zero_add,
    List.append_nil]

theorem treeNode_reachable [FloatModel] (g : Graph n) (fuel root : Nat) :
    ∀ (addr : List Nat) (D : TrellisPath n), treeNode g fuel root addr = some D →
      Reachable g fuel root D := by
  intro addr
  induction addr with
  | nil => intro D h; exact Reachable.root D h
  | cons c addr ih =>
      intro D h
      simp only [treeNode] at h
      cases hP : treeNode g fuel root addr with
      | none => simp [hP] at h
      | some P =>
          cases hL : P.CreateDeviantPaths g fuel [] with
          | none => simp [hP, hL] at h
          | some L =>
              simp only [hP, hL] at h
              exact Reachable.deviant P L D (ih P hP) hL (List.getElem?_mem h)

theorem deviationsFrom_eq_map [FloatModel] (g : Graph n) (fuel : Nat) (D : TrellisPath n) (start : Nat) :
    deviationsFrom g fuel D start
      = (deviationPairs g D start).map (fun p => TrellisPath.ofDeviation g fuel D p.1 p.2) := by
  simp only [deviationsFrom, deviationPairs, List.map_flatMap, List.map_map]
  rfl

theorem deviationPairs_nodup (g : Graph n)
    (hnodup : ∀ h al, (g h).m_arcList = some al → al.Nodup)
    (D : TrellisPath n) (start : Nat) : (deviationPairs g D start).Nodup := by
  unfold deviationPairs
  rw [List.nodup_flatMap]
  constructor
  · intro i _
    apply List.Nodup.map
    · intro a b hab
      exact (Prod.mk.inj hab).2
    · unfold arcsAt
      cases D.m_path[i]? with
      | none => exact List.nodup_nil
      | some hypo =>
          cases hal : (g hypo).m_arcList with
          | none => simp only [hal]; exact List.nodup_nil
          | some al => simp only [hal]; exact hnodup hypo al hal
  · have hr : (List.range' start (D.m_path.length - start)).Nodup := List.nodup_range' _ _
    refine List.Pairwise.imp ?_ hr
    intro i j hij
    simp only [Function.onFun]
    rw [List.disjoint_left]
    intro p hp1 hp2
    obtain ⟨a, _, rfl⟩ := List.mem_map.1 hp1
    obtain ⟨b, _, hb⟩ := List.mem_map.1 hp2
    exact hij (Prod.mk.inj hb).1.symm

theorem mem_deviationPairs (g : Graph n) (D : TrellisPath n) (start k arc : Nat)
    (h : (k, arc) ∈ deviationPairs g D start) : start ≤ k ∧ arc ∈ arcsAt g D k := by
  simp only [deviationPairs, List.mem_flatMap, List.mem_map, List.mem_range'_1,
    Prod.mk.injEq] at h
  obtain ⟨i, hi, a, ha, rfl, rfl⟩ := h
  exact ⟨hi.1, ha⟩

theorem child_pair [FloatModel] (g : Graph n) (fuel : Nat) (P D : TrellisPath n)
    (L : List (TrellisPath n)) (c : Nat)
    (hL : P.CreateDeviantPaths g fuel [] = some L) (hc : L[c]? = some D) :
    ∃ k arc, (deviationPairs g P (firstEdge P))[c]? = some (k, arc) ∧
      TrellisPath.ofDeviation g fuel P k arc = some D := by
  rw [CreateDeviantPaths_eq, allSome_eq_some, deviationsFrom_eq_map] at hL
  have h1 : (L.map some)[c]? = some (some D) := by
    rw [List.getElem?_map, hc]; rfl
  rw [hL, List.getElem?_map] at h1
  cases hp : (deviationPairs g P (firstEdge P))[c]? with
  | none => rw [hp] at h1; cases h1
  | some p =>
      rw [hp] at h1
      exact ⟨p.1, p.2, rfl, Option.some.inj h1⟩

theorem treeNode_cons [FloatModel] (g : Graph n)
    (hnoself : ∀ h al, (g h).m_arcList = some al → h ∉ al)
    (fuel root c : Nat) (addr : List Nat) (D : TrellisPath n)
    (h : treeNode g fuel root (c :: addr) = some D) :
    ∃ P k arc, treeNode g fuel root addr = some P ∧
      (deviationPairs g P (firstEdge P))[c]? = some (k, arc) ∧
      changedEdges g (some root) 0 D.m_path
        = changedEdges g (some root) 0 P.m_path ++ [(k, arc)] := by
  simp only [treeNode] at h
  cases hP : treeNode g fuel root addr with
  | none => simp [hP] at h
  | some P =>
      cases hL : P.CreateDeviantPaths g fuel [] with
      | none => simp [hP, hL] at h
      | some L =>
          simp only [hP, hL] at h
          obtain ⟨k, arc, hpair, hdev⟩ := child_pair g fuel P D L c hL h
          obtain ⟨hk, harc⟩ := mem_deviationPairs g P _ k arc (List.getElem?_mem hpair)
          obtain ⟨hypo, al, hget, hal, hmem⟩ := (mem_arcsAt g P k arc).1 harc
          have hne : arc ≠ hypo := by
            intro heq
            rw [heq] at hmem
            exact hnoself hypo al hal hmem
          have hsuf := reachable_suffix g fuel root P (treeNode_reachable g fuel root addr P hP)
          exact ⟨P, k, arc, rfl, hpair,
            changedEdges_deviant g fuel root P D k hypo arc hsuf hk hget hne hdev⟩

theorem treeNode_nil [FloatModel] (g : Graph n) (fuel root : Nat) (D : TrellisPath n)
    (h : treeNode g fuel root [] = some D) :
    changedEdges g (some root) 0 D.m_path = [] := by
  obtain ⟨l, hc, _, rfl⟩ := ofHypo_some g fuel root D h
  exact changedEdges_chain g l _ 0 hc

theorem treeNode_injective [FloatModel] (g : Graph n)
    (hnodup : ∀ h al, (g h).m_arcList = some al → al.Nodup)
    (hnoself : ∀ h al, (g h).m_arcList = some al → h ∉ al)
    (fuel root : Nat) :
    ∀ (addr1 addr2 : List Nat) (D1 D2 : TrellisPath n),
      treeNode g fuel root addr1 = some D1 → treeNode g fuel root addr2 = some D2 →
      changedEdges g (some root) 0 D1.m_path = changedEdges g (some root) 0 D2.m_path →
      addr1 = addr2 := by
  intro addr1
  induction addr1 with
  | nil =>
      intro addr2 D1 D2 h1 h2 heq
      cases addr2 with
      | nil => rfl
      | cons c2 a2 =>
          obtain ⟨P, k, arc, _, _, hsig⟩ := treeNode_cons g hnoself fuel root c2 a2 D2 h2
          rw [treeNode_nil g fuel root D1 h1, hsig] at heq
          simp at heq
  | cons c1 a1 ih =>
      intro addr2 D1 D2 h1 h2 heq
      obtain ⟨P1, k1, arc1, hP1, hpair1, hsig1⟩ := treeNode_cons g hnoself fuel root c1 a1 D1 h1
      cases addr2 with
      | nil =>
          rw [treeNode_nil g fuel root D2 h2, hsig1] at heq
          simp at heq
      | cons c2 a2 =>
          obtain ⟨P2, k2, arc2, hP2, hpair2, hsig2⟩ :=
            treeNode_cons g hnoself fuel root c2 a2 D2 h2
          rw [hsig1, hsig2] at heq
          obtain ⟨hs, hp⟩ := List.append_inj' heq rfl
          have ha : a1 = a2 := ih a2 P1 P2 hP1 hP2 hs
          subst ha
          rw [hP1] at hP2
          have hPeq : P1 = P2 := Option.some.inj hP2
          subst hPeq
          have hlt : c1 < (deviationPairs g P1 (firstEdge P1)).length := by
            by_contra hcon
            rw [List.getElem?_eq_none (by omega)] at hpair1
            cases hpair1
          have hc : c1 = c2 := by
            apply List.getElem?_inj hlt (deviationPairs_nodup g hnodup P1 _)
            rw [hpair1, hpair2, List.singleton_inj.1 hp]
          rw [hc]

/-- C5: on a graph whose arc lists hold no hypothesis twice and never hold the
hypothesis they belong to, two different nodes of the enumeration tree (the path
of the terminal hypothesis at the root, and below each path the paths that
`CreateDeviantPaths` adds for it) never have the same sequence of hypotheses. -/
theorem C5_no_duplicates [FloatModel] (g : Graph n) (fuel root : Nat)
    (hnodup : ∀ h al, (g h).m_arcList = some al → al.Nodup)
    (hnoself : ∀ h al, (g h).m_arcList = some al → h ∉ al)
    (addr1 addr2 : List Nat) (D1 D2 : TrellisPath n)
    (h1 : treeNode g fuel root addr1 = some D1) (h2 : treeNode g fuel root addr2 = some D2)
    (hne : addr1 ≠ addr2) : D1.m_path ≠ D2.m_path := by
  intro heq
  apply hne
  apply treeNode_injective g hnodup hnoself fuel root addr1 addr2 D1 D2 h1 h2
  rw [heq]

theorem twoClass_nodup (h : Nat) (al : List Nat)
    (hal : (twoClassGraph h).m_arcList = some al) : al.Nodup := by
  match h with
  | 0 => cases hal
  | 1 => cases hal; decide
  | 2 => cases hal
  | 3 => cases hal
  | 4 => cases hal; decide
  | 5 => cases hal
  | k + 6 => cases hal

theorem twoClass_noself (h : Nat) (al : List Nat)
    (hal : (twoClassGraph h).m_arcList = some al) : h ∉ al := by
  match h with
  | 0 => cases hal
  | 1 => cases hal; decide
  | 2 => cases hal
  | 3 => cases hal
  | 4 => cases hal; decide
  | 5 => cases hal
  | k + 6 => cases hal

/-- C5 on a graph with two recombination classes: the path `[5, 3, 0]`, second
child of the first child of the root, and the path `[4, 3, 0]`, third child of
the root, are different. -/
theorem C5_no_duplicates_witness : twoClassDeep.m_path ≠ twoClassShallow.m_path :=
  C5_no_duplicates twoClassGraph 3 4 twoClass_nodup twoClass_noself [1, 0] [2]
    twoClassDeep twoClassShallow rfl rfl (by decide)

/-! ### C11: the calls the generator makes -/

/-- C11: the calls `CreateDeviantPaths` makes to the deviation constructor are
those on the pairs `(k, arc)` of `deviationPairs`, in order; each has
`k < len(D.m_path)` and `arc` in the arc list of `D.m_path[k]`, so the copy loop
of the constructor reads the parent's path only at the indices `0 .. k-1`, all
in range, and returns its first `k` hypotheses. -/
theorem C11_generator_contract [FloatModel] (g : Graph n) (fuel : Nat) (D : TrellisPath n) :
    D.CreateDeviantPaths g fuel []
      = allSome ((deviationPairs g D (firstEdge D)).map
          (fun p => TrellisPath.ofDeviation g fuel D p.1 p.2)) ∧
    ∀ k arc, (k, arc) ∈ deviationPairs g D (firstEdge D) →
      k < D.m_path.length ∧
      (∃ hypo al, D.m_path[k]? = some hypo ∧ (g hypo).m_arcList = some al ∧ arc ∈ al) ∧
      (∀ i, i < k → ∃ hypo, D.m_path[i]? = some hypo) ∧
      copyFromParent D.m_path k 0 [] = some (D.m_path.take k) := by
  refine ⟨by rw [CreateDeviantPaths_eq, deviationsFrom_eq_map], ?_⟩
  intro k arc hmem
  obtain ⟨_, harc⟩ := mem_deviationPairs g D _ k arc hmem
  obtain ⟨hypo, al, hget, hal, ha⟩ := (mem_arcsAt g D k arc).1 harc
  have hklt : k < D.m_path.length := by
    by_contra hcon
    rw [List.getElem?_eq_none (by omega)] at hget
    cases hget
  refine ⟨hklt, ⟨hypo, al, hget, hal, ha⟩, ?_, ?_⟩
  · intro i hi
    exact ⟨D.m_path[i], List.getElem?_eq_getElem (by omega)⟩
  · have := copyFromParent_eq D.m_path k 0 [] (by omega)
    simpa using this

/-! ### C12: predecessor links that never end -/

theorem enumeratePath_none (g : Graph n) (o : Option Nat)
    (hinf : ¬ ∃ l, chainFrom g o l) (fuel : Nat) (path : List Nat) :
    enumeratePath g fuel o path = none := by
  cases h : enumeratePath g fuel o path with
  | none => rfl
  | some r =>
      obtain ⟨l, _, hc, _⟩ := chain_of_enumeratePath g fuel o path r h
      exact absurd ⟨l, hc⟩ hinf

theorem ofHypo_none (g : Graph n) (h : Nat) (hinf : ¬ ∃ l, chainFrom g (some h) l)
    (fuel : Nat) : TrellisPath.ofHypo g fuel h = none := by
  simp only [TrellisPath.ofHypo, enumeratePath_none g (some h) hinf fuel []]

theorem ofDeviation_none [FloatModel] (g : Graph n) (arc : Nat)
    (hinf : ¬ ∃ l, chainFrom g (some arc) l) (fuel : Nat) (P : TrellisPath n) (k : Nat) :
    TrellisPath.ofDeviation g fuel P k arc = none := by
  cases h : TrellisPath.ofDeviation g fuel P k arc with
  | none => rfl
  | some D =>
      obtain ⟨l, _, hc, _, _⟩ := ofDeviation_some g fuel P k arc D h
      exact absurd ⟨arc :: l, rfl, hc⟩ hinf

theorem cycle_no_chain : ∀ (l : List Nat) (h : Nat), ¬ chainFrom cycleGraph (some h) l := by
  intro l
  induction l with
  | nil => intro h hc; exact hc
  | cons x rest ih =>
      intro h hc
      exact ih 0 hc.2

/-- C12 as the code has it: when the predecessor links from a hypothesis never
reach a hypothesis without predecessor (a cycle, or an endless chain), neither
constructor ever returns: for every amount of fuel the walk is still running.
No path, truncated or not, is returned, and no error is raised either. -/
theorem C12_malformed_graph [FloatModel] (g : Graph n) (h : Nat)
    (hinf : ¬ ∃ l, chainFrom g (some h) l) (fuel : Nat) :
    TrellisPath.ofHypo g fuel h = none ∧
    ∀ P k, TrellisPath.ofDeviation g fuel P k h = none :=
  ⟨ofHypo_none g h hinf fuel, fun P k => ofDeviation_none g h hinf fuel P k⟩

/-- C12 on a cycle: with 1000 iterations allowed, the walk from the hypothesis
that is its own predecessor has returned nothing. -/
theorem C12_malformed_graph_witness :
    TrellisPath.ofHypo cycleGraph 1000 0 = none ∧
    ∀ P k, TrellisPath.ofDeviation cycleGraph 1000 P k 0 = none :=
  C12_malformed_graph cycleGraph 0 (fun ⟨l, hl⟩ => cycle_no_chain l 0 hl) 1000

/-- C12 as stated fails: hypothesis `0` of `cycleGraph` is its own predecessor,
and the construction of its path, like that of a deviation to it, has not
finished after any number of iterations: it loops instead of failing fast. -/
theorem C12_counterexample :
    (cycleGraph 0).m_prevHypo = some 0 ∧
    (∀ fuel, TrellisPath.ofHypo cycleGraph fuel 0 = none) ∧
    (∀ fuel, TrellisPath.ofDeviation cycleGraph fuel scenarioBest 1 0 = none) :=
  ⟨rfl, fun fuel => ofHypo_none cycleGraph 0 (fun ⟨l, hl⟩ => cycle_no_chain l 0 hl) fuel,
    fun fuel => ofDeviation_none cycleGraph 0 (fun ⟨l, hl⟩ => cycle_no_chain l 0 hl) fuel
      scenarioBest 1⟩

/-! ### C13: the suffix invariant -/

theorem suffix_last (g : Graph n) (path : List Nat) (s : Nat) (hs : s < path.length)
    (hsuf : ∀ i a, s ≤ i → path[i]? = some a → path[i + 1]? = (g a).m_prevHypo)
    (x : Nat) (hx : path.getLast? = some x) : (g x).m_prevHypo = none := by
  rw [List.getLast?_eq_getElem?] at hx
  have := hsuf (path.length - 1) x (by omega) hx
  rw [← this]
  exact List.getElem?_eq_none (by omega)

theorem suffix_chain (g : Graph n) (path : List Nat) (s : Nat)
    (hsuf : ∀ i a, s ≤ i → path[i]? = some a → path[i + 1]? = (g a).m_prevHypo) :
    chainFrom g path[s]? (path.drop s) := by
  apply chainFrom_of_getElem
  · rw [List.getElem?_drop]; rfl
  · intro i a ha
    rw [List.getElem?_drop] at ha ⊢
    exact hsuf (s + i) a (by omega) ha

/-- C13: a path built by either constructor has, from its changed edge on (from
position 0 when `m_prevEdgeChanged` is `NOT_FOUND`), each hypothesis followed by
its `GetPrevHypo()`, and its last hypothesis has no predecessor: from the changed
edge on, the path is the predecessor chain of the hypothesis standing there. -/
theorem C13_suffix_invariant [FloatModel] (g : Graph n) (fuel : Nat) (D : TrellisPath n)
    (hD : (∃ h, TrellisPath.ofHypo g fuel h = some D) ∨
      ∃ P k arc, TrellisPath.ofDeviation g fuel P k arc = some D) :
    (∀ i a, (∀ j, D.m_prevEdgeChanged = some j → j ≤ i) → D.m_path[i]? = some a →
      D.m_path[i + 1]? = (g a).m_prevHypo) ∧
    (∀ x, D.m_path.getLast? = some x → (g x).m_prevHypo = none) ∧
    chainFrom g D.m_path[D.m_prevEdgeChanged.getD 0]?
      (D.m_path.drop (D.m_prevEdgeChanged.getD 0)) := by
  have key : D.m_prevEdgeChanged.getD 0 < D.m_path.length ∧
      ∀ i a, D.m_prevEdgeChanged.getD 0 ≤ i → D.m_path[i]? = some a →
        D.m_path[i + 1]? = (g a).m_prevHypo := by
    rcases hD with ⟨h, hh⟩ | ⟨P, k, arc, hdev⟩
    · obtain ⟨l, hc, _, rfl⟩ := ofHypo_some g fuel h D hh
      constructor
      · cases l with
        | nil => simp [chainFrom] at hc
        | cons x rest => simp [NOT_FOUND]
      · intro i a _ ha
        exact (chainFrom_getElem g l _ hc).2 i a ha
    · have hk := ofDeviation_prevEdgeChanged g fuel P D k arc hdev
      have hat := ofDeviation_path_at g fuel P D k arc hdev
      have hsuf := ofDeviation_suffix g fuel P D k arc hdev
      rw [hk]
      constructor
      · show k < D.m_path.length
        by_contra hcon
        rw [List.getElem?_eq_none (by omega)] at hat
        cases hat
      · intro i a hi ha
        exact hsuf i a (by simp only [firstEdge, hk]; simp only [Option.getD_some] at hi; omega) ha
  obtain ⟨hlt, hsuf⟩ := key
  refine ⟨?_, suffix_last g D.m_path _ hlt hsuf, suffix_chain g D.m_path _ hsuf⟩
  intro i a hj ha
  apply hsuf i a ?_ ha
  cases hp : D.m_prevEdgeChanged with
  | none => simp
  | some j => simpa using hj j hp

/-- C13 on the specification's scenario: in `[T, A', S]`, changed at position 1,
`A'` is followed by its predecessor `S`, which has none. -/
theorem C13_suffix_invariant_witness :
    (∀ i a, (∀ j, scenarioDeviant.m_prevEdgeChanged = some j → j ≤ i) →
      scenarioDeviant.m_path[i]? = some a →
      scenarioDeviant.m_path[i + 1]? = (scenarioGraph a).m_prevHypo) ∧
    (∀ x, scenarioDeviant.m_path.getLast? = some x → (scenarioGraph x).m_prevHypo = none) ∧
    chainFrom scenarioGraph scenarioDeviant.m_path[scenarioDeviant.m_prevEdgeChanged.getD 0]?
      (scenarioDeviant.m_path.drop (scenarioDeviant.m_prevEdgeChanged.getD 0)) :=
  C13_suffix_invariant scenarioGraph 3 scenarioDeviant (Or.inr ⟨scenarioBest, 1, 2, rfl⟩)

/-! ### C14: what a deviation shares with its parent -/

/-- C14 as the code has it: for `arc != P.m_path[k]` with a finite predecessor
chain, the deviation constructor returns a path `C` that holds `arc` at position
`k`, where `P` holds another hypothesis, that has the hypotheses of `P` at every
position before `k`, and that from position `k` on is `arc` followed by the
predecessor chain of `arc`.  `C` has the length of `P` and the hypotheses of `P`
at every position other than `k`, before and after, if and only if the
hypotheses of `P` after position `k` are the predecessor chain of `arc`; this is
the case when `arc` has the same predecessor as `P.m_path[k]` and the hypotheses
of `P` from position `k` on follow the predecessor links. -/
theorem C14_one_node_differs [FloatModel] (g : Graph n) (fuel : Nat) (P : TrellisPath n)
    (k hypo arc : Nat) (l : List Nat) (hget : P.m_path[k]? = some hypo) (hne : arc ≠ hypo)
    (hchain : chainFrom g (some arc) l) (hfuel : l.length ≤ fuel) :
    ∃ C, TrellisPath.ofDeviation g fuel P k arc = some C ∧
      C.m_path[k]? = some arc ∧
      C.m_path[k]? ≠ P.m_path[k]? ∧
      (∀ i, i < k → C.m_path[i]? = P.m_path[i]?) ∧
      C.m_path.drop k = l ∧
      ((C.m_path.length = P.m_path.length ∧ ∀ i, i ≠ k → C.m_path[i]? = P.m_path[i]?) ↔
        chainFrom g (g arc).m_prevHypo (P.m_path.drop (k + 1))) ∧
      ((g arc).m_prevHypo = (g hypo).m_prevHypo →
        (∀ i a, k ≤ i → P.m_path[i]? = some a → P.m_path[i + 1]? = (g a).m_prevHypo) →
        C.m_path.length = P.m_path.length ∧ ∀ i, i ≠ k → C.m_path[i]? = P.m_path[i]?) := by
  have hklt : k < P.m_path.length := by
    by_contra hcon
    rw [List.getElem?_eq_none (by omega)] at hget
    cases hget
  have hlen : (P.m_path.take k).length = k := by
    rw [List.length_take]; omega
  cases l with
  | nil => simp [chainFrom] at hchain
  | cons x rest =>
      obtain ⟨hx, hrest⟩ := hchain
      subst hx
      have hdev := ofDeviation_of_chain g fuel P k x rest (by omega) hrest
        (by simp at hfuel; omega)
      have hat : (P.m_path.take k ++ x :: rest)[k]? = some x := by
        rw [List.getElem?_append_right (by omega)]
        simp [hlen]
      have hset : ∀ (rest2 : List Nat), rest2 = P.m_path.drop (k + 1) →
          (P.m_path.take k ++ x :: rest2).length = P.m_path.length ∧
          ∀ i, i ≠ k → (P.m_path.take k ++ x :: rest2)[i]? = P.m_path[i]? := by
        intro rest2 h2
        have hs : P.m_path.take k ++ x :: rest2 = P.m_path.set k x := by
          rw [h2, List.set_eq_take_append_cons_drop, if_pos hklt]
        rw [hs]
        exact ⟨List.length_set _ _ _, fun i hi => List.getElem?_set_ne (fun h => hi h.symm)⟩
      have hback : chainFrom g (g x).m_prevHypo (P.m_path.drop (k + 1)) →
          (P.m_path.take k ++ x :: rest).length = P.m_path.length ∧
          ∀ i, i ≠ k → (P.m_path.take k ++ x :: rest)[i]? = P.m_path[i]? :=
        fun hc => hset rest (chainFrom_unique g _ _ _ hrest hc)
      refine ⟨_, hdev, hat, ?_, ?_, ?_, ⟨?_, hback⟩, ?_⟩
      · show (P.m_path.take k ++ x :: rest)[k]? ≠ _
        rw [hat, hget]
        intro h
        exact hne (Option.some.inj h)
      · intro i hi
        show (P.m_path.take k ++ x :: rest)[i]? = _
        rw [List.getElem?_append_left (by omega), List.getElem?_take_of_lt hi]
      · show (P.m_path.take k ++ x :: rest).drop k = _
        exact List.drop_left' hlen
      · intro h
        obtain ⟨_, hagree⟩ := h
        have hsame : P.m_path.drop (k + 1) = rest := by
          apply List.ext_getElem?
          intro i
          rw [List.getElem?_drop, ← hagree (k + 1 + i) (by omega)]
          show (P.m_path.take k ++ x :: rest)[k + 1 + i]? = _
          rw [List.getElem?_append_right (by omega), hlen]
          have : k + 1 + i - k = i + 1 := by omega
          rw [this, List.getElem?_cons_succ]
        rw [hsame]
        exact hrest
      · intro hsame hsuf
        apply hback
        have hdrop : P.m_path.drop k = hypo :: P.m_path.drop (k + 1) := by
          rw [List.drop_eq_getElem_cons hklt]
          congr 1
          rw [List.getElem?_eq_getElem hklt] at hget
          exact Option.some.inj hget
        have h1 := suffix_chain g P.m_path k hsuf
        rw [hget, hdrop] at h1
        rw [hsame]
        exact h1.2

/-- C14 on two inputs.  In the specification's scenario `A'` has the predecessor
of `A`, and `[T, A', S]` differs from `[T, A, S]` at position 1 only.  In
`crossGraph` the constructor, called on `([T, A, S], 0, T')`, returns a path with
`T'` at position 0 that is `[T', A', S]` from there on, and since `[A, S]` is not
the predecessor chain of `T'` it does not agree with its parent everywhere
else. -/
theorem C14_one_node_differs_witness :
    (∃ C, TrellisPath.ofDeviation scenarioGraph 3 scenarioBest 1 2 = some C ∧
      C.m_path[1]? = some 2 ∧
      C.m_path[1]? ≠ scenarioBest.m_path[1]? ∧
      (∀ i, i < 1 → C.m_path[i]? = scenarioBest.m_path[i]?) ∧
      C.m_path.drop 1 = [2, 0] ∧
      C.m_path.length = scenarioBest.m_path.length ∧
      ∀ i, i ≠ 1 → C.m_path[i]? = scenarioBest.m_path[i]?) ∧
    (∃ C, TrellisPath.ofDeviation crossGraph 3 scenarioBest 0 4 = some C ∧
      C.m_path[0]? = some 4 ∧
      C.m_path[0]? ≠ scenarioBest.m_path[0]? ∧
      C.m_path.drop 0 = [4, 2, 0] ∧
      ¬ (C.m_path.length = scenarioBest.m_path.length ∧
        ∀ i, i ≠ 0 → C.m_path[i]? = scenarioBest.m_path[i]?)) := by
  constructor
  · obtain ⟨C, h1, h2, h3, h4, h5, _, h7⟩ :=
      C14_one_node_differs scenarioGraph 3 scenarioBest 1 1 2 [2, 0] rfl (by decide)
        (by decide) (by decide)
    refine ⟨C, h1, h2, h3, h4, h5, h7 rfl ?_⟩
    intro i a hi ha
    match i with
    | 0 => omega
    | 1 => cases ha; rfl
    | 2 => cases ha; rfl
    | k + 3 => cases ha
  · obtain ⟨C, h1, h2, h3, _, h5, h6, _⟩ :=
      C14_one_node_differs crossGraph 3 scenarioBest 0 3 4 [4, 2, 0] rfl (by decide)
        (by decide) (by decide)
    exact ⟨C, h1, h2, h3, h5, fun h => absurd (h6.1 h) (by decide)⟩

/-- C14 as stated fails: in `crossGraph` the terminal `T = 3` has `T' = 4` in its
arc list, `T' != T`, and the deviation of `[T, A, S]` at position 0 with `T'`,
which `CreateDeviantPaths` adds, is `[T', A', S]`: it differs from its parent at
position 1 as well, because `T'` has another predecessor than `T`. -/
theorem C14_counterexample :
    TrellisPath.ofHypo crossGraph 3 3 = some scenarioBest ∧
    scenarioBest.CreateDeviantPaths crossGraph 3 [] = some [crossDeviant] ∧
    TrellisPath.ofDeviation crossGraph 3 scenarioBest 0 4 = some crossDeviant ∧
    scenarioBest.m_path[0]? = some 3 ∧
    (crossGraph 3).m_arcList = some [4] ∧
    crossDeviant.m_path[1]? ≠ scenarioBest.m_path[1]? :=
  ⟨rfl, rfl, rfl, rfl, rfl, by decide⟩

/-! ### C15: positions without alternatives -/

/-- C15 as the code has it: `CreateDeviantPaths` on a path `D` whose arc-list
members have finite predecessor chains returns, and for every position `i`:
when the hypothesis at position `i` has no arc list or an empty one, none of the
paths added has `m_prevEdgeChanged = i`; when `i` is a position the generator
considers and the arc list there has exactly one element `a`, the path the
deviation constructor builds from `(D, i, a)` is added, has
`m_prevEdgeChanged = i`, and is the only added path that has. -/
theorem C15_empty_arc_list [FloatModel] (g : Graph n) (fuel : Nat) (D : TrellisPath n)
    (hfin : ∀ k a, firstEdge D ≤ k → a ∈ arcsAt g D k →
      ∃ l, chainFrom g (some a) l ∧ l.length ≤ fuel) :
    ∃ L, D.CreateDeviantPaths g fuel [] = some L ∧
      (∀ i, (∀ hypo, D.m_path[i]? = some hypo →
          (g hypo).m_arcList = none ∨ (g hypo).m_arcList = some []) →
        ∀ C ∈ L, C.m_prevEdgeChanged ≠ some i) ∧
      (∀ i hypo a, firstEdge D ≤ i → D.m_path[i]? = some hypo →
        (g hypo).m_arcList = some [a] →
        ∃ C, TrellisPath.ofDeviation g fuel D i a = some C ∧ C ∈ L ∧
          C.m_prevEdgeChanged = some i ∧
          ∀ C2 ∈ L, C2.m_prevEdgeChanged = some i → C2 = C) := by
  obtain ⟨L, hL, hmap⟩ := CreateDeviantPaths_some g fuel D hfin
  refine ⟨L, hL, ?_, ?_⟩
  · intro i hempty C hC hi
    obtain ⟨k, hypo, al, arc, _, hget, hal, hmem, hdev⟩ :=
      mem_CreateDeviantPaths g fuel D L C hL hC
    rw [ofDeviation_prevEdgeChanged g fuel D C k arc hdev] at hi
    have hki : k = i := Option.some.inj hi
    subst hki
    rcases hempty hypo hget with h | h
    · rw [h] at hal; cases hal
    · rw [h] at hal
      cases hal
      simp at hmem
  · intro i hypo a hi hget hal
    have hilt : i < D.m_path.length := by
      by_contra hcon
      rw [List.getElem?_eq_none (by omega)] at hget
      cases hget
    have harcs : a ∈ arcsAt g D i :=
      (mem_arcsAt g D i a).2 ⟨hypo, [a], hget, hal, List.mem_singleton.2 rfl⟩
    have hmem : TrellisPath.ofDeviation g fuel D i a ∈ deviationsFrom g fuel D (firstEdge D) := by
      simp only [deviationsFrom, List.mem_flatMap, List.mem_map, List.mem_range'_1]
      exact ⟨i, ⟨hi, by omega⟩, a, harcs, rfl⟩
    rw [← hmap] at hmem
    obtain ⟨C, hC, hCeq⟩ := List.mem_map.1 hmem
    refine ⟨C, hCeq.symm, hC, ofDeviation_prevEdgeChanged g fuel D C i a hCeq.symm, ?_⟩
    intro C2 hC2 hi2
    obtain ⟨k, hypo2, al, arc, _, hget2, hal2, hmem2, hdev2⟩ :=
      mem_CreateDeviantPaths g fuel D L C2 hL hC2
    rw [ofDeviation_prevEdgeChanged g fuel D C2 k arc hdev2] at hi2
    have hki : k = i := Option.some.inj hi2
    subst hki
    rw [hget] at hget2
    have hh : hypo = hypo2 := Option.some.inj hget2
    subst hh
    rw [hal] at hal2
    have hal3 : [a] = al := Option.some.inj hal2
    subst hal3
    have harc : arc = a := List.mem_singleton.1 hmem2
    subst harc
    rw [← hCeq] at hdev2
    exact (Option.some.inj hdev2).symm

/-- C15 on the specification's scenario: `T`, at position 0 of `[T, A, S]`, has
no arc list, and no deviation at position 0 is added; `A`, at position 1, has
the one-element arc list `[A']`, and the path built from `([T, A, S], 1, A')` is
added, the only one with `m_prevEdgeChanged = 1`. -/
theorem C15_empty_arc_list_witness :
    ∃ L, scenarioBest.CreateDeviantPaths scenarioGraph 3 [] = some L ∧
      (∀ C ∈ L, C.m_prevEdgeChanged ≠ some 0) ∧
      ∃ C, TrellisPath.ofDeviation scenarioGraph 3 scenarioBest 1 2 = some C ∧ C ∈ L ∧
        C.m_prevEdgeChanged = some 1 ∧
        ∀ C2 ∈ L, C2.m_prevEdgeChanged = some 1 → C2 = C := by
  obtain ⟨L, hL, hempty, hsingle⟩ := C15_empty_arc_list scenarioGraph 3 scenarioBest
    (by
      intro k a _ ha
      match k with
      | 0 => simp [arcsAt, scenarioBest, scenarioGraph] at ha
      | 1 =>
          simp [arcsAt, scenarioBest, scenarioGraph] at ha
          subst ha
          exact ⟨[2, 0], by decide, by decide⟩
      | 2 => simp [arcsAt, scenarioBest, scenarioGraph] at ha
      | j + 3 => simp [arcsAt, scenarioBest] at ha)
  exact ⟨L, hL, hempty 0 (by intro hypo h; cases h; exact Or.inl rfl),
    hsingle 1 1 2 (Nat.zero_le _) rfl rfl⟩

/-- C15 as stated fails: in the specification's scenario the arc list of `A`, at
position 1 of `[T, A, S]`, has exactly one element, `A'`, and
`CreateDeviantPaths` adds the path `[T, A', S]`, whose `m_prevEdgeChanged` is 1. -/
theorem C15_counterexample :
    scenarioBest.m_path[1]? = some 1 ∧
    (scenarioGraph 1).m_arcList = some [2] ∧
    scenarioBest.CreateDeviantPaths scenarioGraph 3 [] = some [scenarioDeviant] ∧
    scenarioDeviant.m_prevEdgeChanged = some 1 :=
  ⟨rfl, rfl, rfl, rfl⟩

/-! ### C16: children and their parent -/

theorem scenario_win (h : Nat) :
    (scenarioGraph h).m_totalScore
      ≤ (scenarioGraph (scenarioGraph h).m_winningHypo).m_totalScore := by
  match h with
  | 0 => decide
  | 1 => decide
  | 2 => decide
  | 3 => decide
  | k + 4 => exact Int.le_refl _

/-- C16 as the code has it: on a graph where every hypothesis scores at most its
recombination winner, every hypothesis reached through `GetPrevHypo` is its own
winner and every member of an arc list has the owner of the list as winner, and
with zero and the total score of the terminal hypothesis representable, every
path `C` that `CreateDeviantPaths` adds for a path `D` of the enumeration is
built from a position `k` and a member `arc` of the arc list of `D.m_path[k]`,
and for each such `k` and `arc`: when `arc` is not `D.m_path[k]` itself, the
total score of `C` is the total score of `D` minus the score of `D.m_path[k]`
plus the score of `arc` as `float` arithmetic computes it, both operations
rounded; and whenever neither operation rounds, the total score of `C` is at
most the total score of `D`. -/
theorem C16_children_bounded [FloatModel] (g : Graph n) (fuel root : Nat)
    (hwin : ∀ h, (g h).m_totalScore ≤ (g (g h).m_winningHypo).m_totalScore)
    (hprev : ∀ h p, (g h).m_prevHypo = some p → (g p).m_winningHypo = p)
    (harc : ∀ h al a, (g h).m_arcList = some al → a ∈ al → (g a).m_winningHypo = h)
    (hzero : FloatModel.round 0 = 0)
    (hrep : FloatModel.round (g root).m_totalScore = (g root).m_totalScore)
    (D : TrellisPath n) (hD : Reachable g fuel root D)
    (L : List (TrellisPath n)) (hL : D.CreateDeviantPaths g fuel [] = some L)
    (C : TrellisPath n) (hC : C ∈ L) :
    (∃ k hypo arc, D.m_path[k]? = some hypo ∧ arc ∈ arcsAt g D k ∧
      TrellisPath.ofDeviation g fuel D k arc = some C) ∧
    ∀ k hypo arc, D.m_path[k]? = some hypo →
      TrellisPath.ofDeviation g fuel D k arc = some C →
      (arc ≠ hypo → C.m_totalScore
        = fadd (fsub D.m_totalScore (g hypo).m_totalScore) (g arc).m_totalScore) ∧
      (FloatModel.round (D.m_totalScore - (g hypo).m_totalScore)
          = D.m_totalScore - (g hypo).m_totalScore →
        FloatModel.round (D.m_totalScore - (g hypo).m_totalScore + (g arc).m_totalScore)
          = D.m_totalScore - (g hypo).m_totalScore + (g arc).m_totalScore →
        C.m_totalScore ≤ D.m_totalScore) := by
  obtain ⟨k2, hypo2, al, arc2, hk2, hget2, hal, hmem, hdev2⟩ :=
    mem_CreateDeviantPaths g fuel D L C hL hC
  refine ⟨⟨k2, hypo2, arc2, hget2, (mem_arcsAt g D k2 arc2).2 ⟨hypo2, al, hget2, hal, hmem⟩,
    hdev2⟩, ?_⟩
  intro k hypo arc hget hdev
  have hkeq : k2 = k := by
    have h1 := ofDeviation_prevEdgeChanged g fuel D C k arc hdev
    have h2 := ofDeviation_prevEdgeChanged g fuel D C k2 arc2 hdev2
    rw [h1] at h2
    exact (Option.some.inj h2).symm
  subst hkeq
  have haeq : arc2 = arc := by
    have h1 := ofDeviation_path_at g fuel D C k2 arc hdev
    have h2 := ofDeviation_path_at g fuel D C k2 arc2 hdev2
    rw [h1] at h2
    exact (Option.some.inj h2).symm
  subst haeq
  have hheq : hypo2 = hypo := by
    rw [hget2] at hget
    exact Option.some.inj hget
  subst hheq
  have hw := harc hypo2 al arc2 hal hmem
  have htotal := (deviation_delta g fuel root hprev hzero D hD C k2 hypo2 arc2 hk2 hget2
    hdev hw).1 hrep
  have hadj := adjust_arc g (fun h => (g h).m_totalScore) D.m_totalScore hypo2 arc2 hw
  refine ⟨fun hne => ?_, fun h1 h2 => ?_⟩
  · rw [htotal]
    exact hadj.1 hne
  · have hval : (notWinners g [arc2]).foldl (adjust (fun h => (g h).m_totalScore) g)
        D.m_totalScore = D.m_totalScore - (g hypo2).m_totalScore + (g arc2).m_totalScore :=
      hadj.2 h1 h2
    rw [htotal, hval]
    have hle := hwin arc2
    rw [hw] at hle
    omega

/-- C16 on the specification's scenario: the child `[T, A', S]`, built from
position 1 and `A'`, scores `15 - 10 + 7 = 12` without rounding, at most the 15
of its parent `[T, A, S]`. -/
theorem C16_children_bounded_witness :
    scenarioDeviant.m_totalScore = fadd (fsub scenarioBest.m_totalScore
      (scenarioGraph 1).m_totalScore) (scenarioGraph 2).m_totalScore ∧
    scenarioDeviant.m_totalScore ≤ scenarioBest.m_totalScore := by
  obtain ⟨hmachine, hle⟩ :=
    (C16_children_bounded scenarioGraph 3 3 scenario_win scenario_prev scenario_arc
      (by decide) (by decide) scenarioBest scenario_reachable_best [scenarioDeviant] rfl
      scenarioDeviant (List.mem_singleton.2 rfl)).2 1 1 2 rfl rfl
  exact ⟨hmachine (by decide), hle (by decide) (by decide)⟩

/-- C16 as stated fails: in `roundUpGraph` every hypothesis scores at most its
winner, every hypothesis reached through `GetPrevHypo` is its own winner and the
one arc-list member `A'` has the owner `A` of the list as winner; the path
`[T, A, S]` of the terminal hypothesis has total 33554430, and its child
`[T, A', S]`, which `CreateDeviantPaths` adds, gets `33554430 - -8 + -9` in
binary32 arithmetic: 33554438 is rounded to 33554440 and 33554431 to 33554432,
more than the total of the parent. -/
theorem C16_counterexample :
    (∀ h, (roundUpGraph h).m_totalScore
      ≤ (roundUpGraph (roundUpGraph h).m_winningHypo).m_totalScore) ∧
    (∀ h p, (roundUpGraph h).m_prevHypo = some p → (roundUpGraph p).m_winningHypo = p) ∧
    (∀ h al a, (roundUpGraph h).m_arcList = some al → a ∈ al →
      (roundUpGraph a).m_winningHypo = h) ∧
    TrellisPath.ofHypo roundUpGraph 3 3 = some roundUpBest ∧
    roundUpBest.CreateDeviantPaths roundUpGraph 3 [] = some [roundUpDeviant] ∧
    fsub roundUpBest.m_totalScore (roundUpGraph 1).m_totalScore = 33554440 ∧
    fadd 33554440 (roundUpGraph 2).m_totalScore = 33554432 ∧
    roundUpBest.m_totalScore = 33554430 ∧
    roundUpDeviant.m_totalScore = 33554432 ∧
    ¬ roundUpDeviant.m_totalScore ≤ roundUpBest.m_totalScore := by
  refine ⟨?_, ?_, ?_, rfl, ?_, by decide, by decide, rfl, rfl, by decide⟩
  · intro h
    match h with
    | 0 => decide
    | 1 => decide
    | 2 => decide
    | 3 => decide
    | k + 4 => exact Int.le_refl _
  · intro h p hp
    match h with
    | 0 => cases hp
    | 1 => cases hp; rfl
    | 2 => cases hp; rfl
    | 3 => cases hp; rfl
    | k + 4 => cases hp
  · intro h al a hal ha
    match h with
    | 0 => cases hal
    | 1 =>
        cases hal
        simp at ha
        subst ha
        rfl
    | 2 => cases hal
    | 3 => cases hal
    | k + 4 => cases hal
  · exact congrArg some (congrArg₂ List.cons
      (TrellisPath.eq_of_fields _ _ rfl rfl (fun c => by rw [Fin.eq_zero c]; rfl) rfl) rfl)

/-! ### C17: the target phrase of a path -/

theorem appendTargetPhrases_eq (currTargetPhrase : Nat → Phrase) (path : List Nat) :
    ∀ (k : Nat) (acc : Phrase), k ≤ path.length →
      appendTargetPhrases currTargetPhrase path k acc
        = some (acc ++ ((path.take k).reverse.flatMap currTargetPhrase)) := by
  intro k
  induction k with
  | zero => intro acc _; simp [appendTargetPhrases]
  | succ k ih =>
      intro acc hk
      have hlt : k < path.length := by omega
      have hget : path[k]? = some path[k] := List.getElem?_eq_getElem hlt
      simp only [appendTargetPhrases, hget]
      rw [ih _ (by omega), List.take_succ, hget]
      simp only [Option.toList, List.reverse_append, List.reverse_cons, List.reverse_nil,
        List.nil_append, List.singleton_append, List.flatMap_cons, List.append_assoc]

/-- C17: `GetTargetPhrase` returns the current target phrases of the hypotheses
of the path, last hypothesis of the path left out, joined from the one before
last down to the first (`n_{m-2}, ..., n_0`); for a path of one hypothesis it
returns the empty phrase. -/
theorem C17_target_phrase (currTargetPhrase : Nat → Phrase) (D : TrellisPath n) :
    D.GetTargetPhrase currTargetPhrase
      = some ((D.m_path.dropLast.reverse).flatMap currTargetPhrase) ∧
    ∀ S, D.m_path = [S] → D.GetTargetPhrase currTargetPhrase = some [] := by
  have h : D.GetTargetPhrase currTargetPhrase
      = some ((D.m_path.dropLast.reverse).flatMap currTargetPhrase) := by
    simp only [TrellisPath.GetTargetPhrase]
    rw [appendTargetPhrases_eq currTargetPhrase D.m_path _ [] (by omega),
      List.dropLast_eq_take, List.nil_append]
  refine ⟨h, ?_⟩
  intro S hS
  rw [h, hS]
  rfl

/-! ### C18: the surface phrase of a path -/

theorem list_set_self {α : Type} :
    ∀ (l : List α) (i : Nat) (x : α), l[i]? = some x → l.set i x = l
  | [], _, _, h => by simp at h
  | a :: l, 0, x, h => by
      simp only [List.getElem?_cons_zero, Option.some.injEq] at h
      simp [h]
  | a :: l, i + 1, x, h => by
      simp only [List.getElem?_cons_succ] at h
      simp [list_set_self l i x h]

theorem copyOutputFactors_self (ndebug : Bool) (pos : Nat) :
    ∀ (outputFactor : List Nat) (ret : Phrase), pos < ret.length →
      copyOutputFactors ndebug pos pos outputFactor ret = Except.ok ret ∨
      copyOutputFactors ndebug pos pos outputFactor ret = Except.error Abort.assertFailed := by
  intro outputFactor
  induction outputFactor with
  | nil => intro ret _; exact Or.inl rfl
  | cons factorType rest ih =>
      intro ret hpos
      have hget : ret[pos]? = some ret[pos] := List.getElem?_eq_getElem hpos
      simp only [copyOutputFactors, hget]
      by_cases hc : ((ret[pos] factorType).isNone && !ndebug) = true
      · right
        rw [if_pos hc]
      · rw [if_neg hc]
        have hset : ret.set pos (Function.update ret[pos] factorType (ret[pos] factorType))
            = ret := by
          rw [Function.update_eq_self]
          exact list_set_self ret pos _ hget
        rw [hset]
        exact ih ret hpos

theorem addSurfaceWords_blank (ndebug : Bool) (blank : Word) (outputFactor : List Nat) :
    ∀ (left : Nat) (ret : Phrase),
      addSurfaceWords ndebug blank outputFactor left ret.length ret
          = Except.ok (ret ++ List.replicate left blank) ∨
      addSurfaceWords ndebug blank outputFactor left ret.length ret
          = Except.error Abort.assertFailed := by
  intro left
  induction left with
  | zero => intro ret; left; simp [addSurfaceWords]
  | succ left ih =>
      intro ret
      simp only [addSurfaceWords]
      rcases copyOutputFactors_self ndebug ret.length outputFactor (ret ++ [blank])
        (by simp) with h | h
      · rw [h]
        simp only
        have h2 := ih (ret ++ [blank])
        have hlen : (ret ++ [blank]).length = ret.length + 1 := by simp
        rw [hlen] at h2
        rcases h2 with h3 | h3
        · left
          rw [h3, List.replicate_succ]
          simp
        · right
          exact h3
      · right
        rw [h]

/-- Whatever word `AddWord` appends, `GetSurfacePhrase` either stops at its
assertion or returns that word as many times as the target phrase has words:
the factors of the target phrase never reach the result. -/
theorem GetSurfacePhrase_blank (ndebug : Bool) (blank : Word) (outputFactor : List Nat)
    (currTargetPhrase : Nat → Phrase) (D : TrellisPath n) :
    D.GetSurfacePhrase ndebug blank outputFactor currTargetPhrase
        = Except.ok (List.replicate
            ((D.m_path.dropLast.reverse).flatMap currTargetPhrase).length blank) ∨
    D.GetSurfacePhrase ndebug blank outputFactor currTargetPhrase
        = Except.error Abort.assertFailed := by
  have h : D.GetTargetPhrase currTargetPhrase
      = some ((D.m_path.dropLast.reverse).flatMap currTargetPhrase) := by
    simp only [TrellisPath.GetTargetPhrase]
    rw [appendTargetPhrases_eq currTargetPhrase D.m_path _ [] (by omega),
      List.dropLast_eq_take, List.nil_append]
  simp only [TrellisPath.GetSurfacePhrase, h]
  have := addSurfaceWords_blank ndebug blank outputFactor
    ((D.m_path.dropLast.reverse).flatMap currTargetPhrase).length []
  simpa using this

/-- C18 at a failing input: the path `[1, 0]` whose hypothesis `1` produced one
word carrying the factor `7` of the only output factor type `0`.  The target
phrase is that word, every word of it carries every output factor, yet
`GetSurfacePhrase` stops at `assert(factor)`: it reads the factor from the word
it has just added to `ret`, not from the target phrase.  With `assert` compiled
out it returns one word without any factor, not the word carrying `7`. -/
theorem C18_surface_phrase_failing_input :
    oneWordPath.GetTargetPhrase oneWordPhrase = some (oneWordPhrase 1) ∧
    (∀ word ∈ oneWordPhrase 1, ∀ factorType ∈ [0], (word factorType).isSome = true) ∧
    oneWordPath.GetSurfacePhrase false emptyWord [0] oneWordPhrase
      = Except.error Abort.assertFailed ∧
    (oneWordPath.GetSurfacePhrase true emptyWord [0] oneWordPhrase).map
      (fun ret => ret.map (fun word => word 0)) = Except.ok [none] ∧
    (projectFactors [0] (oneWordPhrase 1)).map (fun word => word 0) = [some 7] := by
  refine ⟨rfl, ?_, rfl, rfl, rfl⟩
  intro word hw factorType hf
  simp only [oneWordPhrase, List.mem_singleton] at hw hf
  subst hw hf
  rfl

/-! ### C19: the source side of a rule -/

theorem sourceWordAt_eq (phrase : List Nat) (pos : Int) (h0 : 0 ≤ pos)
    (hlt : pos < phrase.length) :
    sourceWordAt phrase pos = some (phrase.getD pos.toNat 0) := by
  have hn : pos.toNat < phrase.length := by omega
  simp only [sourceWordAt, if_pos h0, List.getD_eq_getElem?_getD,
    List.getElem?_eq_getElem hn, Option.getD_some]

theorem sourceWords_cons (phrase : List Nat) (lo hi : Int) (h : lo ≤ hi) :
    sourceWords phrase lo hi
      = RuleSymbol.word (phrase.getD lo.toNat 0) :: sourceWords phrase (lo + 1) hi := by
  have h1 : (hi + 1 - lo).toNat = (hi + 1 - (lo + 1)).toNat + 1 := by omega
  simp only [sourceWords]
  rw [h1]
  rfl

theorem sourceWords_nil (phrase : List Nat) (lo hi : Int) (h : hi < lo) :
    sourceWords phrase lo hi = [] := by
  have h1 : (hi + 1 - lo).toNat = 0 := by omega
  simp only [sourceWords]
  rw [h1]
  rfl

theorem createSourceLoop_eq (phrase : List Nat) (m_nonterms : List ConsistentPhrase)
    (last : Int) (hlast : last < phrase.length) :
    ∀ (fuel : Nat) (sourcePos : Int) (nonTermInd : Nat) (acc : List RuleSymbol),
      0 ≤ sourcePos → (last + 1 - sourcePos).toNat ≤ fuel →
      OrderedSpans sourcePos last (m_nonterms.drop nonTermInd) →
      createSourceLoop phrase m_nonterms last fuel sourcePos nonTermInd
          (m_nonterms.drop nonTermInd).head? acc
        = some (acc ++ expectedSource phrase sourcePos last (m_nonterms.drop nonTermInd)) := by
  intro fuel
  induction fuel with
  | zero =>
      intro sourcePos nonTermInd acc _ hfuel hspans
      have hgt : ¬ sourcePos ≤ last := by omega
      simp only [createSourceLoop, if_neg hgt]
      cases hd : m_nonterms.drop nonTermInd with
      | nil => simp [expectedSource, sourceWords_nil phrase sourcePos last (by omega)]
      | cons c rest =>
          rw [hd] at hspans
          obtain ⟨h1, h2, h3, _⟩ := hspans
          omega
  | succ fuel ih =>
      intro sourcePos nonTermInd acc h0 hfuel hspans
      by_cases hle : sourcePos ≤ last
      · simp only [createSourceLoop, if_pos hle]
        cases hd : m_nonterms.drop nonTermInd with
        | nil =>
            simp only [List.head?_nil]
            rw [sourceWordAt_eq phrase sourcePos h0 (by omega)]
            simp only
            have hih := ih (sourcePos + 1) nonTermInd (acc ++ [RuleSymbol.word
              (phrase.getD sourcePos.toNat 0)]) (by omega) (by omega) (by rw [hd]; trivial)
            rw [hd] at hih
            simp only [List.head?_nil] at hih
            rw [hih]
            simp only [expectedSource, sourceWords_cons phrase sourcePos last hle,
              List.append_assoc, List.singleton_append]
        | cons c rest =>
            rw [hd] at hspans
            obtain ⟨h1, h2, h3, h4⟩ := hspans
            simp only [List.head?_cons]
            by_cases hin : c.corners0 ≤ sourcePos ∧ sourcePos ≤ c.corners1
            · have hpos : sourcePos = c.corners0 := by omega
              have hlen : nonTermInd < m_nonterms.length := by
                by_contra hcon
                rw [List.drop_eq_nil_of_le (by omega)] at hd
                cases hd
              have hne : m_nonterms.length ≠ 0 := by omega
              have hget : m_nonterms[nonTermInd]? = some c := by
                rw [← List.head?_drop, hd]
                rfl
              have hrest : m_nonterms.drop (nonTermInd + 1) = rest := by
                have := List.drop_eq_getElem_cons hlen
                rw [hd] at this
                exact (List.cons.inj this).2.symm
              have hcp2 : (if nonTermInd + 1 < m_nonterms.length
                  then m_nonterms[nonTermInd + 1]? else none)
                  = (m_nonterms.drop (nonTermInd + 1)).head? := by
                rw [List.head?_drop]
                split
                · rfl
                · rw [List.getElem?_eq_none (by omega)]
              simp only [if_pos hin, if_pos hne, hget, hcp2]
              have hih := ih (c.corners1 + 1) (nonTermInd + 1) (acc ++ [RuleSymbol.nonTerm c])
                (by omega) (by omega) (by rw [hrest]; exact h4)
              rw [hih, hrest]
              simp only [expectedSource,
                sourceWords_nil phrase sourcePos (c.corners0 - 1) (by omega),
                List.nil_append, List.append_assoc, List.singleton_append]
            · have hlt : sourcePos < c.corners0 := by
                by_contra hcon
                exact hin ⟨by omega, by omega⟩
              simp only [if_neg hin]
              rw [sourceWordAt_eq phrase sourcePos h0 (by omega)]
              simp only
              have hih := ih (sourcePos + 1) nonTermInd (acc ++ [RuleSymbol.word
                (phrase.getD sourcePos.toNat 0)]) (by omega) (by omega)
                (by rw [hd]; exact ⟨by omega, h2, h3, h4⟩)
              rw [hd] at hih
              simp only [List.head?_cons] at hih
              rw [hih]
              simp only [expectedSource,
                sourceWords_cons phrase sourcePos (c.corners0 - 1) (by omega),
                List.append_assoc, List.singleton_append, List.cons_append, List.nil_append]
      · simp only [createSourceLoop, if_neg hle]
        cases hd : m_nonterms.drop nonTermInd with
        | nil => simp [expectedSource, sourceWords_nil phrase sourcePos last (by omega)]
        | cons c rest =>
            rw [hd] at hspans
            obtain ⟨h1, h2, h3, _⟩ := hspans
            omega

theorem orderedSpans_of_pairwise :
    ∀ (nonterms : List ConsistentPhrase) (lo hi : Int),
      (∀ c ∈ nonterms, lo ≤ c.corners0 ∧ c.corners0 ≤ c.corners1 ∧ c.corners1 ≤ hi) →
      nonterms.Pairwise (fun a b => a.corners1 < b.corners0) →
      OrderedSpans lo hi nonterms := by
  intro nonterms
  induction nonterms with
  | nil => intro _ _ _ _; trivial
  | cons c rest ih =>
      intro lo hi hspan hord
      obtain ⟨h1, h2, h3⟩ := hspan c (List.mem_cons_self _ _)
      rw [List.pairwise_cons] at hord
      refine ⟨h1, h2, h3, ih _ _ ?_ hord.2⟩
      intro d hd
      obtain ⟨_, d2, d3⟩ := hspan d (List.mem_cons_of_mem _ hd)
      have := hord.1 d hd
      exact ⟨by omega, d2, d3⟩

theorem orderedSpans_mem :
    ∀ (nonterms : List ConsistentPhrase) (lo hi : Int), OrderedSpans lo hi nonterms →
      ∀ c ∈ nonterms, lo ≤ c.corners0 ∧ c.corners0 ≤ c.corners1 ∧ c.corners1 ≤ hi := by
  intro nonterms
  induction nonterms with
  | nil => intro _ _ _ c hc; simp at hc
  | cons d rest ih =>
      intro lo hi h c hc
      obtain ⟨h1, h2, h3, h4⟩ := h
      rcases List.mem_cons.1 hc with rfl | hc2
      · exact ⟨h1, h2, h3⟩
      · obtain ⟨e1, e2, e3⟩ := ih _ _ h4 c hc2
        exact ⟨by omega, e2, e3⟩

theorem sourceWordsFrom_length (phrase : List Nat) :
    ∀ (count : Nat) (pos : Int), (sourceWordsFrom phrase count pos).length = count := by
  intro count
  induction count with
  | zero => intro _; rfl
  | succ k ih => intro pos; simp [sourceWordsFrom, ih]

theorem sourceWordsFrom_filterMap (phrase : List Nat) :
    ∀ (count : Nat) (pos : Int),
      (sourceWordsFrom phrase count pos).filterMap RuleSymbol.asNonTerm = [] := by
  intro count
  induction count with
  | zero => intro _; rfl
  | succ k ih => intro pos; simp [sourceWordsFrom, RuleSymbol.asNonTerm, ih]

theorem sourceWordsFrom_filter (phrase : List Nat) :
    ∀ (count : Nat) (pos : Int),
      (sourceWordsFrom phrase count pos).filter RuleSymbol.isWord
        = sourceWordsFrom phrase count pos := by
  intro count
  induction count with
  | zero => intro _; rfl
  | succ k ih => intro pos; simp [sourceWordsFrom, RuleSymbol.isWord, ih]

theorem expectedSource_length (phrase : List Nat) :
    ∀ (nonterms : List ConsistentPhrase) (lo hi : Int), lo ≤ hi + 1 →
      OrderedSpans lo hi nonterms →
      ((expectedSource phrase lo hi nonterms).length : Int)
        = (hi - lo + 1) - (nonterms.map (fun c => c.corners1 - c.corners0)).sum := by
  intro nonterms
  induction nonterms with
  | nil =>
      intro lo hi h _
      simp only [expectedSource, sourceWords, sourceWordsFrom_length, List.map_nil,
        List.sum_nil]
      omega
  | cons c rest ih =>
      intro lo hi _ hs
      obtain ⟨h1, h2, h3, h4⟩ := hs
      have := ih (c.corners1 + 1) hi (by omega) h4
      simp only [expectedSource, sourceWords, List.length_append, List.length_cons,
        sourceWordsFrom_length, List.map_cons, List.sum_cons]
      push_cast
      rw [this]
      omega

theorem expectedSource_nonTerms (phrase : List Nat) :
    ∀ (nonterms : List ConsistentPhrase) (lo hi : Int),
      (expectedSource phrase lo hi nonterms).filterMap RuleSymbol.asNonTerm = nonterms := by
  intro nonterms
  induction nonterms with
  | nil => intro lo hi; simp [expectedSource, sourceWords, sourceWordsFrom_filterMap]
  | cons c rest ih =>
      intro lo hi
      simp [expectedSource, sourceWords, sourceWordsFrom_filterMap, RuleSymbol.asNonTerm, ih]

theorem uncoveredWordsFrom_add (phrase : List Nat) (nonterms : List ConsistentPhrase) :
    ∀ (k1 k2 : Nat) (pos : Int),
      uncoveredWordsFrom phrase nonterms (k1 + k2) pos
        = uncoveredWordsFrom phrase nonterms k1 pos
          ++ uncoveredWordsFrom phrase nonterms k2 (pos + k1) := by
  intro k1
  induction k1 with
  | zero => intro k2 pos; simp [uncoveredWordsFrom]
  | succ k1 ih =>
      intro k2 pos
      have h1 : k1 + 1 + k2 = (k1 + k2) + 1 := by omega
      have h2 : pos + ((k1 + 1 : Nat) : Int) = pos + 1 + (k1 : Int) := by push_cast; omega
      rw [h1, h2]
      simp only [uncoveredWordsFrom]
      rw [ih k2 (pos + 1)]
      split <;> simp

theorem uncoveredWordsFrom_congr (phrase : List Nat) (nts nts2 : List ConsistentPhrase) :
    ∀ (k : Nat) (pos : Int),
      (∀ q, pos ≤ q → q < pos + k → coveredBy nts q = coveredBy nts2 q) →
      uncoveredWordsFrom phrase nts k pos = uncoveredWordsFrom phrase nts2 k pos := by
  intro k
  induction k with
  | zero => intro _ _; rfl
  | succ k ih =>
      intro pos h
      have h1 := h pos (by omega) (by push_cast; omega)
      have h2 := ih (pos + 1) (fun q hq1 hq2 => h q (by omega) (by push_cast; omega))
      simp only [uncoveredWordsFrom, h1, h2]

theorem uncoveredWordsFrom_none (phrase : List Nat) (nts : List ConsistentPhrase) :
    ∀ (k : Nat) (pos : Int),
      (∀ q, pos ≤ q → q < pos + k → coveredBy nts q = false) →
      uncoveredWordsFrom phrase nts k pos = sourceWordsFrom phrase k pos := by
  intro k
  induction k with
  | zero => intro _ _; rfl
  | succ k ih =>
      intro pos h
      have h1 := h pos (by omega) (by push_cast; omega)
      have h2 := ih (pos + 1) (fun q hq1 hq2 => h q (by omega) (by push_cast; omega))
      simp [uncoveredWordsFrom, sourceWordsFrom, h1, h2]

theorem uncoveredWordsFrom_all (phrase : List Nat) (nts : List ConsistentPhrase) :
    ∀ (k : Nat) (pos : Int),
      (∀ q, pos ≤ q → q < pos + k → coveredBy nts q = true) →
      uncoveredWordsFrom phrase nts k pos = [] := by
  intro k
  induction k with
  | zero => intro _ _; rfl
  | succ k ih =>
      intro pos h
      have h1 := h pos (by omega) (by push_cast; omega)
      have h2 := ih (pos + 1) (fun q hq1 hq2 => h q (by omega) (by push_cast; omega))
      simp [uncoveredWordsFrom, h1, h2]

theorem coveredBy_before (nts : List ConsistentPhrase) (lo hi q : Int)
    (h : OrderedSpans lo hi nts) (hq : q < lo) : coveredBy nts q = false := by
  simp only [coveredBy, List.any_eq_false, decide_eq_true_eq]
  intro c hc hcov
  obtain ⟨h1, _, _⟩ := orderedSpans_mem nts lo hi h c hc
  omega

theorem expectedSource_words (phrase : List Nat) :
    ∀ (nonterms : List ConsistentPhrase) (lo hi : Int), lo ≤ hi + 1 →
      OrderedSpans lo hi nonterms →
      (expectedSource phrase lo hi nonterms).filter RuleSymbol.isWord
        = uncoveredWordsFrom phrase nonterms (hi + 1 - lo).toNat lo := by
  intro nonterms
  induction nonterms with
  | nil =>
      intro lo hi _ _
      simp only [expectedSource, sourceWords, sourceWordsFrom_filter]
      rw [uncoveredWordsFrom_none]
      intro q _ _
      rfl
  | cons c rest ih =>
      intro lo hi _ hs
      obtain ⟨h1, h2, h3, h4⟩ := hs
      have hcount : (hi + 1 - lo).toNat
          = (c.corners0 - lo).toNat
            + ((c.corners1 - c.corners0 + 1).toNat + (hi + 1 - (c.corners1 + 1)).toNat) := by
        omega
      have hp1 : lo + ((c.corners0 - lo).toNat : Int) = c.corners0 := by omega
      have hp2 : c.corners0 + ((c.corners1 - c.corners0 + 1).toNat : Int) = c.corners1 + 1 := by
        omega
      rw [hcount, uncoveredWordsFrom_add, uncoveredWordsFrom_add, hp1, hp2]
      have e1 : uncoveredWordsFrom phrase (c :: rest) (c.corners0 - lo).toNat lo
          = sourceWordsFrom phrase (c.corners0 - lo).toNat lo := by
        apply uncoveredWordsFrom_none
        intro q hq1 hq2
        simp only [coveredBy, List.any_cons, Bool.or_eq_false_iff, decide_eq_false_iff_not]
        refine ⟨by omega, ?_⟩
        exact coveredBy_before rest (c.corners1 + 1) hi q h4 (by omega)
      have e2 : uncoveredWordsFrom phrase (c :: rest) (c.corners1 - c.corners0 + 1).toNat
          c.corners0 = [] := by
        apply uncoveredWordsFrom_all
        intro q hq1 hq2
        simp only [coveredBy, List.any_cons, Bool.or_eq_true, decide_eq_true_eq]
        left
        omega
      have e3 : uncoveredWordsFrom phrase (c :: rest) (hi + 1 - (c.corners1 + 1)).toNat
          (c.corners1 + 1)
          = uncoveredWordsFrom phrase rest (hi + 1 - (c.corners1 + 1)).toNat
            (c.corners1 + 1) := by
        apply uncoveredWordsFrom_congr
        intro q hq1 _
        have hnot : decide (c.corners0 ≤ q ∧ q ≤ c.corners1) = false := by
          simp only [decide_eq_false_iff_not]
          omega
        simp only [coveredBy, List.any_cons, hnot, Bool.false_or]
      rw [e1, e2, e3, ← ih (c.corners1 + 1) hi (by omega) h4]
      have hw : c.corners0 - 1 + 1 - lo = c.corners0 - lo := by omega
      simp only [expectedSource, sourceWords, List.filter_append, sourceWordsFrom_filter,
        List.filter_cons, RuleSymbol.isWord, List.nil_append, hw]
      simp

/-- C19: for a rule over the source span `c0 .. c1` of a sentence, with an empty
source side as both constructors leave it, whose non-terminals are spans inside
`c0 .. c1`, each one ending before the next one starts, `CreateSource` returns
and the source side it builds is: the words before the first non-terminal, the
non-terminal, the words between it and the next one, and so on
(`expectedSource`).  So the non-terminals among its symbols are those of the
rule, each once and in order; its words are the words at the positions of
`c0 .. c1` that no non-terminal covers, in order; its length is `c1 - c0 + 1`
minus the sum of `width - 1` over the non-terminals; and without non-terminals
it is the words at `c0 .. c1`. -/
theorem C19_create_source (r : Rule) (hsource : r.m_source = [])
    (h0 : 0 ≤ r.m_consistentPhrase.corners0)
    (hc : r.m_consistentPhrase.corners0 ≤ r.m_consistentPhrase.corners1)
    (hlast : r.m_consistentPhrase.corners1 < r.m_alignedSentence.length)
    (hspan : ∀ c ∈ r.m_nonterms, r.m_consistentPhrase.corners0 ≤ c.corners0 ∧
      c.corners0 ≤ c.corners1 ∧ c.corners1 ≤ r.m_consistentPhrase.corners1)
    (hord : r.m_nonterms.Pairwise (fun a b => a.corners1 < b.corners0)) :
    ∃ r2, r.CreateSource = some r2 ∧
      r2.m_nonterms = r.m_nonterms ∧
      r2.m_source = expectedSource r.m_alignedSentence r.m_consistentPhrase.corners0
        r.m_consistentPhrase.corners1 r.m_nonterms ∧
      r2.m_source.filterMap RuleSymbol.asNonTerm = r.m_nonterms ∧
      r2.m_source.filter RuleSymbol.isWord
        = uncoveredWordsFrom r.m_alignedSentence r.m_nonterms
            (r.m_consistentPhrase.corners1 + 1 - r.m_consistentPhrase.corners0).toNat
            r.m_consistentPhrase.corners0 ∧
      (r2.m_source.length : Int)
        = (r.m_consistentPhrase.corners1 - r.m_consistentPhrase.corners0 + 1)
          - (r.m_nonterms.map (fun c => c.corners1 - c.corners0 + 1 - 1)).sum ∧
      (r.m_nonterms = [] →
        r2.m_source = sourceWords r.m_alignedSentence r.m_consistentPhrase.corners0
          r.m_consistentPhrase.corners1) := by
  have hs := orderedSpans_of_pairwise r.m_nonterms _ _ hspan hord
  have hcp : (if 0 < r.m_nonterms.length then r.m_nonterms[0]? else none)
      = (r.m_nonterms.drop 0).head? := by
    rw [List.head?_drop]
    split
    · rfl
    · rw [List.getElem?_eq_none (by omega)]
  have hloop := createSourceLoop_eq r.m_alignedSentence r.m_nonterms
    r.m_consistentPhrase.corners1 hlast
    (r.m_consistentPhrase.corners1 - r.m_consistentPhrase.corners0 + 1).toNat
    r.m_consistentPhrase.corners0 0 [] h0 (by omega) (by simpa using hs)
  simp only [List.drop_zero, List.nil_append] at hloop hcp
  have hsum : (r.m_nonterms.map (fun c => c.corners1 - c.corners0 + 1 - 1))
      = (r.m_nonterms.map (fun c => c.corners1 - c.corners0)) := by
    apply List.map_congr_left
    intro c _
    omega
  refine ⟨{ r with m_source := (expectedSource r.m_alignedSentence
      r.m_consistentPhrase.corners0 r.m_consistentPhrase.corners1 r.m_nonterms) }, ?_, rfl, rfl,
    expectedSource_nonTerms _ _ _ _, expectedSource_words _ _ _ _ (by omega) hs, ?_, ?_⟩
  · simp only [Rule.CreateSource, hcp, hsource, hloop]
  · rw [hsum]
    exact expectedSource_length _ _ _ _ (by omega) hs
  · intro hnil
    show expectedSource _ _ _ r.m_nonterms = _
    rw [hnil]
    rfl

/-- C19 on a rule over the positions 1 to 5 of a six-word sentence with the
non-terminals `[2, 3]` and `[5, 5]`: the source side is word 1, the first
non-terminal, word 4, the second non-terminal. -/
theorem C19_create_source_witness :
    ∃ r2, sixWordsRule.CreateSource = some r2 ∧
      r2.m_nonterms = sixWordsRule.m_nonterms ∧
      r2.m_source = expectedSource sixWordsRule.m_alignedSentence
        sixWordsRule.m_consistentPhrase.corners0
        sixWordsRule.m_consistentPhrase.corners1 sixWordsRule.m_nonterms ∧
      r2.m_source.filterMap RuleSymbol.asNonTerm = sixWordsRule.m_nonterms ∧
      r2.m_source.filter RuleSymbol.isWord
        = uncoveredWordsFrom sixWordsRule.m_alignedSentence sixWordsRule.m_nonterms
            (sixWordsRule.m_consistentPhrase.corners1 + 1
              - sixWordsRule.m_consistentPhrase.corners0).toNat
            sixWordsRule.m_consistentPhrase.corners0 ∧
      (r2.m_source.length : Int)
        = (sixWordsRule.m_consistentPhrase.corners1
            - sixWordsRule.m_consistentPhrase.corners0 + 1)
          - (sixWordsRule.m_nonterms.map (fun c => c.corners1 - c.corners0 + 1 - 1)).sum ∧
      (sixWordsRule.m_nonterms = [] →
        r2.m_source = sourceWords sixWordsRule.m_alignedSentence
          sixWordsRule.m_consistentPhrase.corners0
          sixWordsRule.m_consistentPhrase.corners1) :=
  C19_create_source sixWordsRule rfl (by decide) (by decide) (by decide) (by decide)
    (by decide)

/-! ### C20: comparing neural-score states -/

theorem std_equal_iff {α : Type} [DecidableEq α] :
    ∀ (a b : List α), (a.length = b.length ∧ std_equal a b = true) ↔ a = b := by
  intro a
  induction a with
  | nil =>
      intro b
      cases b with
      | nil => simp [std_equal]
      | cons y ys => simp
  | cons x xs ih =>
      intro b
      cases b with
      | nil => simp
      | cons y ys =>
          by_cases hxy : x = y
          · subst hxy
            simp only [std_equal, if_true, List.length_cons, Nat.add_right_cancel_iff,
              List.cons.injEq, true_and]
            exact ih ys
          · simp [std_equal, hxy]

theorem lexicographical_compare_iff {α : Type} [LinearOrder α] :
    ∀ (a b : List α),
      lexicographical_compare a b = true ↔ List.Lex (fun x y : α => x < y) a b := by
  intro a
  induction a with
  | nil =>
      intro b
      cases b with
      | nil => simp [lexicographical_compare]
      | cons y ys => simp [lexicographical_compare, List.Lex.nil]
  | cons x xs ih =>
      intro b
      cases b with
      | nil => simp [lexicographical_compare]
      | cons y ys =>
          simp only [lexicographical_compare]
          rcases lt_trichotomy x y with h | h | h
          · simp only [if_pos h, true_iff]
            exact List.Lex.rel h
          · subst h
            simp only [lt_irrefl, if_false]
            rw [ih ys, List.Lex.cons_iff]
          · simp only [if_neg (not_lt_of_gt h), if_pos h, Bool.false_eq_true, false_iff]
            intro hlex
            cases hlex with
            | cons _ => exact lt_irrefl _ h
            | rel h2 => exact lt_asymm h h2

theorem lexicographical_compare_swap {α : Type} [LinearOrder α] :
    ∀ (a b : List α), a ≠ b →
      lexicographical_compare b a = !lexicographical_compare a b := by
  intro a
  induction a with
  | nil =>
      intro b hne
      cases b with
      | nil => exact absurd rfl hne
      | cons y ys => simp [lexicographical_compare]
  | cons x xs ih =>
      intro b hne
      cases b with
      | nil => simp [lexicographical_compare]
      | cons y ys =>
          simp only [lexicographical_compare]
          rcases lt_trichotomy x y with h | h | h
          · simp [if_pos h, if_neg (not_lt_of_gt h)]
          · subst h
            have hne2 : xs ≠ ys := fun h2 => hne (by rw [h2])
            simp only [lt_irrefl, if_false]
            exact ih ys hne2
          · simp [if_pos h, if_neg (not_lt_of_gt h)]

/-- C20: `Compare` returns 0 exactly when the two context sequences are equal,
-1 exactly when the first is lexicographically smaller than the second, and +1
exactly in the remaining case; `a.Compare(b) = -(b.Compare(a))`; and the result
is the same for any two states with the same context sequences, whatever their
context pointer, state pointer and last word. -/
theorem C20_compare {α : Type} [LinearOrder α] (a b : NeuralScoreState α) :
    (a.Compare b = 0 ↔ a.m_lastContext = b.m_lastContext) ∧
    (a.Compare b = -1 ↔ List.Lex (fun x y : α => x < y) a.m_lastContext b.m_lastContext) ∧
    (a.Compare b = 1 ↔ a.m_lastContext ≠ b.m_lastContext ∧
      ¬ List.Lex (fun x y : α => x < y) a.m_lastContext b.m_lastContext) ∧
    a.Compare b = -(b.Compare a) ∧
    ∀ a2 b2 : NeuralScoreState α, a2.m_lastContext = a.m_lastContext →
      b2.m_lastContext = b.m_lastContext → a2.Compare b2 = a.Compare b := by
  have hirr : ¬ List.Lex (fun x y : α => x < y) a.m_lastContext a.m_lastContext := by
    rw [← lexicographical_compare_iff]
    generalize a.m_lastContext = l
    induction l with
    | nil => simp [lexicographical_compare]
    | cons x xs ih => simpa [lexicographical_compare] using ih
  by_cases heq : a.m_lastContext = b.m_lastContext
  · have h1 := (std_equal_iff a.m_lastContext b.m_lastContext).2 heq
    have h2 := (std_equal_iff b.m_lastContext a.m_lastContext).2 heq.symm
    have hab : a.Compare b = 0 := by simp only [NeuralScoreState.Compare, if_pos h1]
    have hba : b.Compare a = 0 := by simp only [NeuralScoreState.Compare, if_pos h2]
    refine ⟨by simp [hab, heq], ?_, by simp [hab, heq], by simp [hab, hba], ?_⟩
    · rw [hab, ← heq]
      simp only [Int.reduceNeg, zero_eq_neg, one_ne_zero, false_iff]
      exact hirr
    · intro a2 b2 ha hb
      simp only [NeuralScoreState.Compare, ha, hb]
  · have h1 : ¬ (a.m_lastContext.length = b.m_lastContext.length ∧
        std_equal a.m_lastContext b.m_lastContext = true) :=
      fun h => heq ((std_equal_iff _ _).1 h)
    have h2 : ¬ (b.m_lastContext.length = a.m_lastContext.length ∧
        std_equal b.m_lastContext a.m_lastContext = true) :=
      fun h => heq ((std_equal_iff _ _).1 h).symm
    have hswap := lexicographical_compare_swap a.m_lastContext b.m_lastContext heq
    have hlex := lexicographical_compare_iff a.m_lastContext b.m_lastContext
    by_cases hl : lexicographical_compare a.m_lastContext b.m_lastContext = true
    · have hab : a.Compare b = -1 := by
        simp only [NeuralScoreState.Compare, if_neg h1, if_pos hl]
      have hba : b.Compare a = 1 := by
        simp only [NeuralScoreState.Compare, if_neg h2, hswap, hl]
        simp
      refine ⟨by simp [hab, heq], by simp [hab, ← hlex, hl], ?_, by simp [hab, hba], ?_⟩
      · rw [hab, ← hlex]
        simp [hl]
      · intro a2 b2 ha hb
        simp only [NeuralScoreState.Compare, ha, hb]
    · have hab : a.Compare b = 1 := by
        simp only [NeuralScoreState.Compare, if_neg h1, if_neg hl]
      have hba : b.Compare a = -1 := by
        have hl2 : lexicographical_compare a.m_lastContext b.m_lastContext = false := by
          simpa using hl
        simp only [NeuralScoreState.Compare, if_neg h2, hswap, hl2]
        simp
      refine ⟨by simp [hab, heq], ?_, ?_, by simp [hab, hba], ?_⟩
      · rw [hab, ← hlex]
        simp [hl]
      · rw [← hlex]
        simp [hab, heq, hl]
      · intro a2 b2 ha hb
        simp only [NeuralScoreState.Compare, ha, hb]

end Moses
